import Mathlib

/-!
# fileutils: parallel external merge sort, shuffle and line splits

A shallow embedding of `SortPar`, `sortOne`, `merge` and the
`stringPosPairHeap` they use (`psort.go`), of `ShufflePar` and `shuffleOne`
(`pshuf.go`) and of `GetLineSplits` (`splitter.go`), together with the
standard-library pieces whose behaviour the program observes:

* `bufio.Scanner` with its default split function `bufio.ScanLines`: a token
  is the bytes up to the next `\n` without one terminal `\r`; a last line
  without `\n` is a token when it is not empty; and `Scan` returns `false`
  (`ErrTooLong`) once `bufio.MaxScanTokenSize` bytes are pending without a
  `\n`. The program never looks at `scanner.Err()`.
* `container/heap`: `Push` and `Pop` with their `up` and `down` loops.
* a buffered channel used as a counting semaphore, and `sync.WaitGroup`.

Files are byte sequences; a Go `string` is a byte sequence compared byte-wise,
which is the lexicographic order on `List Nat`. The file system is a map from
paths to contents. The failures of the environment that are modelled are the
ones the program checks for: `ioutil.TempFile` failing, the input missing, a
shard missing when `merge` opens it, and `os.Create` of the output failing.
The goroutines of the sort phase and of the shuffle phase are transition
systems whose steps are chosen by a schedule; the random choices of
`ShufflePar` are a parameter.
-/

namespace Fileutils

/-! ## Bytes, strings, files -/

/-- A byte. Values are meant to be below 256; nothing below depends on it. -/
abbrev Byte := Nat

/-- A Go `string`: a sequence of bytes. `<` on it is byte-wise lexicographic. -/
abbrev Line := List Byte

/-- A file name. -/
abbrev Path := Nat

/-- The file system: the content of every file that exists. -/
abbrev FS := Path → Option (List Byte)

/-- The effect of writing the whole content `c` to the file `p`. -/
def FS.write (fs : FS) (p : Path) (c : List Byte) : FS :=
  fun q => if q = p then some c else fs q

/-- The error values `SortPar` can return. -/
inductive PathError where
  | openFailed (p : Path)
  | createFailed (p : Path)
  | tempFileFailed
  deriving DecidableEq, Repr

/-- What the environment decides: the names `ioutil.TempFile` tries, in order,
the paths at which `os.Create` succeeds, and the number of bytes `make` can
allocate in one piece: the constant `maxAlloc` of the runtime (`2^48` on
linux/amd64), against which `make` checks a size computed from a parameter.
The allocations of a fixed size in the program (1024 strings, 4096 bytes) are
far below it on every platform and always go through. -/
structure Env where
  tempNames : List Path
  canCreate : Path → Bool
  maxAlloc : Nat

/-- The size in bytes of a channel header (`hchanSize` of the runtime on a
64-bit platform). -/
def hchanSize : Nat := 96

/-- Whether `make([]T, n)` goes through for elements of `elemSize` bytes. It
panics (`makeslice: len out of range`) when `n` is negative or
`elemSize * n` is more than can be allocated. On a 64-bit platform a `string`
takes 16 bytes, an `int64` and a pointer 8. -/
def Env.makeSlice (env : Env) (elemSize : Nat) (n : Int) : Bool :=
  decide (0 ≤ n ∧ elemSize * n.toNat ≤ env.maxAlloc)

/-- Whether `make(chan T, n)` goes through for elements of `elemSize` bytes.
It panics (`makechan: size out of range`) when `n` is negative or
`elemSize * n` is more than can be allocated next to the channel header. On a
64-bit platform an `interface{}` takes 16 bytes. -/
def Env.makeChan (env : Env) (elemSize : Nat) (n : Int) : Bool :=
  decide (0 ≤ n ∧ elemSize * n.toNat + hchanSize ≤ env.maxAlloc)

/-! ## `bufio.Scanner` with `bufio.ScanLines` -/

/-- The constant `bufio.MaxScanTokenSize`: the scanner's buffer never grows
beyond it. -/
def MaxScanTokenSize : Nat := 64 * 1024

/-- The function `dropCR` of `bufio`: drop one terminal `\r`. -/
def dropCR (data : List Byte) : List Byte :=
  if data.getLast? = some 13 then data.dropLast else data

/-- One call of `scanner.Scan()` on a scanner with `data` still unread:
`some (tok, rest)` when it returns `true` with `scanner.Text() = tok`, and
`none` when it returns `false`.
The pending bytes up to the first `\n` are the raw line. The scanner gives up
with `ErrTooLong` once `MaxScanTokenSize` bytes are pending without a `\n`;
otherwise the token is the raw line without one terminal `\r`, and a final
raw line without `\n` is a token when it is not empty. -/
def Scan (data : List Byte) : Option (Line × List Byte) :=
  let raw := data.takeWhile (fun b => b != 10)
  if MaxScanTokenSize ≤ raw.length then none
  else
    match data.dropWhile (fun b => b != 10) with
    | _ :: rest => some (dropCR raw, rest)
    | [] => if raw.isEmpty then none else some (dropCR raw, [])

/-- The loop `for scanner.Scan() { lines = append(lines, scanner.Text()) }`,
run for at most `fuel` iterations. -/
def scanLoop : Nat → List Byte → List Line
  | 0, _ => []
  | fuel + 1, data =>
    match Scan data with
    | none => []
    | some (tok, rest) => tok :: scanLoop fuel rest

/-- All the tokens a fresh scanner yields on a file with content `data`.
Each successful `Scan` consumes at least one byte or is the last one, so
`data.length + 1` iterations are enough. -/
def scanAll (data : List Byte) : List Line :=
  scanLoop (data.length + 1) data

/-- The bytes produced by `writer.WriteString(line + "\n")` for each line in
turn. -/
def writeLines (lines : List Line) : List Byte :=
  (lines.map (fun l => l ++ [10])).flatten

/-! ## `sortOne` -/

/-- The call `sort.Strings(lines)`: the lines in non-decreasing order. Equal
strings are indistinguishable and the order is total, so every sorting
algorithm returns this list. -/
def sortStrings (lines : List Line) : List Line :=
  lines.insertionSort (fun a b => a ≤ b)

/-- What `sortOne` leaves in a scratch file that held `data`. -/
def sortOneContent (data : List Byte) : List Byte :=
  writeLines (sortStrings (scanAll data))

/-- The file-system effect of `sortOne(scratchfile, ...)`: read the lines,
sort them, create the file anew and write them back. The send on the
semaphore before, and the receive and `wg.Done()` after, are steps of
`poolStep`. -/
def sortOne (fs : FS) (scratchfile : Path) : FS :=
  fs.write scratchfile (sortOneContent ((fs scratchfile).getD []))

/-! ## `stringPosPairHeap` and `container/heap` -/

/-- A string that came from the reader at index `pos`. -/
structure stringPosPair where
  str : Line
  pos : Nat
  deriving DecidableEq, Repr

instance : Inhabited stringPosPair := ⟨⟨[], 0⟩⟩

/-- A heap of `stringPosPair`, laid out in a slice. -/
abbrev stringPosPairHeap := List stringPosPair

namespace stringPosPairHeap

/-- The method `Len`: `len(h)`. -/
def Len (h : stringPosPairHeap) : Nat := h.length

/-- The method `Less`: `h[i].str < h[j].str`. -/
def Less (h : stringPosPairHeap) (i j : Nat) : Bool :=
  decide ((h.getD i default).str < (h.getD j default).str)

/-- The method `Swap`: `h[i], h[j] = h[j], h[i]`. -/
def Swap (h : stringPosPairHeap) (i j : Nat) : stringPosPairHeap :=
  (h.set i (h.getD j default)).set j (h.getD i default)

/-- The method `Push`: append `x` to the slice. -/
def Push (h : stringPosPairHeap) (x : stringPosPair) : stringPosPairHeap :=
  h ++ [x]

/-- The method `Pop`: the last element `old[n-1]` and the slice `old[0 : n-1]`. -/
def Pop (h : stringPosPairHeap) : stringPosPair × stringPosPairHeap :=
  (h.getD (h.length - 1) default, h.take (h.length - 1))

end stringPosPairHeap

namespace heap

open stringPosPairHeap

/-- The function `up` of `container/heap`; `fuel` bounds the iterations. -/
def up : Nat → stringPosPairHeap → Nat → stringPosPairHeap
  | 0, h, _ => h
  | fuel + 1, h, j =>
    let i := (j - 1) / 2
    if i = j ∨ !(Less h j i) then h
    else up fuel (Swap h i j) i

/-- The function `down` of `container/heap` (its boolean result is unused by
`Pop`); `fuel` bounds the iterations. -/
def down : Nat → stringPosPairHeap → Nat → Nat → stringPosPairHeap
  | 0, h, _, _ => h
  | fuel + 1, h, i, n =>
    let j1 := 2 * i + 1
    if n ≤ j1 then h
    else
      let j := if j1 + 1 < n ∧ Less h (j1 + 1) j1 then j1 + 1 else j1
      if !(Less h j i) then h
      else down fuel (Swap h i j) j n

/-- The function `heap.Push`. -/
def Push (h : stringPosPairHeap) (x : stringPosPair) : stringPosPairHeap :=
  let h1 := stringPosPairHeap.Push h x
  up (Len h1) h1 (Len h1 - 1)

/-- The function `heap.Pop`. -/
def Pop (h : stringPosPairHeap) : stringPosPair × stringPosPairHeap :=
  let n := Len h - 1
  let h1 := Swap h 0 n
  let h2 := down n h1 0 n
  stringPosPairHeap.Pop h2

end heap

/-! ## `merge` -/

/-- The state of `merge`: the heap, what each shard scanner has not read yet,
and the bytes handed to `outwriter` so far. -/
structure MergeState where
  mergeheap : stringPosPairHeap
  tempScanners : List (List Byte)
  written : List Byte

/-- The first loop of `merge` (psort.go:74-84): open shard `i`, scan once and
push the first line when there is one. An `os.Open` failure is returned. -/
def mergeOpen (fs : FS) : List Path → Nat → MergeState → Except PathError MergeState
  | [], _, st => .ok st
  | p :: ps, i, st =>
    match fs p with
    | none => .error (.openFailed p)
    | some data =>
      match Scan data with
      | some (tok, rest) =>
        mergeOpen fs ps (i + 1)
          { st with mergeheap := heap.Push st.mergeheap ⟨tok, i⟩,
                    tempScanners := st.tempScanners ++ [rest] }
      | none =>
        mergeOpen fs ps (i + 1) { st with tempScanners := st.tempScanners ++ [data] }

/-- The body of the second loop of `merge` (psort.go:93-99). -/
def mergeStep (st : MergeState) : MergeState :=
  let thisLowest := (heap.Pop st.mergeheap).1
  let h1 := (heap.Pop st.mergeheap).2
  let thisPos := thisLowest.pos
  let thisTxt := thisLowest.str
  match Scan (st.tempScanners.getD thisPos []) with
  | some (tok, rest) =>
    { mergeheap := heap.Push h1 ⟨tok, thisPos⟩,
      tempScanners := st.tempScanners.set thisPos rest,
      written := st.written ++ (thisTxt ++ [10]) }
  | none =>
    { mergeheap := h1,
      tempScanners := st.tempScanners,
      written := st.written ++ (thisTxt ++ [10]) }

/-- The loop `for mergeheap.Len() != 0 { ... }`, for at most `fuel`
iterations. -/
def mergeLoop : Nat → MergeState → MergeState
  | 0, st => st
  | fuel + 1, st =>
    if st.mergeheap.Len = 0 then st else mergeLoop fuel (mergeStep st)

/-- A bound on the iterations of the merge loop: every iteration either
removes a heap entry for good or consumes at least one unread byte. -/
def mergeFuel (st : MergeState) : Nat :=
  st.mergeheap.length + (st.tempScanners.map List.length).sum

/-- The function `merge(filenames, out)`: the returned error and the file
system it leaves. Shard handles read the content the shard had when it was
opened. -/
def merge (env : Env) (fs : FS) (filenames : List Path) (out : Path) :
    Option PathError × FS :=
  match mergeOpen fs filenames 0 ⟨[], [], []⟩ with
  | .error e => (some e, fs)
  | .ok st0 =>
    if env.canCreate out then
      let st := mergeLoop (mergeFuel st0) st0
      (none, (fs.write out []).write out st.written)
    else (some (.createFailed out), fs)

/-! ## The sort phase: goroutines, semaphore, wait group -/

/-- Where a `sortOne` goroutine stands: before `semaphore <- true`, between
that send and `<-semaphore`, or after `wg.Done()`. -/
inductive TaskPhase where
  | waiting
  | holding
  | finished
  deriving DecidableEq, Repr

/-- One `go sortOne(tempFileNames[i], semaphore, &wg)`. -/
structure Task where
  scratchfile : Path
  phase : TaskPhase

/-- The goroutines started by `SortPar` and the file system they work on. -/
structure PoolState where
  tasks : List Task
  fs : FS

/-- The number of items in the semaphore channel: the tasks that have sent
and not yet received. -/
def PoolState.inFlight (st : PoolState) : Nat :=
  st.tasks.countP (fun t => t.phase = .holding)

/-- Whether goroutine `i` can take its next step. A send on a channel of
capacity `nParSorts` goes through only while fewer than `nParSorts` items are
buffered; the receive and `wg.Done()` never block. -/
def PoolState.enabled (nParSorts : Nat) (st : PoolState) (i : Nat) : Bool :=
  match st.tasks.get? i with
  | some t =>
    match t.phase with
    | .waiting => decide (st.inFlight < nParSorts)
    | .holding => true
    | .finished => false
  | none => false

/-- Goroutine `i` takes its next step, if it can: a waiting task acquires the
semaphore; a holding task reads, sorts and rewrites its scratch file, releases
the semaphore and calls `wg.Done()`. -/
def poolStep (nParSorts : Nat) (st : PoolState) (i : Nat) : PoolState :=
  match st.tasks.get? i with
  | some t =>
    match t.phase with
    | .waiting =>
      if st.inFlight < nParSorts then
        { st with tasks := st.tasks.set i { t with phase := .holding } }
      else st
    | .holding =>
      { tasks := st.tasks.set i { t with phase := .finished },
        fs := sortOne st.fs t.scratchfile }
    | .finished => st
  | none => st

/-- After the schedule is used up the runtime keeps running goroutines that
can run: the first one that can step does, for at most `fuel` steps. -/
def drain (nParSorts : Nat) : Nat → PoolState → PoolState
  | 0, st => st
  | fuel + 1, st =>
    match (List.range st.tasks.length).find? (fun i => st.enabled nParSorts i) with
    | some i => drain nParSorts fuel (poolStep nParSorts st i)
    | none => st

/-- The sort phase up to `wg.Wait()`: the goroutines step in the order
`sched` gives, then the remaining steps are drained (each task has two). -/
def runPool (nParSorts : Nat) (sched : List Nat) (st : PoolState) : PoolState :=
  drain nParSorts (2 * st.tasks.length) (sched.foldl (poolStep nParSorts) st)

/-- The wait-group counter is zero: `wg.Wait()` returns. -/
def PoolState.allFinished (st : PoolState) : Bool :=
  st.tasks.all (fun t => t.phase = .finished)

/-! ## `SortPar` -/

/-- How a call ends: it returns an error value (`none` is `nil`) leaving a
file system, or a run-time panic unwinds it (or the runtime aborts the program
for want of memory), or it never returns because every goroutine is blocked
(the Go runtime may then abort the program). -/
inductive Outcome where
  | returned (err : Option PathError) (fs : FS)
  | panicked
  | deadlocked

/-- The call `ioutil.TempFile("", "parSort")`: the first candidate name that
does not exist is created empty; with no candidate left the call fails. -/
def TempFile (fs : FS) : List Path → Option (Path × List Path × FS)
  | [] => none
  | p :: rest =>
    if (fs p).isSome then TempFile fs rest else some (p, rest, fs.write p [])

/-- The first loop of `SortPar` (psort.go:116-124): `none` when a
`TempFile` call failed, with the file system as it is at that point. -/
def createTemps : Nat → List Path → FS → List Path → Option (List Path) × FS
  | 0, _, fs, names => (some names, fs)
  | n + 1, cands, fs, names =>
    match TempFile fs cands with
    | none => (none, fs)
    | some (p, rest, fs1) => createTemps n rest fs1 (names ++ [p])

/-- The partition loop of `SortPar` (psort.go:131-139) on the bytes each
`tempWriters[j]` has been given; `i` is the line counter. -/
def partitionLoop (nTempFiles : Nat) : List Line → Nat → List (List Byte) → List (List Byte)
  | [], _, ws => ws
  | l :: ls, i, ws =>
    partitionLoop nTempFiles ls (i + 1)
      (ws.modify (fun w => w ++ (l ++ [10])) (i % nTempFiles))

/-- The calls `tempWriters[i].Flush(); tempFDs[i].Close()` for every `i`:
each scratch file, created empty, now holds what its writer was given. -/
def flushAll (fs : FS) : List Path → List (List Byte) → FS
  | p :: ps, w :: ws => flushAll (fs.write p w) ps ws
  | _, _ => fs

/-- The function `SortPar(input, output, nTempFiles, nParSorts)` started on
the file system `fs`, with the goroutines scheduled by `sched`.
`make([]string, nTempFiles)` and `make(chan interface{}, nParSorts)` panic
on a negative size and on one too large to allocate (the two slices of
pointers made after the first are half its size), and `i % nTempFiles` panics
when `nTempFiles` is zero. The line counter `i` cannot overflow: a file has
fewer than `2^63` lines. Every goroutine works on its own scratch file only,
so flushing all the writers before the first goroutine steps gives the same
states as the program, which starts goroutine `i` right after flushing writer
`i`. -/
def SortPar (env : Env) (sched : List Nat) (fs : FS) (input output : Path)
    (nTempFiles nParSorts : Int) : Outcome :=
  if !(env.makeSlice 16 nTempFiles) then .panicked
  else
    let n := nTempFiles.toNat
    match createTemps n env.tempNames fs [] with
    | (none, fs1) => .returned (some .tempFileFailed) fs1
    | (some tempFileNames, fs1) =>
      match fs1 input with
      | none => .returned (some (.openFailed input)) fs1
      | some data =>
        let lines := scanAll data
        if n = 0 ∧ lines ≠ [] then .panicked
        else
          let tempWriters := partitionLoop n lines 0 (List.replicate n [])
          if !(env.makeChan 16 nParSorts) then .panicked
          else
            let fs2 := flushAll fs1 tempFileNames tempWriters
            let pool := runPool nParSorts.toNat sched
              ⟨tempFileNames.map (fun p => ⟨p, .waiting⟩), fs2⟩
            if pool.allFinished then
              .returned (merge env pool.fs tempFileNames output).1
                (merge env pool.fs tempFileNames output).2
            else .deadlocked

/-- The file system before a call: only `input` exists, with content
`data`. -/
def fsWith (input : Path) (data : List Byte) : FS :=
  fun q => if q = input then some data else none

/-- The content of the file `p` after the call, when it returned `nil`. -/
def Outcome.fileAfter (o : Outcome) (p : Path) : Option (List Byte) :=
  match o with
  | .returned none fs => fs p
  | _ => none

/-- How a call ended, without the file system. -/
inductive Verdict where
  | nil
  | error (e : PathError)
  | panic
  | deadlock
  deriving DecidableEq, Repr

/-- How the call ended. -/
def Outcome.verdict : Outcome → Verdict
  | .returned none _ => .nil
  | .returned (some e) _ => .error e
  | .panicked => .panic
  | .deadlocked => .deadlock


/-! ## Predicates used to state the properties -/

/-- The key `h[i].str` that `Less` compares. -/
def key (h : stringPosPairHeap) (i : Nat) : Line := (h.getD i default).str

/-- The heap condition on the first `n` slots: no slot is smaller than its
parent `(k - 1) / 2`. -/
def HeapUpTo (h : stringPosPairHeap) (n : Nat) : Prop :=
  ∀ k, 0 < k → k < n → key h ((k - 1) / 2) ≤ key h k

/-- The heap condition of `container/heap` on the whole slice. -/
def HeapOK (h : stringPosPairHeap) : Prop := HeapUpTo h h.length

/-- The lines of a newline-delimited text, as the specification reads a file:
each `\n` ends a line, and bytes after the last `\n` form a last line
("no trailing-newline requirement"). -/
def splitLines : List Byte → List Line
  | [] => []
  | b :: bs =>
    if b = 10 then [] :: splitLines bs
    else
      match splitLines bs with
      | [] => [[b]]
      | l :: ls => (b :: l) :: ls

/-- A line the scanner can hold: shorter than `MaxScanTokenSize`. -/
def shortLine (l : Line) : Bool := decide (l.length < MaxScanTokenSize)

/-- An input whose lines the scanner hands over unchanged, every time it is
read: each line is shorter than `MaxScanTokenSize` bytes and does not end in
`\r`. -/
def CleanInput (data : List Byte) : Prop :=
  ∀ l ∈ splitLines data, l.length < MaxScanTokenSize ∧ l.getLast? ≠ some 13

/-- An input no line of which ends in three consecutive `\r`. -/
def NoTripleCR (data : List Byte) : Prop :=
  ∀ l ∈ splitLines data, ¬ ([13, 13, 13] <:+ l)

/-- A file that is empty or ends with `\n`. -/
def NewlineTerminated (data : List Byte) : Prop :=
  data = [] ∨ data.getLast? = some 10

/-- The strings held in the heap. -/
def heapLines (h : stringPosPairHeap) : List Line := h.map (fun e => e.str)

/-- The lines the shard scanners have still to yield. -/
def pendingLines (sc : List (List Byte)) : List Line := (sc.map scanAll).flatten

/-- Every shard without a heap entry is exhausted. -/
def NoOrphan (st : MergeState) : Prop :=
  ∀ i, (∀ e ∈ st.mergeheap, e.pos ≠ i) → Scan (st.tempScanners.getD i []) = none

/-- The order facts the merge loop maintains when `out` are the lines written
so far: the heap condition; `out` is sorted and below every heap entry; every
heap entry is below what its shard has still to yield; and every shard yields
its lines in order. -/
def MergeOrdered (st : MergeState) (out : List Line) : Prop :=
  HeapOK st.mergeheap ∧ out.Sorted (fun a b => a ≤ b) ∧
  (∀ o ∈ out, ∀ e ∈ st.mergeheap, o ≤ e.str) ∧
  (∀ e ∈ st.mergeheap, ∀ l ∈ scanAll (st.tempScanners.getD e.pos []), e.str ≤ l) ∧
  (∀ i, (scanAll (st.tempScanners.getD i [])).Sorted (fun a b => a ≤ b))

/-- The steps the goroutines still have to take: two for a waiting task, one
for a holding one. -/
def PoolState.stepsLeft (st : PoolState) : Nat :=
  (st.tasks.map (fun t =>
    match t.phase with
    | .waiting => 2
    | .holding => 1
    | .finished => 0)).sum

/-- What relates a state of the sort phase to the file system `fs0` it
started on: the scratch file of every finished task holds the sorted lines of
what it held at the start, and a file no finished task owns is as it was. -/
def PoolInv (fs0 : FS) (st : PoolState) : Prop :=
  (∀ (i : Nat) (t : Task), st.tasks[i]? = some t → t.phase = .finished →
    st.fs t.scratchfile = some (sortOneContent ((fs0 t.scratchfile).getD []))) ∧
  (∀ p, (∀ (i : Nat) (t : Task), st.tasks[i]? = some t → t.scratchfile = p →
      t.phase ≠ .finished) →
    st.fs p = fs0 p)

/-- The conditions under which a call gets as far as writing the output:
`input` exists and holds `data`, a slice of `N` strings can be allocated, all
`N` scratch files can be created, the output can be created, and the output
path is not a scratch-file name. -/
structure Runs (env : Env) (fs : FS) (input output : Path) (N : Nat)
    (data : List Byte) : Prop where
  input_exists : fs input = some data
  temps_created : (createTemps N env.tempNames fs []).1.isSome = true
  output_creatable : env.canCreate output = true
  output_not_temp : output ∉ env.tempNames
  slices_made : 16 * N ≤ env.maxAlloc

/-- A file system that holds exactly the shards `contents`, shard `j` at path
`j`. -/
def shardFS (contents : List (List Byte)) : FS := fun p => contents[p]?

/-- The bytes `merge` hands to `outwriter` when the shards hold `contents`:
the two loops of `merge` run on them. -/
def mergeBytes (contents : List (List Byte)) : List Byte :=
  match mergeOpen (shardFS contents) (List.range contents.length) 0 ⟨[], [], []⟩ with
  | .ok st0 => (mergeLoop (mergeFuel st0) st0).written
  | .error _ => []

/-- The bytes a call that goes through writes to the output, as a function of
`nTempFiles` and the content of the input: scan and partition, `sortOne` on
every shard, `merge`. The theorem `SortPar_spec` proves that `SortPar` writes
exactly this. -/
def sortParBytes (N : Nat) (data : List Byte) : List Byte :=
  mergeBytes ((partitionLoop N (scanAll data) 0 (List.replicate N [])).map sortOneContent)


/-! ## The partition loop, step by step -/

/-- The partition loop of `SortPar` (psort.go:131-139) with the two run-time
checks of `tempWriters[i%nTempFiles]` made explicit: `none` is a panic, either
the integer division by zero of `i % nTempFiles` or an index out of range. -/
def partitionLoopChecked (nTempFiles : Nat) :
    List Line → Nat → List (List Byte) → Option (List (List Byte))
  | [], _, ws => some ws
  | l :: ls, i, ws =>
    if nTempFiles = 0 then none
    else if i % nTempFiles < ws.length then
      partitionLoopChecked nTempFiles ls (i + 1)
        (ws.modify (fun w => w ++ (l ++ [10])) (i % nTempFiles))
    else none

/-- Shard `j` of `N` as the specification describes it: the lines of `lines`
whose zero-based index `i` has `i mod N = j`, in their order in `lines`. -/
def roundRobin (N j : Nat) (lines : List Line) : List Line :=
  (lines.enum.filter (fun p => decide (p.1 % N = j))).map Prod.snd

/-! ## The merge loop, iteration by iteration -/

/-- The heap entries `thisLowest` that the merge loop pops in its first `k`
iterations, in the order in which it pops them. -/
def mergeTrace : Nat → MergeState → List stringPosPair
  | 0, _ => []
  | k + 1, st =>
    if st.mergeheap.Len = 0 then []
    else (heap.Pop st.mergeheap).1 :: mergeTrace k (mergeStep st)

/-- The strings of the entries that came from shard `i`, in order. -/
def fromShard (i : Nat) (es : List stringPosPair) : List Line :=
  (es.filter (fun e => decide (e.pos = i))).map (fun e => e.str)

/-- The merge-heap invariant, for shards that hold the lines `shards` and the
entries `emitted` popped so far: there is one scanner per shard; no two heap
entries have the same shard index; every heap entry is the first line of its
shard that has not been emitted, and what follows it in the shard is what the
scanner has still to yield; a shard without a heap entry has been emitted in
full and its scanner is exhausted. -/
def MergeInv (shards : List (List Line)) (st : MergeState)
    (emitted : List stringPosPair) : Prop :=
  st.tempScanners.length = shards.length ∧
  (st.mergeheap.map (fun e => e.pos)).Nodup ∧
  (∀ e ∈ emitted, e.pos < shards.length) ∧
  (∀ e ∈ st.mergeheap, e.pos < shards.length ∧
    shards.getD e.pos [] =
      fromShard e.pos emitted ++ e.str :: scanAll (st.tempScanners.getD e.pos [])) ∧
  (∀ i, i < shards.length → (∀ e ∈ st.mergeheap, e.pos ≠ i) →
    shards.getD i [] = fromShard i emitted ∧ Scan (st.tempScanners.getD i []) = none)

/-- A file every line of which is shorter than `MaxScanTokenSize` bytes. -/
def ShortLines (data : List Byte) : Prop :=
  ∀ l ∈ splitLines data, l.length < MaxScanTokenSize

/-- The lines of the files `ps`, one list per file. -/
def shardLines (fs : FS) (ps : List Path) : List (List Line) :=
  ps.map (fun p => splitLines ((fs p).getD []))

/-! ## `GetLineSplits` (splitter.go) -/

/-- The bytes `src` copied over the start of the buffer `b`; what they do not
reach keeps its content, and the buffer keeps its length. -/
def overlay : List Byte → List Byte → List Byte
  | _, [] => []
  | [], b => b
  | x :: xs, _ :: bs => x :: overlay xs bs

/-- The call `fd.ReadAt(b, off)` on a file holding `file`: the bytes of the
file from offset `off` on are copied into `b`, as many as `b` has room for.
Near the end of the file fewer than `len(b)` bytes are read, and the rest of
`b` keeps what earlier reads left there (the returned count and error are
dropped by the caller). -/
def ReadAt (file : List Byte) (b : List Byte) (off : Nat) : List Byte :=
  overlay (file.drop off) b

/-- The loop `for i, v := range tempBuf { if v == newline { ... break } }`:
the index of the first newline in the buffer, `i` being the index of its
first byte. -/
def firstNewline : List Byte → Nat → Option Nat
  | [], _ => none
  | v :: rest, i => if v = 10 then some i else firstNewline rest (i + 1)

/-- The inner loop of `GetLineSplits` (splitter.go:24-34) from `pos` on, with
`limit = (chunk+1)*chunkSize`: the buffer it leaves, and the value stored in
`out[chunk]` when a newline was found. `fuel` bounds the iterations. -/
def searchChunk (file : List Byte) (limit : Nat) :
    Nat → Nat → List Byte → List Byte × Option Nat
  | 0, _, tempBuf => (tempBuf, none)
  | fuel + 1, pos, tempBuf =>
    if pos < limit then
      match firstNewline (ReadAt file tempBuf pos) 0 with
      | some i => (ReadAt file tempBuf pos, some (pos + i))
      | none => searchChunk file limit fuel (pos + 4096) (ReadAt file tempBuf pos)
    else (tempBuf, none)

/-- The body of the outer loop of `GetLineSplits` for one `chunk`, on the
pair of `out` and `tempBuf`. The inner loop starts at `chunk*chunkSize` and
advances by 4096 while below `(chunk+1)*chunkSize`, so it makes at most
`chunkSize` iterations. -/
def splitChunk (file : List Byte) (chunkSize : Nat) (s : List Nat × List Byte)
    (chunk : Nat) : List Nat × List Byte :=
  match searchChunk file ((chunk + 1) * chunkSize) chunkSize (chunk * chunkSize) s.2 with
  | (tempBuf, some p) => (s.1.set chunk p, tempBuf)
  | (tempBuf, none) => (s.1, tempBuf)

/-- The function `GetLineSplits(infile, nSections)`; `none` is a run-time
panic: `make([]int64, nSections)` with a negative length or one too large to
allocate, the nil `FileInfo` of a file that cannot be opened, or the division
`size / nSections` by zero. The positions stay far below `2^63`, so `int64`
arithmetic does not overflow. -/
def GetLineSplits (env : Env) (fs : FS) (infile : Path) (nSections : Int) :
    Option (List Nat) :=
  if !(env.makeSlice 8 nSections) then none
  else
    match fs infile with
    | none => none
    | some file =>
      if nSections = 0 then none
      else
        let chunkSize := file.length / nSections.toNat
        some ((List.range' 1 (nSections.toNat - 1)).foldl (splitChunk file chunkSize)
          (List.replicate nSections.toNat 0, List.replicate 4096 0)).1

/-! ## `ShufflePar` (pshuf.go) -/

/-- One `go shuffleOne(tempFileNames[i], outchan, semaphore, &wg)`: its file,
where it stands, and, once it has read its file, the lines it has still to
send on `out`. -/
structure ShuffleTask where
  input : Path
  phase : TaskPhase
  lines : List Line

/-- The shuffle goroutines, the strings buffered in `outchan`, and the bytes
the main goroutine has handed to `outwriter`. -/
structure ShuffleState where
  tasks : List ShuffleTask
  outchan : List Line
  written : List Byte

/-- The number of items in the semaphore channel. -/
def ShuffleState.inFlight (st : ShuffleState) : Nat :=
  st.tasks.countP (fun t => t.phase = .holding)

/-- The lines a task has still to send: those of its file while it waits,
then the ones it holds. -/
def ShuffleTask.pending (fs : FS) (t : ShuffleTask) : List Line :=
  match t.phase with
  | .waiting => scanAll ((fs t.input).getD [])
  | .holding => t.lines
  | .finished => []

/-- The steps a task and the main goroutine have still to take for the lines
of the task: a send and a receive for every line, and the acquire and the
release when not yet taken. -/
def ShuffleTask.steps (fs : FS) (t : ShuffleTask) : Nat :=
  match t.phase with
  | .waiting => 2 * (t.pending fs).length + 2
  | .holding => 2 * (t.pending fs).length + 1
  | .finished => 0

/-- The steps still to be taken: those of the tasks, and a receive for every
string in the channel. -/
def ShuffleState.stepsLeft (fs : FS) (st : ShuffleState) : Nat :=
  (st.tasks.map (ShuffleTask.steps fs)).sum + st.outchan.length

/-- The lines that have not reached the output yet: those in the channel and
those the tasks have still to send. -/
def ShuffleState.pending (fs : FS) (st : ShuffleState) : List Line :=
  st.outchan ++ (st.tasks.map (ShuffleTask.pending fs)).flatten

/-- The sorted output for an input, as a function of the input alone: the
tokens of the input, scanned twice more, in non-decreasing order, each
followed by `\n`. -/
def sortedOutput (data : List Byte) : List Byte :=
  writeLines (sortStrings ((scanAll data).map (fun l => dropCR (dropCR l))))

/-! ## Concrete inputs -/

/-- An environment in which the scratch files get the names 100, 101, ...,
every `os.Create` succeeds, and `make` can allocate `2^48` bytes. -/
def demoEnv : Env :=
  ⟨[100, 101, 102, 103, 104, 105, 106, 107], fun _ => true, 281474976710656⟩

/-- The lines `banana`, `apple`, `cherry`, `apple`, each followed by `\n`. -/
def fruitInput : List Byte :=
  [98, 97, 110, 97, 110, 97, 10, 97, 112, 112, 108, 101, 10,
   99, 104, 101, 114, 114, 121, 10, 97, 112, 112, 108, 101, 10]

/-- The lines `apple`, `apple`, `banana`, `cherry`, each followed by `\n`. -/
def fruitSorted : List Byte :=
  [97, 112, 112, 108, 101, 10, 97, 112, 112, 108, 101, 10,
   98, 97, 110, 97, 110, 97, 10, 99, 104, 101, 114, 114, 121, 10]

/-- A first line of `MaxScanTokenSize` bytes `a`, then the line `b`. -/
def longInput : List Byte := List.replicate MaxScanTokenSize 97 ++ [10, 98, 10]


/-- Two shards: the lines `a`, `c` and the line `b`. -/
def demoShards : List (List Byte) := [[97, 10, 99, 10], [98, 10]]

end Fileutils

/-! # Properties -/

namespace Fileutils

/-! ## The heap of `container/heap` on `stringPosPairHeap` -/

section HeapLemmas

open stringPosPairHeap

/-- The method `Less` compares the strings of two slots. -/
theorem Less_iff (h : stringPosPairHeap) (i j : Nat) :
    Less h i j = true ↔ (h.getD i default).str < (h.getD j default).str := by
  simp [Less]

theorem length_Swap (h : stringPosPairHeap) (i j : Nat) :
    (Swap h i j).length = h.length := by
  simp [Swap]

theorem getD_Swap (h : stringPosPairHeap) {i j : Nat} (hi : i < h.length)
    (hj : j < h.length) (k : Nat) :
    (Swap h i j).getD k default =
      if k = j then h.getD i default else if k = i then h.getD j default
      else h.getD k default := by
  simp only [Swap, List.getD_eq_getElem?_getD, List.getElem?_set, List.length_set]
  by_cases hkj : k = j
  · subst hkj; simp [hj]
  · by_cases hki : k = i
    · subst hki
      have : ¬ j = k := fun e => hkj e.symm
      simp [this, hi, hkj]
    · have h1 : ¬ j = k := fun e => hkj e.symm
      have h2 : ¬ i = k := fun e => hki e.symm
      simp [h1, h2, hkj, hki]

theorem Swap_perm (h : stringPosPairHeap) {i j : Nat} (hi : i < h.length)
    (hj : j < h.length) : (Swap h i j).Perm h := by
  rw [List.perm_iff_count]
  intro a
  have e1 : h.getD j default = h[j] := by
    simp [List.getD_eq_getElem?_getD, hj]
  have e2 : h.getD i default = h[i] := by
    simp [List.getD_eq_getElem?_getD, hi]
  simp only [Swap, e1, e2]
  have hj' : j < (h.set i h[j]).length := by simpa using hj
  rw [List.count_set _ _ _ _ hj', List.count_set _ _ _ _ hi]
  have hci : h[i] = a → 0 < h.count a := fun e =>
    List.count_pos_iff.mpr (e ▸ List.getElem_mem hi)
  have hcj : h[j] = a → 0 < h.count a := fun e =>
    List.count_pos_iff.mpr (e ▸ List.getElem_mem hj)
  by_cases hij : i = j
  · subst hij
    simp only [List.getElem_set_self, beq_iff_eq]
    by_cases ha : h[i] = a
    · have := hci ha
      simp [ha]; omega
    · simp [ha]
  · simp only [List.getElem_set_ne hij, beq_iff_eq]
    by_cases ha : h[i] = a <;> by_cases hb : h[j] = a
    · have := hci ha
      simp [ha, hb]; omega
    · have := hci ha
      simp [ha, hb]; omega
    · simp [ha, hb]
    · simp [ha, hb]

end HeapLemmas

section HeapOrder

open stringPosPairHeap

theorem key_Swap (h : stringPosPairHeap) {i j : Nat} (hi : i < h.length)
    (hj : j < h.length) (k : Nat) :
    key (Swap h i j) k = if k = j then key h i else if k = i then key h j else key h k := by
  unfold key
  rw [getD_Swap h hi hj k]
  split_ifs <;> rfl

theorem Less_eq_true_iff (h : stringPosPairHeap) (i j : Nat) :
    Less h i j = true ↔ key h i < key h j := by
  simp [Less, key]

theorem parent_lt {k : Nat} (hk : 0 < k) : (k - 1) / 2 < k := by omega

theorem length_up (fuel : Nat) : ∀ (h : stringPosPairHeap) (j : Nat),
    (heap.up fuel h j).length = h.length := by
  induction fuel with
  | zero => intro h j; rfl
  | succ f ih =>
    intro h j
    unfold heap.up
    simp only
    split_ifs
    · rfl
    · rw [ih, length_Swap]

theorem up_perm (fuel : Nat) : ∀ (h : stringPosPairHeap) (j : Nat), j < h.length →
    (heap.up fuel h j).Perm h := by
  induction fuel with
  | zero => intro h j _; exact List.Perm.refl _
  | succ f ih =>
    intro h j hj
    unfold heap.up
    simp only
    split_ifs
    · exact List.Perm.refl _
    · have hi : (j - 1) / 2 < h.length := by omega
      exact (ih _ _ (by rw [length_Swap]; exact hi)).trans (Swap_perm h hi hj)

/-- Sifting up restores the heap condition when slot `j` is the only one that
may be smaller than its parent. -/
theorem up_heap (fuel : Nat) : ∀ (h : stringPosPairHeap) (j : Nat),
    j < fuel → j < h.length →
    (∀ k, 0 < k → k < h.length → k ≠ j → key h ((k - 1) / 2) ≤ key h k) →
    (∀ k, 0 < k → k < h.length → (k - 1) / 2 = j → 0 < j →
      key h ((j - 1) / 2) ≤ key h k) →
    HeapOK (heap.up fuel h j) := by
  induction fuel with
  | zero => intro h j hf; omega
  | succ f ih =>
    intro h j hf hj h1 h2
    unfold heap.up
    simp only
    by_cases hij : (j - 1) / 2 = j
    · simp only [hij, true_or, if_true]
      intro k hk hkl
      apply h1 k hk hkl
      omega
    · by_cases hless : Less h j ((j - 1) / 2) = true
      · have hjpos : 0 < j := by omega
        have hi : (j - 1) / 2 < h.length := by omega
        have hlt : key h j < key h ((j - 1) / 2) := (Less_eq_true_iff _ _ _).1 hless
        simp only [hij, hless, Bool.not_true, false_or, Bool.false_eq_true, if_false]
        apply ih
        · omega
        · rw [length_Swap]; exact hi
        · intro k hk hkl hki
          rw [length_Swap] at hkl
          rw [key_Swap h hi hj, key_Swap h hi hj]
          by_cases hkj : k = j
          · subst hkj
            simp only [if_true]
            have : ¬ (k - 1) / 2 = k := hij
            simp only [this, if_false, if_true]
            exact le_of_lt hlt
          · simp only [hkj, hki, if_false]
            by_cases hp : (k - 1) / 2 = j
            · simp only [hp, if_true]
              exact h2 k hk hkl hp hjpos
            · simp only [hp, if_false]
              by_cases hp2 : (k - 1) / 2 = (j - 1) / 2
              · simp only [hp2, if_true]
                have := h1 k hk hkl hkj
                rw [hp2] at this
                exact le_trans (le_of_lt hlt) this
              · simp only [hp2, if_false]
                exact h1 k hk hkl hkj
        · intro k hk hkl hp hipos
          rw [length_Swap] at hkl
          rw [key_Swap h hi hj, key_Swap h hi hj]
          have hpi : ¬ ((j - 1) / 2 - 1) / 2 = j := by omega
          have hpi2 : ¬ ((j - 1) / 2 - 1) / 2 = (j - 1) / 2 := by omega
          have hki : ¬ k = (j - 1) / 2 := by omega
          simp only [hpi, hpi2, hki, if_false]
          have hpar : key h (((j - 1) / 2 - 1) / 2) ≤ key h ((j - 1) / 2) :=
            h1 _ hipos hi (by omega)
          by_cases hkj : k = j
          · simp only [hkj, if_true]
            exact hpar
          · simp only [hkj, if_false]
            have := h1 k hk hkl hkj
            rw [hp] at this
            exact le_trans hpar this
      · have hnl : ¬ key h j < key h ((j - 1) / 2) := fun hh =>
          hless ((Less_eq_true_iff _ _ _).2 hh)
        have hless' : Less h j ((j - 1) / 2) = false := by simpa using hless
        simp only [hless', Bool.not_false, or_true, if_true]
        intro k hk hkl
        by_cases hkj : k = j
        · subst hkj; exact not_lt.mp hnl
        · exact h1 k hk hkl hkj

end HeapOrder

section HeapDown

open stringPosPairHeap

theorem length_down (fuel : Nat) : ∀ (h : stringPosPairHeap) (i n : Nat),
    (heap.down fuel h i n).length = h.length := by
  induction fuel with
  | zero => intro h i n; rfl
  | succ f ih =>
    intro h i n
    unfold heap.down
    simp only
    split_ifs <;> first | rfl | (rw [ih, length_Swap])

theorem down_perm (fuel : Nat) : ∀ (h : stringPosPairHeap) (i n : Nat), n ≤ h.length →
    (heap.down fuel h i n).Perm h := by
  induction fuel with
  | zero => intro h i n _; exact List.Perm.refl _
  | succ f ih =>
    intro h i n hn
    unfold heap.down
    simp only
    split_ifs with c1 c2 c3 c4
    · exact List.Perm.refl _
    · exact List.Perm.refl _
    · exact (ih _ _ _ (by rw [length_Swap]; exact hn)).trans
        (Swap_perm h (by omega) (by omega))
    · exact List.Perm.refl _
    · exact (ih _ _ _ (by rw [length_Swap]; exact hn)).trans
        (Swap_perm h (by omega) (by omega))

/-- Sifting down inside the first `n` slots leaves the slots from `n` on
untouched. -/
theorem down_getD_ge (fuel : Nat) : ∀ (h : stringPosPairHeap) (i n k : Nat),
    n ≤ h.length → n ≤ k →
    (heap.down fuel h i n).getD k default = h.getD k default := by
  induction fuel with
  | zero => intro h i n k _ _; rfl
  | succ f ih =>
    intro h i n k hn hk
    unfold heap.down
    simp only
    split_ifs with c1 c2 c3 c4
    · rfl
    · rfl
    · rw [ih _ _ _ _ (by rw [length_Swap]; exact hn) hk,
        getD_Swap h (by omega) (by omega)]
      have a1 : ¬ k = 2 * i + 1 + 1 := by omega
      have a2 : ¬ k = i := by omega
      simp [a1, a2]
    · rfl
    · rw [ih _ _ _ _ (by rw [length_Swap]; exact hn) hk,
        getD_Swap h (by omega) (by omega)]
      have a1 : ¬ k = 2 * i + 1 := by omega
      have a2 : ¬ k = i := by omega
      simp [a1, a2]

/-- Sifting down restores the heap condition on the first `n` slots when `i`
is the only slot that may be larger than one of its children. -/
theorem down_heap (fuel : Nat) : ∀ (h : stringPosPairHeap) (i n : Nat),
    n ≤ i + fuel → n ≤ h.length →
    (∀ k, 0 < k → k < n → (k - 1) / 2 ≠ i → key h ((k - 1) / 2) ≤ key h k) →
    (∀ k, 0 < k → k < n → (k - 1) / 2 = i → 0 < i →
      key h ((i - 1) / 2) ≤ key h k) →
    HeapUpTo (heap.down fuel h i n) n := by
  induction fuel with
  | zero =>
    intro h i n hf hn h1 h2 k hk hkn
    exact h1 k hk hkn (by omega)
  | succ f ih =>
    intro h i n hf hn h1 h2
    unfold heap.down
    simp only
    by_cases c1 : n ≤ 2 * i + 1
    · simp only [c1, if_true]
      intro k hk hkn
      exact h1 k hk hkn (by omega)
    · simp only [c1, if_false]
      have hil : i < h.length := by omega
      -- the smaller child `j` and what is known about it
      have hchild : ∀ j, (j = 2 * i + 1 ∨ j = 2 * i + 2) → j < n →
          (∀ k, 0 < k → k < n → (k - 1) / 2 = i → key h j ≤ key h k) →
          HeapUpTo (if !(Less h j i) then h else heap.down f (Swap h i j) j n) n := by
        intro j hj hjn hmin
        have hjl : j < h.length := by omega
        have hpj : (j - 1) / 2 = i := by omega
        by_cases hless : Less h j i = true
        · have hlt : key h j < key h i := (Less_eq_true_iff _ _ _).1 hless
          simp only [hless, Bool.not_true, Bool.false_eq_true, if_false]
          apply ih
          · omega
          · rw [length_Swap]; exact hn
          · intro k hk hkn hpk
            have hkl : k < h.length := by omega
            rw [key_Swap h hil hjl, key_Swap h hil hjl]
            have hpk' : ¬ (k - 1) / 2 = j := hpk
            simp only [hpk', if_false]
            by_cases hpi : (k - 1) / 2 = i
            · simp only [hpi, if_true]
              by_cases hkj : k = j
              · simp only [hkj, if_true]; exact le_of_lt hlt
              · have hki : ¬ k = i := by omega
                simp only [hkj, hki, if_false]
                exact hmin k hk hkn hpi
            · simp only [hpi, if_false]
              have hkj : ¬ k = j := by omega
              simp only [hkj, if_false]
              by_cases hki : k = i
              · simp only [hki, if_true]
                have hipos : 0 < i := by omega
                exact h2 j (by omega) hjn hpj hipos
              · simp only [hki, if_false]
                exact h1 k hk hkn hpi
          · intro k hk hkn hpk hjpos
            rw [key_Swap h hil hjl, key_Swap h hil hjl]
            have a1 : ¬ (j - 1) / 2 = j := by omega
            have a2 : ¬ k = j := by omega
            have a3 : ¬ k = i := by omega
            have a4 : ¬ i = j := by omega
            simp only [a1, a2, a3, a4, hpj, if_false, if_true]
            have := h1 k hk hkn (by omega)
            rw [hpk] at this
            exact this
        · have hless' : Less h j i = false := by simpa using hless
          have hnl : ¬ key h j < key h i := fun hh =>
            hless ((Less_eq_true_iff _ _ _).2 hh)
          simp only [hless', Bool.not_false, if_true]
          intro k hk hkn
          by_cases hpk : (k - 1) / 2 = i
          · rw [hpk]
            exact le_trans (not_lt.mp hnl) (hmin k hk hkn hpk)
          · exact h1 k hk hkn hpk
      by_cases c2 : 2 * i + 1 + 1 < n ∧ Less h (2 * i + 1 + 1) (2 * i + 1) = true
      · simp only [c2, and_self, if_true]
        have hlt : key h (2 * i + 1 + 1) < key h (2 * i + 1) :=
          (Less_eq_true_iff _ _ _).1 c2.2
        apply hchild (2 * i + 1 + 1) (Or.inr rfl) c2.1
        intro k hk hkn hpk
        have : k = 2 * i + 1 ∨ k = 2 * i + 1 + 1 := by omega
        rcases this with e | e
        · rw [e]; exact le_of_lt hlt
        · rw [e]
      · simp only [c2, if_false]
        apply hchild (2 * i + 1) (Or.inl rfl) (by omega)
        intro k hk hkn hpk
        have : k = 2 * i + 1 ∨ k = 2 * i + 1 + 1 := by omega
        rcases this with e | e
        · rw [e]
        · rw [e]
          have hkn' : 2 * i + 1 + 1 < n := by omega
          have hnl : ¬ Less h (2 * i + 1 + 1) (2 * i + 1) = true := fun hh => c2 ⟨hkn', hh⟩
          have : ¬ key h (2 * i + 1 + 1) < key h (2 * i + 1) := fun hh =>
            hnl ((Less_eq_true_iff _ _ _).2 hh)
          exact not_lt.mp this

end HeapDown

section HeapOps

open stringPosPairHeap

theorem length_heapPush (h : stringPosPairHeap) (x : stringPosPair) :
    (heap.Push h x).length = h.length + 1 := by
  simp [heap.Push, stringPosPairHeap.Push, length_up]

theorem heapPush_perm (h : stringPosPairHeap) (x : stringPosPair) :
    (heap.Push h x).Perm (x :: h) := by
  unfold heap.Push stringPosPairHeap.Push
  simp only [Len]
  refine (up_perm _ _ _ (by simp)).trans ?_
  exact List.perm_append_comm

theorem key_append_left (h : stringPosPairHeap) (x : stringPosPair) {k : Nat}
    (hk : k < h.length) : key (h ++ [x]) k = key h k := by
  simp [key, List.getD_eq_getElem?_getD, List.getElem?_append_left hk]

/-- The function `heap.Push` keeps the heap condition. -/
theorem heapPush_ok (h : stringPosPairHeap) (x : stringPosPair) (hh : HeapOK h) :
    HeapOK (heap.Push h x) := by
  unfold heap.Push stringPosPairHeap.Push
  simp only [Len, List.length_append, List.length_singleton, Nat.add_sub_cancel]
  apply up_heap
  · omega
  · simp
  · intro k hk hkl hkj
    have hkl' : k < h.length := by
      simp only [List.length_append, List.length_singleton] at hkl; omega
    rw [key_append_left h x hkl', key_append_left h x (by omega)]
    exact hh k hk hkl'
  · intro k hk hkl hp _
    simp only [List.length_append, List.length_singleton] at hkl
    omega

/-- In a heap the root carries a smallest key. -/
theorem heap_root_le (h : stringPosPairHeap) (n : Nat) (hh : HeapUpTo h n) :
    ∀ k, k < n → key h 0 ≤ key h k := by
  intro k
  induction k using Nat.strong_induction_on with
  | _ k ih =>
    intro hk
    by_cases h0 : k = 0
    · subst h0; exact le_refl _
    · have hp : (k - 1) / 2 < k := by omega
      exact le_trans (ih _ hp (by omega)) (hh k (by omega) hk)

theorem length_heapPop (h : stringPosPairHeap) :
    (heap.Pop h).2.length = h.length - 1 := by
  simp [heap.Pop, stringPosPairHeap.Pop, length_down, length_Swap, Len]

theorem heapPop_fst (h : stringPosPairHeap) (hne : h ≠ []) :
    (heap.Pop h).1 = h.getD 0 default := by
  have hl : 0 < h.length := List.length_pos.mpr hne
  unfold heap.Pop stringPosPairHeap.Pop
  simp only [Len, length_down, length_Swap]
  rw [down_getD_ge _ _ _ _ _ (by rw [length_Swap]; omega) (le_refl _),
    getD_Swap h hl (by omega)]
  simp

theorem last_cons_take_perm (d : stringPosPairHeap) (hne : d ≠ []) :
    (d.getD (d.length - 1) default :: d.take (d.length - 1)).Perm d := by
  cases hg : d.getLast? with
  | none => exact absurd (List.getLast?_eq_none_iff.mp hg) hne
  | some y =>
    have h1 : d.dropLast ++ [y] = d := List.dropLast_append_getLast? y (by simp [hg])
    have h2 : d.getD (d.length - 1) default = y := by
      rw [List.getLast?_eq_getElem?] at hg
      simp [List.getD_eq_getElem?_getD, hg]
    rw [h2, ← List.dropLast_eq_take]
    conv_rhs => rw [← h1]
    exact @List.perm_append_comm _ [y] d.dropLast

theorem heapPop_perm (h : stringPosPairHeap) (hne : h ≠ []) :
    ((heap.Pop h).1 :: (heap.Pop h).2).Perm h := by
  have hl : 0 < h.length := List.length_pos.mpr hne
  have hp : (heap.down (h.length - 1) (Swap h 0 (h.length - 1)) 0 (h.length - 1)).Perm h :=
    (down_perm _ _ _ _ (by rw [length_Swap]; omega)).trans
      (Swap_perm h hl (by omega))
  refine List.Perm.trans ?_ hp
  unfold heap.Pop stringPosPairHeap.Pop
  simp only [Len]
  apply last_cons_take_perm
  intro e
  have := congrArg List.length e
  rw [length_down, length_Swap, List.length_nil] at this
  omega

/-- The function `heap.Pop` returns an entry with a smallest string. -/
theorem heapPop_min (h : stringPosPairHeap) (hne : h ≠ []) (hh : HeapOK h) :
    ∀ y ∈ h, (heap.Pop h).1.str ≤ y.str := by
  intro y hy
  rw [heapPop_fst h hne]
  obtain ⟨k, hk, rfl⟩ := List.getElem_of_mem hy
  have := heap_root_le h h.length hh k hk
  simpa [key, List.getD_eq_getElem?_getD, hk] using this

theorem key_take (d : stringPosPairHeap) {n k : Nat} (hk : k < n) :
    key (d.take n) k = key d k := by
  simp [key, List.getD_eq_getElem?_getD, List.getElem?_take, hk]

/-- The function `heap.Pop` keeps the heap condition on what remains. -/
theorem heapPop_ok (h : stringPosPairHeap) (hh : HeapOK h) : HeapOK (heap.Pop h).2 := by
  by_cases hne : h = []
  · subst hne
    intro k hk hkl
    rw [length_heapPop] at hkl
    simp at hkl
  have hl : 0 < h.length := List.length_pos.mpr hne
  have hd : HeapUpTo (heap.down (h.length - 1) (Swap h 0 (h.length - 1)) 0 (h.length - 1))
      (h.length - 1) := by
    apply down_heap
    · omega
    · rw [length_Swap]; omega
    · intro k hk hkn hp
      rw [key_Swap h hl (by omega), key_Swap h hl (by omega)]
      have a1 : ¬ (k - 1) / 2 = h.length - 1 := by omega
      have a2 : ¬ k = h.length - 1 := by omega
      have a3 : ¬ k = 0 := by omega
      simp only [a1, a2, a3, hp, if_false]
      exact hh k hk (by omega)
    · intro k _ _ _ h0
      omega
  intro k hk hkl
  rw [length_heapPop] at hkl
  unfold heap.Pop stringPosPairHeap.Pop
  simp only [Len, length_down, length_Swap]
  rw [key_take _ hkl, key_take _ (by omega)]
  exact hd k hk hkl

end HeapOps

/-! ## The scanner -/

section Scanner

/-- The order on `Line` is the one Go uses for strings: the first differing
byte decides, and a proper prefix comes first. -/
theorem string_order_examples :
    ([] : Line) < [0] ∧ ([97] : Line) < [97, 1] ∧ ([97, 255] : Line) < [98] ∧
    ([97, 1] : Line) < [97, 13] ∧ ¬ (([97] : Line) < [97]) ∧ ([97] : Line) ≤ [97] := by
  decide

theorem takeWhile_no_newline (d : List Byte) : (10 : Byte) ∉ d.takeWhile (fun b => b != 10) := by
  intro h
  have := List.mem_takeWhile_imp h
  simp at this

theorem takeWhile_line (l rest : List Byte) (hl : (10 : Byte) ∉ l) :
    (l ++ 10 :: rest).takeWhile (fun b => b != 10) = l := by
  induction l with
  | nil => simp
  | cons a t ih =>
    have ha : a ≠ 10 := fun e => hl (by simp [e])
    have ht : (10 : Byte) ∉ t := fun e => hl (by simp [e])
    simp [List.takeWhile_cons, ha, ih ht]

theorem dropWhile_line (l rest : List Byte) (hl : (10 : Byte) ∉ l) :
    (l ++ 10 :: rest).dropWhile (fun b => b != 10) = 10 :: rest := by
  induction l with
  | nil => simp
  | cons a t ih =>
    have ha : a ≠ 10 := fun e => hl (by simp [e])
    have ht : (10 : Byte) ∉ t := fun e => hl (by simp [e])
    simp [List.dropWhile_cons, ha, ih ht]

theorem takeWhile_last (l : List Byte) (hl : (10 : Byte) ∉ l) :
    l.takeWhile (fun b => b != 10) = l := by
  rw [List.takeWhile_eq_self_iff]
  intro a ha
  have : a ≠ 10 := fun e => hl (e ▸ ha)
  simpa using this

theorem dropWhile_last (l : List Byte) (hl : (10 : Byte) ∉ l) :
    l.dropWhile (fun b => b != 10) = [] := by
  rw [List.dropWhile_eq_nil_iff]
  intro a ha
  have : a ≠ 10 := fun e => hl (e ▸ ha)
  simpa using this

/-- Every file is a newline-free raw line followed by nothing or by `\n` and
the rest. -/
theorem raw_line_cases (d : List Byte) :
    (d = d.takeWhile (fun b => b != 10) ∧ d.dropWhile (fun b => b != 10) = []) ∨
    ∃ rest, d = d.takeWhile (fun b => b != 10) ++ 10 :: rest ∧
      d.dropWhile (fun b => b != 10) = 10 :: rest := by
  have h := List.takeWhile_append_dropWhile (fun b => b != 10) d
  cases hd : d.dropWhile (fun b => b != 10) with
  | nil => left; rw [hd] at h; simpa using h.symm
  | cons a rest =>
    right
    have ha : a = 10 := by
      have := List.head_dropWhile_not (fun b => b != 10) d
        (by rw [hd]; simp)
      simpa [hd] using this
    subst ha
    exact ⟨rest, by rw [hd] at h; exact h.symm, rfl⟩

theorem Scan_line (l rest : List Byte) (hl : (10 : Byte) ∉ l)
    (hs : l.length < MaxScanTokenSize) :
    Scan (l ++ 10 :: rest) = some (dropCR l, rest) := by
  unfold Scan
  simp only [takeWhile_line l rest hl, dropWhile_line l rest hl]
  rw [if_neg (by omega)]

theorem Scan_last (l : List Byte) (hl : (10 : Byte) ∉ l) (hne : l ≠ [])
    (hs : l.length < MaxScanTokenSize) :
    Scan l = some (dropCR l, []) := by
  unfold Scan
  simp only [takeWhile_last l hl, dropWhile_last l hl]
  rw [if_neg (by omega)]
  simp [hne]

theorem Scan_too_long_line (l rest : List Byte) (hl : (10 : Byte) ∉ l)
    (hs : MaxScanTokenSize ≤ l.length) : Scan (l ++ 10 :: rest) = none := by
  unfold Scan
  simp only [takeWhile_line l rest hl]
  rw [if_pos hs]

theorem Scan_too_long_last (l : List Byte) (hl : (10 : Byte) ∉ l)
    (hs : MaxScanTokenSize ≤ l.length) : Scan l = none := by
  unfold Scan
  simp only [takeWhile_last l hl]
  rw [if_pos hs]

theorem Scan_nil : Scan [] = none := by decide

/-- A successful `Scan` consumes at least one byte. -/
theorem Scan_rest_length {d : List Byte} {t : Line} {r : List Byte}
    (h : Scan d = some (t, r)) : r.length < d.length := by
  rcases raw_line_cases d with ⟨h1, h2⟩ | ⟨rest, h1, h2⟩
  · unfold Scan at h
    simp only [h2] at h
    split_ifs at h with c1 c2
    simp only [Option.some.injEq, Prod.mk.injEq] at h
    rw [← h.2]
    have : d ≠ [] := by
      intro e
      rw [e] at c2
      simp at c2
    simpa using List.length_pos.mpr this
  · unfold Scan at h
    simp only [h2] at h
    split_ifs at h with c1
    simp only [Option.some.injEq, Prod.mk.injEq] at h
    rw [← h.2]
    conv_rhs => rw [h1]
    simp
    omega

theorem scanLoop_fuel : ∀ (f g : Nat) (d : List Byte), d.length < f → d.length < g →
    scanLoop f d = scanLoop g d := by
  intro f
  induction f with
  | zero => intro g d hf; omega
  | succ f ih =>
    intro g d hf hg
    cases g with
    | zero => omega
    | succ g =>
      unfold scanLoop
      cases hs : Scan d with
      | none => rfl
      | some tr =>
        obtain ⟨t, r⟩ := tr
        have := Scan_rest_length hs
        simp only
        rw [ih g r (by omega) (by omega)]

theorem scanAll_none {d : List Byte} (h : Scan d = none) : scanAll d = [] := by
  simp [scanAll, scanLoop, h]

theorem scanAll_some {d : List Byte} {t : Line} {r : List Byte}
    (h : Scan d = some (t, r)) : scanAll d = t :: scanAll r := by
  have hl := Scan_rest_length h
  unfold scanAll
  rw [scanLoop.eq_2]
  simp only [h]
  rw [scanLoop_fuel d.length (r.length + 1) r hl (by omega)]

theorem scanAll_nil : scanAll [] = [] := by decide

theorem length_dropCR_le (l : List Byte) : (dropCR l).length ≤ l.length := by
  unfold dropCR
  split_ifs <;> simp

theorem not_mem_dropCR {l : List Byte} {b : Byte} (h : b ∉ l) : b ∉ dropCR l := by
  unfold dropCR
  split_ifs
  · exact fun hb => h (List.mem_of_mem_dropLast hb)
  · exact h

/-- Every token the scanner returns is free of `\n` and shorter than
`MaxScanTokenSize`. -/
theorem Scan_token {d : List Byte} {t : Line} {r : List Byte}
    (h : Scan d = some (t, r)) : (10 : Byte) ∉ t ∧ t.length < MaxScanTokenSize := by
  have hraw := takeWhile_no_newline d
  have key : MaxScanTokenSize > (d.takeWhile (fun b => b != 10)).length ∧
      t = dropCR (d.takeWhile (fun b => b != 10)) := by
    rcases raw_line_cases d with ⟨_, h2⟩ | ⟨rest, _, h2⟩
    · unfold Scan at h
      simp only [h2] at h
      split_ifs at h with c1 c2
      simp only [Option.some.injEq, Prod.mk.injEq] at h
      exact ⟨by omega, h.1.symm⟩
    · unfold Scan at h
      simp only [h2] at h
      split_ifs at h with c1
      simp only [Option.some.injEq, Prod.mk.injEq] at h
      exact ⟨by omega, h.1.symm⟩
  rw [key.2]
  refine ⟨not_mem_dropCR hraw, ?_⟩
  have := length_dropCR_le (d.takeWhile (fun b => b != 10))
  omega

theorem scanAll_token : ∀ (n : Nat) (d : List Byte), d.length ≤ n →
    ∀ l ∈ scanAll d, (10 : Byte) ∉ l ∧ l.length < MaxScanTokenSize := by
  intro n
  induction n with
  | zero =>
    intro d hd l hl
    have : d = [] := List.length_eq_zero.mp (by omega)
    subst this
    rw [scanAll_nil] at hl
    cases hl
  | succ n ih =>
    intro d hd l hl
    cases hs : Scan d with
    | none => rw [scanAll_none hs] at hl; cases hl
    | some tr =>
      obtain ⟨t, r⟩ := tr
      rw [scanAll_some hs] at hl
      rcases List.mem_cons.mp hl with e | e
      · rw [e]; exact Scan_token hs
      · have := Scan_rest_length hs
        exact ih r (by omega) l e

/-- Reading back what `WriteString(line + "\n")` wrote: each line comes back
without one terminal `\r`. -/
theorem scanAll_writeLines (ls : List Line)
    (h : ∀ l ∈ ls, (10 : Byte) ∉ l ∧ l.length < MaxScanTokenSize) :
    scanAll (writeLines ls) = ls.map dropCR := by
  induction ls with
  | nil => simp [writeLines, scanAll_nil]
  | cons l t ih =>
    have hl := h l (by simp)
    have e : writeLines (l :: t) = l ++ 10 :: writeLines t := by
      simp [writeLines]
    rw [e, scanAll_some (Scan_line l _ hl.1 hl.2), ih (fun x hx => h x (by simp [hx]))]
    simp

end Scanner

/-! ## The lines of a file -/

section Lines

theorem splitLines_nil : splitLines [] = [] := rfl

theorem splitLines_ne_nil (b : Byte) (bs : List Byte) : splitLines (b :: bs) ≠ [] := by
  rw [splitLines]
  split_ifs
  · simp
  · split <;> simp

theorem splitLines_line (l rest : List Byte) (hl : (10 : Byte) ∉ l) :
    splitLines (l ++ 10 :: rest) = l :: splitLines rest := by
  induction l with
  | nil => simp [splitLines]
  | cons a t ih =>
    have ha : a ≠ 10 := fun e => hl (by simp [e])
    have ht : (10 : Byte) ∉ t := fun e => hl (by simp [e])
    show splitLines (a :: (t ++ 10 :: rest)) = _
    rw [splitLines, if_neg ha, ih ht]

theorem splitLines_last (l : List Byte) (hl : (10 : Byte) ∉ l) (hne : l ≠ []) :
    splitLines l = [l] := by
  induction l with
  | nil => exact absurd rfl hne
  | cons a t ih =>
    have ha : a ≠ 10 := fun e => hl (by simp [e])
    have ht : (10 : Byte) ∉ t := fun e => hl (by simp [e])
    rw [splitLines, if_neg ha]
    cases t with
    | nil => rfl
    | cons b t2 => rw [ih ht (by simp)]

theorem splitLines_writeLines (ls : List Line) (h : ∀ l ∈ ls, (10 : Byte) ∉ l) :
    splitLines (writeLines ls) = ls := by
  induction ls with
  | nil => rfl
  | cons l t ih =>
    have e : writeLines (l :: t) = l ++ 10 :: writeLines t := by
      simp [writeLines]
    rw [e, splitLines_line l _ (h l (by simp)), ih (fun x hx => h x (by simp [hx]))]

/-- What the scanner makes of a file, in terms of its lines: it stops at the
first line of `MaxScanTokenSize` bytes or more, and each line before it loses
one terminal `\r`. -/
theorem scanAll_eq_splitLines : ∀ (n : Nat) (d : List Byte), d.length ≤ n →
    scanAll d = ((splitLines d).takeWhile shortLine).map dropCR := by
  intro n
  induction n with
  | zero =>
    intro d hd
    have : d = [] := List.length_eq_zero.mp (by omega)
    subst this
    rfl
  | succ n ih =>
    intro d hd
    have hraw := takeWhile_no_newline d
    rcases raw_line_cases d with ⟨h1, _⟩ | ⟨rest, h1, _⟩
    · by_cases hne : d = []
      · subst hne; rfl
      · rw [← h1] at hraw
        rw [splitLines_last d hraw hne]
        by_cases hs : d.length < MaxScanTokenSize
        · rw [scanAll_some (Scan_last d hraw hne hs), scanAll_nil]
          simp [shortLine, hs]
        · rw [scanAll_none (Scan_too_long_last d hraw (by omega))]
          simp [shortLine, hs]
    · generalize hr : d.takeWhile (fun b => b != 10) = raw at h1 hraw
      have hlen : rest.length ≤ n := by
        have := congrArg List.length h1
        simp at this
        omega
      rw [h1, splitLines_line raw rest hraw]
      by_cases hs : raw.length < MaxScanTokenSize
      · rw [scanAll_some (Scan_line raw rest hraw hs), ih rest hlen]
        simp [shortLine, hs]
      · rw [scanAll_none (Scan_too_long_line raw rest hraw (by omega))]
        simp [shortLine, hs]

theorem scanAll_clean (d : List Byte) (h : CleanInput d) : scanAll d = splitLines d := by
  rw [scanAll_eq_splitLines d.length d (le_refl _)]
  have h1 : (splitLines d).takeWhile shortLine = splitLines d := by
    rw [List.takeWhile_eq_self_iff]
    intro l hl
    simpa [shortLine] using (h l hl).1
  rw [h1]
  conv_rhs => rw [← List.map_id (splitLines d)]
  apply List.map_congr_left
  intro l hl
  simp only [dropCR, (h l hl).2, if_false, id]

end Lines

/-! ## The merge loop -/

section MergeLoop

theorem writeLines_append (a b : List Line) :
    writeLines (a ++ b) = writeLines a ++ writeLines b := by
  simp [writeLines]

theorem writeLines_singleton (l : Line) : writeLines [l] = l ++ [10] := by
  simp [writeLines]

theorem pendingLines_set : ∀ (sc : List (List Byte)) (p : Nat) (tok : Line) (rest : List Byte),
    p < sc.length → scanAll (sc.getD p []) = tok :: scanAll rest →
    (pendingLines sc).Perm (tok :: pendingLines (sc.set p rest)) := by
  intro sc
  induction sc with
  | nil => intro p tok rest hp; simp at hp
  | cons d t ih =>
    intro p tok rest hp hs
    cases p with
    | zero =>
      simp only [List.getD_cons_zero] at hs
      simp [pendingLines, hs]
    | succ p =>
      simp only [List.getD_cons_succ] at hs
      have := ih p tok rest (by simpa using hp) hs
      simp only [pendingLines, List.map_cons, List.flatten_cons, List.set_cons_succ] at this ⊢
      exact (List.Perm.append_left _ this).trans List.perm_middle

theorem sum_length_set : ∀ (sc : List (List Byte)) (p : Nat) (r : List Byte), p < sc.length →
    ((sc.set p r).map List.length).sum + (sc.getD p []).length =
      (sc.map List.length).sum + r.length := by
  intro sc
  induction sc with
  | nil => intro p r hp; simp at hp
  | cons d t ih =>
    intro p r hp
    cases p with
    | zero => simp; omega
    | succ p =>
      have := ih p r (by simpa using hp)
      simp only [List.set_cons_succ, List.map_cons, List.sum_cons, List.getD_cons_succ]
      omega

theorem getD_nil_of_le (sc : List (List Byte)) (p : Nat) (hp : sc.length ≤ p) :
    sc.getD p [] = [] := by
  simp [List.getD_eq_getElem?_getD, List.getElem?_eq_none hp]

theorem Scan_some_lt {sc : List (List Byte)} {p : Nat} {t : Line} {r : List Byte}
    (h : Scan (sc.getD p []) = some (t, r)) : p < sc.length := by
  by_contra hp
  rw [getD_nil_of_le sc p (by omega), Scan_nil] at h
  cases h

/-- The two ways an iteration of the merge loop can go. -/
theorem mergeStep_cases (st : MergeState) :
    (Scan (st.tempScanners.getD (heap.Pop st.mergeheap).1.pos []) = none ∧
      mergeStep st =
        { mergeheap := (heap.Pop st.mergeheap).2,
          tempScanners := st.tempScanners,
          written := st.written ++ ((heap.Pop st.mergeheap).1.str ++ [10]) }) ∨
    (∃ tok rest, Scan (st.tempScanners.getD (heap.Pop st.mergeheap).1.pos []) = some (tok, rest) ∧
      mergeStep st =
        { mergeheap := heap.Push (heap.Pop st.mergeheap).2 ⟨tok, (heap.Pop st.mergeheap).1.pos⟩,
          tempScanners := st.tempScanners.set (heap.Pop st.mergeheap).1.pos rest,
          written := st.written ++ ((heap.Pop st.mergeheap).1.str ++ [10]) }) := by
  cases hs : Scan (st.tempScanners.getD (heap.Pop st.mergeheap).1.pos []) with
  | none => left; exact ⟨rfl, by simp only [mergeStep, hs]⟩
  | some tr =>
    obtain ⟨tok, rest⟩ := tr
    right
    exact ⟨tok, rest, rfl, by simp only [mergeStep, hs]⟩

theorem mergeStep_written (st : MergeState) :
    (mergeStep st).written = st.written ++ ((heap.Pop st.mergeheap).1.str ++ [10]) := by
  rcases mergeStep_cases st with ⟨_, h⟩ | ⟨_, _, _, h⟩ <;> rw [h]

/-- Every iteration decreases `mergeFuel`. -/
theorem mergeFuel_step (st : MergeState) (hne : st.mergeheap ≠ []) :
    mergeFuel (mergeStep st) < mergeFuel st := by
  have hl : 0 < st.mergeheap.length := List.length_pos.mpr hne
  rcases mergeStep_cases st with ⟨_, h⟩ | ⟨tok, rest, hs, h⟩
  · rw [h]
    simp only [mergeFuel, length_heapPop]
    omega
  · rw [h]
    simp only [mergeFuel, length_heapPush, length_heapPop]
    have h1 := sum_length_set st.tempScanners _ rest (Scan_some_lt hs)
    have h2 := Scan_rest_length hs
    omega

theorem heapLines_pop (h : stringPosPairHeap) (hne : h ≠ []) :
    (heapLines h).Perm ((heap.Pop h).1.str :: heapLines (heap.Pop h).2) := by
  have := (heapPop_perm h hne).map (fun e => e.str)
  simpa [heapLines] using this.symm

theorem heapLines_push (h : stringPosPairHeap) (x : stringPosPair) :
    (heapLines (heap.Push h x)).Perm (x.str :: heapLines h) := by
  have := (heapPush_perm h x).map (fun e => e.str)
  simpa [heapLines] using this

/-- One iteration moves one line from the heap to the output and refills the
heap from the shard the line came from: no line appears or disappears. -/
theorem mergeStep_perm (st : MergeState) (hne : st.mergeheap ≠ []) (out : List Line) :
    ((out ++ [(heap.Pop st.mergeheap).1.str]) ++ heapLines (mergeStep st).mergeheap ++
        pendingLines (mergeStep st).tempScanners).Perm
      (out ++ heapLines st.mergeheap ++ pendingLines st.tempScanners) := by
  have hpop := heapLines_pop st.mergeheap hne
  rcases mergeStep_cases st with ⟨_, h⟩ | ⟨tok, rest, hs, h⟩
  · rw [h]
    simp only [List.append_assoc, List.singleton_append]
    exact List.Perm.append_left _ (List.Perm.append_right _ hpop.symm)
  · rw [h]
    simp only [List.append_assoc, List.singleton_append]
    apply List.Perm.append_left
    have hpend := pendingLines_set st.tempScanners _ tok rest (Scan_some_lt hs)
      (scanAll_some hs)
    have hpush := heapLines_push (heap.Pop st.mergeheap).2 ⟨tok, (heap.Pop st.mergeheap).1.pos⟩
    generalize (heap.Pop st.mergeheap).1.str = x at *
    generalize heapLines (heap.Pop st.mergeheap).2 = H1 at *
    generalize pendingLines (st.tempScanners.set (heap.Pop st.mergeheap).1.pos rest) = P1 at *
    generalize heapLines (heap.Push (heap.Pop st.mergeheap).2
      ⟨tok, (heap.Pop st.mergeheap).1.pos⟩) = H2 at *
    generalize heapLines st.mergeheap = H at *
    generalize pendingLines st.tempScanners = P at *
    simp only at hpush
    rw [List.perm_iff_count]
    intro a
    have c1 := hpop.count_eq a
    have c2 := hpush.count_eq a
    have c3 := hpend.count_eq a
    simp only [List.count_append, List.count_cons] at c1 c2 c3 ⊢
    omega

end MergeLoop

section MergeInvariant

theorem getD_set_self (sc : List (List Byte)) {p : Nat} (r : List Byte) (hp : p < sc.length) :
    (sc.set p r).getD p [] = r := by
  simp [List.getD_eq_getElem?_getD, List.getElem?_set, hp]

theorem getD_set_ne (sc : List (List Byte)) {p i : Nat} (r : List Byte) (h : i ≠ p) :
    (sc.set p r).getD i [] = sc.getD i [] := by
  have : ¬ p = i := fun e => h e.symm
  simp [List.getD_eq_getElem?_getD, List.getElem?_set, this]

theorem mem_heapPop (h : stringPosPairHeap) (hne : h ≠ []) (e : stringPosPair) :
    e ∈ h ↔ e = (heap.Pop h).1 ∨ e ∈ (heap.Pop h).2 := by
  rw [← (heapPop_perm h hne).mem_iff, List.mem_cons]

theorem mem_heapPush (h : stringPosPairHeap) (x e : stringPosPair) :
    e ∈ heap.Push h x ↔ e = x ∨ e ∈ h := by
  rw [(heapPush_perm h x).mem_iff, List.mem_cons]

theorem pendingLines_exhausted (sc : List (List Byte))
    (h : ∀ i, Scan (sc.getD i []) = none) : pendingLines sc = [] := by
  unfold pendingLines
  rw [List.flatten_eq_nil_iff]
  intro l hl
  obtain ⟨d, hd, rfl⟩ := List.mem_map.mp hl
  obtain ⟨i, hi, rfl⟩ := List.getElem_of_mem hd
  have := h i
  rw [List.getD_eq_getElem?_getD, List.getElem?_eq_getElem hi] at this
  exact scanAll_none this

/-- An iteration keeps every shard without a heap entry exhausted. -/
theorem mergeStep_noOrphan (st : MergeState) (hne : st.mergeheap ≠ []) (h : NoOrphan st) :
    NoOrphan (mergeStep st) := by
  intro i hi
  rcases mergeStep_cases st with ⟨hs, e⟩ | ⟨tok, rest, hs, e⟩
  · rw [e] at hi ⊢
    simp only at hi ⊢
    by_cases hip : (heap.Pop st.mergeheap).1.pos = i
    · rw [← hip]; exact hs
    · apply h i
      intro y hy
      rcases (mem_heapPop _ hne y).1 hy with rfl | hy'
      · exact hip
      · exact hi y hy'
  · rw [e] at hi ⊢
    simp only at hi ⊢
    have hip : i ≠ (heap.Pop st.mergeheap).1.pos := by
      intro hip
      exact hi ⟨tok, (heap.Pop st.mergeheap).1.pos⟩ ((mem_heapPush _ _ _).2 (Or.inl rfl)) hip.symm
    rw [getD_set_ne _ _ hip]
    apply h i
    intro y hy
    rcases (mem_heapPop _ hne y).1 hy with rfl | hy'
    · exact fun e => hip e.symm
    · exact hi y ((mem_heapPush _ _ _).2 (Or.inr hy'))

/-- An iteration keeps the order facts, with the popped line appended to the
lines written. -/
theorem mergeStep_ordered (st : MergeState) (hne : st.mergeheap ≠ []) (out : List Line)
    (h : MergeOrdered st out) :
    MergeOrdered (mergeStep st) (out ++ [(heap.Pop st.mergeheap).1.str]) := by
  obtain ⟨hheap, hsorted, hout, hentry, hshard⟩ := h
  have hxmem : (heap.Pop st.mergeheap).1 ∈ st.mergeheap :=
    (mem_heapPop _ hne _).2 (Or.inl rfl)
  have hmin := heapPop_min st.mergeheap hne hheap
  have hsorted' : (out ++ [(heap.Pop st.mergeheap).1.str]).Sorted (fun a b => a ≤ b) := by
    unfold List.Sorted
    rw [List.pairwise_append]
    refine ⟨hsorted, List.pairwise_singleton _ _, ?_⟩
    intro a ha b hb
    rw [List.mem_singleton] at hb
    rw [hb]
    exact hout a ha _ hxmem
  rcases mergeStep_cases st with ⟨hs, e⟩ | ⟨tok, rest, hs, e⟩
  · rw [e]
    refine ⟨heapPop_ok _ hheap, hsorted', ?_, ?_, hshard⟩
    · intro o ho y hy
      have hy' : y ∈ st.mergeheap := (mem_heapPop _ hne y).2 (Or.inr hy)
      rcases List.mem_append.mp ho with ho | ho
      · exact hout o ho y hy'
      · rw [List.mem_singleton] at ho
        rw [ho]; exact hmin y hy'
    · intro y hy l hl
      exact hentry y ((mem_heapPop _ hne y).2 (Or.inr hy)) l hl
  · rw [e]
    have hp := Scan_some_lt hs
    have hall := scanAll_some hs
    have hsh := hshard (heap.Pop st.mergeheap).1.pos
    rw [hall] at hsh
    have hxtok : (heap.Pop st.mergeheap).1.str ≤ tok :=
      hentry _ hxmem tok (by rw [hall]; exact List.mem_cons_self _ _)
    refine ⟨heapPush_ok _ _ (heapPop_ok _ hheap), hsorted', ?_, ?_, ?_⟩
    · intro o ho y hy
      have hox : o ≤ (heap.Pop st.mergeheap).1.str := by
        rcases List.mem_append.mp ho with ho | ho
        · exact hout o ho _ hxmem
        · rw [List.mem_singleton] at ho
          rw [ho]
      rcases (mem_heapPush _ _ y).1 hy with rfl | hy
      · exact le_trans hox hxtok
      · exact le_trans hox (hmin y ((mem_heapPop _ hne y).2 (Or.inr hy)))
    · intro y hy l hl
      simp only at hl
      rcases (mem_heapPush _ _ y).1 hy with rfl | hy
      · simp only at hl ⊢
        rw [getD_set_self _ _ hp] at hl
        exact List.rel_of_sorted_cons hsh l hl
      · by_cases hyp : y.pos = (heap.Pop st.mergeheap).1.pos
        · rw [hyp, getD_set_self _ _ hp] at hl
          apply hentry y ((mem_heapPop _ hne y).2 (Or.inr hy)) l
          rw [hyp, hall]
          exact List.mem_cons_of_mem _ hl
        · rw [getD_set_ne _ _ hyp] at hl
          exact hentry y ((mem_heapPop _ hne y).2 (Or.inr hy)) l hl
    · intro i
      simp only
      by_cases hip : i = (heap.Pop st.mergeheap).1.pos
      · rw [hip, getD_set_self _ _ hp]
        exact hsh.of_cons
      · rw [getD_set_ne _ _ hip]
        exact hshard i

/-- The merge loop, given enough fuel, stops with an empty heap, having
written exactly the lines that were written, in the heap or still to be read
(as a multiset); and it has written them in order when the order facts hold
at the start. -/
theorem mergeLoop_spec : ∀ (fuel : Nat) (st : MergeState) (out : List Line),
    mergeFuel st ≤ fuel → NoOrphan st → st.written = writeLines out →
    ∃ out', (mergeLoop fuel st).written = writeLines out' ∧
      (mergeLoop fuel st).mergeheap = [] ∧
      out'.Perm (out ++ heapLines st.mergeheap ++ pendingLines st.tempScanners) ∧
      (MergeOrdered st out → out'.Sorted (fun a b => a ≤ b)) := by
  have base : ∀ (st : MergeState) (out : List Line), st.mergeheap = [] → NoOrphan st →
      st.written = writeLines out →
      ∃ out', st.written = writeLines out' ∧ st.mergeheap = [] ∧
        out'.Perm (out ++ heapLines st.mergeheap ++ pendingLines st.tempScanners) ∧
        (MergeOrdered st out → out'.Sorted (fun a b => a ≤ b)) := by
    intro st out hh hno hw
    refine ⟨out, hw, hh, ?_, fun h => h.2.1⟩
    have : pendingLines st.tempScanners = [] := by
      apply pendingLines_exhausted
      intro i
      apply hno i
      intro e he
      rw [hh] at he
      cases he
    rw [this, hh]
    simp [heapLines]
  intro fuel
  induction fuel with
  | zero =>
    intro st out hf hno hw
    have hh : st.mergeheap = [] := by
      apply List.length_eq_zero.mp
      unfold mergeFuel at hf
      omega
    exact base st out hh hno hw
  | succ f ih =>
    intro st out hf hno hw
    by_cases hh : st.mergeheap = []
    · have : mergeLoop (f + 1) st = st := by
        simp [mergeLoop, stringPosPairHeap.Len, hh]
      rw [this]
      exact base st out hh hno hw
    · have hlen : ¬ stringPosPairHeap.Len st.mergeheap = 0 := by
        simpa [stringPosPairHeap.Len] using hh
      have : mergeLoop (f + 1) st = mergeLoop f (mergeStep st) := by
        rw [mergeLoop, if_neg hlen]
      rw [this]
      have hfuel := mergeFuel_step st hh
      obtain ⟨out', h1, h2, h3, h4⟩ := ih (mergeStep st)
        (out ++ [(heap.Pop st.mergeheap).1.str]) (by omega)
        (mergeStep_noOrphan st hh hno)
        (by rw [mergeStep_written, hw, writeLines_append, writeLines_singleton])
      exact ⟨out', h1, h2, h3.trans (mergeStep_perm st hh out),
        fun ho => h4 (mergeStep_ordered st hh out ho)⟩

end MergeInvariant

section MergeOpen

theorem getD_append_lt (sc : List (List Byte)) (r : List Byte) {k : Nat} (hk : k < sc.length) :
    (sc ++ [r]).getD k [] = sc.getD k [] := by
  simp [List.getD_eq_getElem?_getD, List.getElem?_append_left hk]

theorem getD_append_self (sc : List (List Byte)) (r : List Byte) :
    (sc ++ [r]).getD sc.length [] = r := by
  simp [List.getD_eq_getElem?_getD]

theorem pendingLines_append (sc : List (List Byte)) (d : List Byte) :
    pendingLines (sc ++ [d]) = pendingLines sc ++ scanAll d := by
  simp [pendingLines]

/-- The lines the scanner finds in each of the files `ps`, one after the
other. -/
theorem mergeOpen_spec (fs : FS) : ∀ (ps : List Path) (i : Nat) (st : MergeState),
    st.tempScanners.length = i → (∀ p ∈ ps, (fs p).isSome) →
    ∃ st', mergeOpen fs ps i st = .ok st' ∧ st'.written = st.written ∧
      st'.tempScanners.length = i + ps.length ∧
      (heapLines st'.mergeheap ++ pendingLines st'.tempScanners).Perm
        (heapLines st.mergeheap ++ pendingLines st.tempScanners ++
          (ps.map (fun p => scanAll ((fs p).getD []))).flatten) ∧
      (NoOrphan st → NoOrphan st') ∧
      ((∀ e ∈ st.mergeheap, e.pos < i) → MergeOrdered st [] →
        (∀ p ∈ ps, (scanAll ((fs p).getD [])).Sorted (fun a b => a ≤ b)) →
        MergeOrdered st' []) := by
  intro ps
  induction ps with
  | nil =>
    intro i st hi _
    exact ⟨st, rfl, rfl, by simpa using hi, by simp, fun h => h, fun _ h _ => h⟩
  | cons p ps ih =>
    intro i st hi hex
    obtain ⟨data, hd⟩ := Option.isSome_iff_exists.mp (hex p (by simp))
    have hex' : ∀ q ∈ ps, (fs q).isSome := fun q hq => hex q (by simp [hq])
    cases hs : Scan data with
    | none =>
      obtain ⟨st', h1, h2, h3, h4, h5, h6⟩ := ih (i + 1)
        { st with tempScanners := st.tempScanners ++ [data] } (by simp [hi]) hex'
      refine ⟨st', ?_, h2, ?_, ?_, ?_, ?_⟩
      · rw [mergeOpen]; simp only [hd, hs]; exact h1
      · rw [h3]; simp; omega
      · refine h4.trans ?_
        simp only [pendingLines_append, scanAll_none hs, List.append_nil, List.map_cons,
          List.flatten_cons, hd, Option.getD_some, List.nil_append]
        exact List.Perm.refl _
      · intro hno
        apply h5
        intro k hk
        simp only at hk ⊢
        by_cases hki : k < i
        · rw [getD_append_lt _ _ (by omega)]
          exact hno k hk
        · by_cases hke : k = i
          · rw [hke, ← hi, getD_append_self]; exact hs
          · rw [getD_nil_of_le _ _ (by simp; omega)]; exact Scan_nil
      · intro hpos hord hsorted
        apply h6
        · intro e he; have := hpos e he; omega
        · obtain ⟨o1, o2, o3, o4, o5⟩ := hord
          refine ⟨o1, o2, o3, ?_, ?_⟩
          · intro e he l hl
            simp only at hl
            rw [getD_append_lt _ _ (by have := hpos e he; omega)] at hl
            exact o4 e he l hl
          · intro k
            simp only
            by_cases hki : k < i
            · rw [getD_append_lt _ _ (by omega)]; exact o5 k
            · by_cases hke : k = i
              · rw [hke, ← hi, getD_append_self]
                have := hsorted p (by simp)
                rwa [hd] at this
              · rw [getD_nil_of_le _ _ (by simp; omega), scanAll_nil]
                exact List.sorted_nil
        · exact fun q hq => hsorted q (by simp [hq])
    | some tr =>
      obtain ⟨tok, rest⟩ := tr
      obtain ⟨st', h1, h2, h3, h4, h5, h6⟩ := ih (i + 1)
        { st with mergeheap := heap.Push st.mergeheap ⟨tok, i⟩,
                  tempScanners := st.tempScanners ++ [rest] } (by simp [hi]) hex'
      have hall := scanAll_some hs
      refine ⟨st', ?_, h2, ?_, ?_, ?_, ?_⟩
      · rw [mergeOpen]; simp only [hd, hs]; exact h1
      · rw [h3]; simp; omega
      · refine h4.trans ?_
        simp only [pendingLines_append, List.map_cons, List.flatten_cons, hd,
          Option.getD_some, hall]
        have hpush := heapLines_push st.mergeheap ⟨tok, i⟩
        rw [List.perm_iff_count]
        intro a
        have c := hpush.count_eq a
        simp only [List.count_append, List.count_cons] at c ⊢
        omega
      · intro hno
        apply h5
        intro k hk
        simp only at hk ⊢
        have hke : k ≠ i := by
          intro hke
          exact hk ⟨tok, i⟩ ((mem_heapPush _ _ _).2 (Or.inl rfl)) hke.symm
        by_cases hki : k < i
        · rw [getD_append_lt _ _ (by omega)]
          exact hno k (fun e he => hk e ((mem_heapPush _ _ _).2 (Or.inr he)))
        · rw [getD_nil_of_le _ _ (by simp; omega)]; exact Scan_nil
      · intro hpos hord hsorted
        have hsd : (tok :: scanAll rest).Sorted (fun a b => a ≤ b) := by
          have := hsorted p (by simp)
          rwa [hd, Option.getD_some, hall] at this
        apply h6
        · intro e he
          rcases (mem_heapPush _ _ e).1 he with rfl | he
          · simp
          · have := hpos e he; omega
        · obtain ⟨o1, o2, o3, o4, o5⟩ := hord
          refine ⟨heapPush_ok _ _ o1, o2, ?_, ?_, ?_⟩
          · intro o ho; cases ho
          · intro e he l hl
            simp only at hl
            rcases (mem_heapPush _ _ e).1 he with rfl | he
            · simp only at hl ⊢
              rw [← hi, getD_append_self] at hl
              exact List.rel_of_sorted_cons hsd l hl
            · rw [getD_append_lt _ _ (by have := hpos e he; omega)] at hl
              exact o4 e he l hl
          · intro k
            simp only
            by_cases hki : k < i
            · rw [getD_append_lt _ _ (by omega)]; exact o5 k
            · by_cases hke : k = i
              · rw [hke, ← hi, getD_append_self]
                exact hsd.of_cons
              · rw [getD_nil_of_le _ _ (by simp; omega), scanAll_nil]
                exact List.sorted_nil
        · exact fun q hq => hsorted q (by simp [hq])

end MergeOpen

section MergeTop

theorem FS.write_write (fs : FS) (p : Path) (a b : List Byte) :
    (fs.write p a).write p b = fs.write p b := by
  funext q
  simp only [FS.write]
  split_ifs <;> rfl

theorem FS.write_same (fs : FS) (p : Path) (c : List Byte) : (fs.write p c) p = some c := by
  simp [FS.write]

theorem FS.write_other (fs : FS) {p q : Path} (c : List Byte) (h : q ≠ p) :
    (fs.write p c) q = fs q := by
  simp [FS.write, h]

/-- When every shard can be opened and the output created, `merge` returns
`nil` and the output holds, one per line, the lines the scanner finds in the
shards (as a multiset), in order when every shard is in order. -/
theorem merge_spec (env : Env) (fs : FS) (filenames : List Path) (out : Path)
    (hex : ∀ p ∈ filenames, (fs p).isSome) (hc : env.canCreate out = true) :
    ∃ outLines, merge env fs filenames out = (none, fs.write out (writeLines outLines)) ∧
      outLines.Perm ((filenames.map (fun p => scanAll ((fs p).getD []))).flatten) ∧
      ((∀ p ∈ filenames, (scanAll ((fs p).getD [])).Sorted (fun a b => a ≤ b)) →
        outLines.Sorted (fun a b => a ≤ b)) := by
  obtain ⟨st0, h1, h2, _, h4, h5, h6⟩ := mergeOpen_spec fs filenames 0 ⟨[], [], []⟩ rfl hex
  have hno0 : NoOrphan ⟨[], [], []⟩ := by
    intro i _
    exact Scan_nil
  have hord0 : MergeOrdered ⟨[], [], []⟩ [] := by
    refine ⟨?_, List.sorted_nil, ?_, ?_, ?_⟩
    · intro k _ hk; simp at hk
    · intro o ho; cases ho
    · intro e he; cases he
    · intro i
      simp only [List.getD_nil, scanAll_nil]
      exact List.sorted_nil
  obtain ⟨outLines, g1, _, g3, g4⟩ := mergeLoop_spec (mergeFuel st0) st0 [] (le_refl _)
    (h5 hno0) (by rw [h2]; rfl)
  refine ⟨outLines, ?_, ?_, ?_⟩
  · unfold merge
    simp only [h1, hc, if_true, g1, FS.write_write]
  · refine g3.trans ?_
    simp only [List.nil_append]
    refine h4.trans ?_
    simp [heapLines, pendingLines]
  · intro hs
    exact g4 (h6 (fun e he => by cases he) hord0 hs)

end MergeTop

/-! ## The sort phase -/

section Pool

theorem sum_map_set {α : Type} (f : α → Nat) : ∀ (l : List α) (i : Nat) (a b : α),
    l[i]? = some b → ((l.set i a).map f).sum + f b = (l.map f).sum + f a := by
  intro l
  induction l with
  | nil => intro i a b h; simp at h
  | cons x t ih =>
    intro i a b h
    cases i with
    | zero =>
      simp only [List.getElem?_cons_zero, Option.some.injEq] at h
      subst h
      simp; omega
    | succ i =>
      simp only [List.getElem?_cons_succ] at h
      have := ih i a b h
      simp only [List.set_cons_succ, List.map_cons, List.sum_cons]
      omega

theorem countP_set_some {α : Type} (f : α → Bool) : ∀ (l : List α) (i : Nat) (a b : α),
    l[i]? = some b →
    (l.set i a).countP f + (if f b then 1 else 0) = l.countP f + (if f a then 1 else 0) := by
  intro l
  induction l with
  | nil => intro i a b h; simp at h
  | cons x t ih =>
    intro i a b h
    cases i with
    | zero =>
      simp only [List.getElem?_cons_zero, Option.some.injEq] at h
      subst h
      simp only [List.set_cons_zero, List.countP_cons]
      omega
    | succ i =>
      simp only [List.getElem?_cons_succ] at h
      have := ih i a b h
      simp only [List.set_cons_succ, List.countP_cons]
      omega

/-- The three ways a step of goroutine `i` can go: nothing happens (the task
is blocked, finished or absent), it acquires the semaphore, or it sorts its
file and releases. -/
theorem poolStep_cases (K : Nat) (st : PoolState) (i : Nat) :
    (poolStep K st i = st ∧ st.enabled K i = false) ∨
    (∃ t, st.tasks[i]? = some t ∧ t.phase = .waiting ∧ st.inFlight < K ∧
      st.enabled K i = true ∧
      poolStep K st i = { st with tasks := st.tasks.set i { t with phase := .holding } }) ∨
    (∃ t, st.tasks[i]? = some t ∧ t.phase = .holding ∧ st.enabled K i = true ∧
      poolStep K st i =
        { tasks := st.tasks.set i { t with phase := .finished },
          fs := sortOne st.fs t.scratchfile }) := by
  cases ht : st.tasks[i]? with
  | none => left; simp [poolStep, PoolState.enabled, ht]
  | some t =>
    cases hp : t.phase with
    | waiting =>
      by_cases hk : st.inFlight < K
      · right; left
        exact ⟨t, rfl, hp, hk, by simp [PoolState.enabled, ht, hp, hk],
          by simp [poolStep, ht, hp, hk]⟩
      · left; simp [poolStep, PoolState.enabled, ht, hp, hk]
    | holding =>
      right; right
      exact ⟨t, rfl, hp, by simp [PoolState.enabled, ht, hp], by simp [poolStep, ht, hp]⟩
    | finished => left; simp [poolStep, PoolState.enabled, ht, hp]

end Pool

section PoolInvariant

theorem getElem?_set_some {α : Type} (l : List α) (i j : Nat) (a b x : α)
    (hi : l[i]? = some b) (h : (l.set i a)[j]? = some x) :
    (j = i ∧ x = a) ∨ (j ≠ i ∧ l[j]? = some x) := by
  have hlt : i < l.length := by
    obtain ⟨h1, _⟩ := List.getElem?_eq_some.mp hi
    exact h1
  rw [List.getElem?_set] at h
  by_cases hij : i = j
  · left
    simp only [hij] at h hlt
    simp only [hlt, if_true, Option.some.injEq] at h
    exact ⟨hij.symm, h.symm⟩
  · right
    simp only [hij, if_false] at h
    exact ⟨fun e => hij e.symm, h⟩

theorem poolStep_scratch (K : Nat) (st : PoolState) (i : Nat) :
    (poolStep K st i).tasks.map (fun t => t.scratchfile) =
      st.tasks.map (fun t => t.scratchfile) := by
  have hset : ∀ (t : Task) (ph : TaskPhase), st.tasks[i]? = some t →
      (st.tasks.set i { t with phase := ph }).map (fun t => t.scratchfile) =
        st.tasks.map (fun t => t.scratchfile) := by
    intro t ph ht
    rw [List.map_set]
    apply List.ext_getElem?
    intro j
    rw [List.getElem?_set]
    by_cases hij : i = j
    · subst hij
      obtain ⟨hlt, hget⟩ := List.getElem?_eq_some.mp ht
      simp [List.getElem?_map, hlt, hget]
    · simp [hij]
  rcases poolStep_cases K st i with ⟨h, _⟩ | ⟨t, ht, _, _, _, h⟩ | ⟨t, ht, _, _, h⟩
  · rw [h]
  · rw [h]; exact hset t _ ht
  · rw [h]; exact hset t _ ht

theorem length_poolStep (K : Nat) (st : PoolState) (i : Nat) :
    (poolStep K st i).tasks.length = st.tasks.length := by
  have := congrArg List.length (poolStep_scratch K st i)
  simpa using this

/-- A step never lets more than `nParSorts` tasks hold the semaphore. -/
theorem poolStep_inFlight (K : Nat) (st : PoolState) (i : Nat) (h : st.inFlight ≤ K) :
    (poolStep K st i).inFlight ≤ K := by
  rcases poolStep_cases K st i with ⟨e, _⟩ | ⟨t, ht, hp, hk, _, e⟩ | ⟨t, ht, hp, _, e⟩
  · rw [e]; exact h
  · rw [e]
    have := countP_set_some (fun t : Task => decide (t.phase = .holding)) st.tasks i
      { t with phase := .holding } t ht
    simp only [hp] at this
    simp only [PoolState.inFlight] at hk ⊢
    simp at this
    omega
  · rw [e]
    have := countP_set_some (fun t : Task => decide (t.phase = .holding)) st.tasks i
      { t with phase := .finished } t ht
    simp only [hp] at this
    simp only [PoolState.inFlight] at h ⊢
    simp at this
    omega

/-- A step that is enabled uses up one of the steps left. -/
theorem poolStep_stepsLeft (K : Nat) (st : PoolState) (i : Nat)
    (h : st.enabled K i = true) :
    (poolStep K st i).stepsLeft + 1 = st.stepsLeft := by
  rcases poolStep_cases K st i with ⟨_, e⟩ | ⟨t, ht, hp, _, _, e⟩ | ⟨t, ht, hp, _, e⟩
  · rw [h] at e; cases e
  · rw [e]
    have := sum_map_set (fun t : Task =>
      match t.phase with
      | .waiting => 2
      | .holding => 1
      | .finished => 0) st.tasks i { t with phase := .holding } t ht
    simp only [hp] at this
    simp only [PoolState.stepsLeft]
    omega
  · rw [e]
    have := sum_map_set (fun t : Task =>
      match t.phase with
      | .waiting => 2
      | .holding => 1
      | .finished => 0) st.tasks i { t with phase := .finished } t ht
    simp only [hp] at this
    simp only [PoolState.stepsLeft]
    omega

theorem scratch_inj (st : PoolState) (hnd : (st.tasks.map (fun t => t.scratchfile)).Nodup)
    {i j : Nat} {t u : Task} (hi : st.tasks[i]? = some t) (hj : st.tasks[j]? = some u)
    (h : t.scratchfile = u.scratchfile) : i = j := by
  have hlt : i < (st.tasks.map (fun t => t.scratchfile)).length := by
    obtain ⟨h1, _⟩ := List.getElem?_eq_some.mp hi
    simpa using h1
  apply List.getElem?_inj hlt hnd
  rw [List.getElem?_map, List.getElem?_map, hi, hj]
  simp [h]

/-- A step keeps the relation between the file system and the one the sort
phase started on, because the tasks own distinct scratch files. -/
theorem poolStep_inv (K : Nat) (fs0 : FS) (st : PoolState) (i : Nat)
    (hnd : (st.tasks.map (fun t => t.scratchfile)).Nodup) (h : PoolInv fs0 st) :
    PoolInv fs0 (poolStep K st i) := by
  obtain ⟨ha, hb⟩ := h
  rcases poolStep_cases K st i with ⟨e, _⟩ | ⟨t, ht, hp, _, _, e⟩ | ⟨t, ht, hp, _, e⟩
  · rw [e]; exact ⟨ha, hb⟩
  · rw [e]
    constructor
    · intro j u hu hfin
      simp only at hu ⊢
      rcases getElem?_set_some _ _ _ _ _ _ ht hu with ⟨_, rfl⟩ | ⟨_, hu'⟩
      · simp at hfin
      · exact ha j u hu' hfin
    · intro p hp'
      simp only at hp' ⊢
      apply hb p
      intro j u hu hup
      by_cases hji : j = i
      · subst hji
        rw [ht] at hu
        simp only [Option.some.injEq] at hu
        rw [← hu, hp]
        simp
      · apply hp' j u _ hup
        rw [List.getElem?_set_ne (fun e : i = j => hji e.symm)]
        exact hu
  · rw [e]
    have hfs : st.fs t.scratchfile = fs0 t.scratchfile := by
      apply hb
      intro j u hu hup
      have hji : j = i := scratch_inj st hnd hu ht hup
      rw [hji, ht] at hu
      simp only [Option.some.injEq] at hu
      rw [← hu, hp]
      simp
    constructor
    · intro j u hu hfin
      simp only at hu ⊢
      rcases getElem?_set_some _ _ _ _ _ _ ht hu with ⟨_, rfl⟩ | ⟨hji, hu'⟩
      · simp only [sortOne, FS.write_same, hfs]
      · have hne : u.scratchfile ≠ t.scratchfile := by
          intro hup
          exact hji (scratch_inj st hnd hu' ht hup)
        simp only [sortOne]
        rw [FS.write_other _ _ hne]
        exact ha j u hu' hfin
    · intro p hp'
      simp only at hp' ⊢
      have hne : p ≠ t.scratchfile := by
        intro hpe
        have hlt : i < st.tasks.length := by
          obtain ⟨h1, _⟩ := List.getElem?_eq_some.mp ht
          exact h1
        have := hp' i { t with phase := .finished }
          (by rw [List.getElem?_set]; simp [hlt]) hpe.symm
        simp at this
      simp only [sortOne]
      rw [FS.write_other _ _ hne]
      apply hb p
      intro j u hu hup
      have hji : j ≠ i := by
        intro hji
        rw [hji, ht] at hu
        simp only [Option.some.injEq] at hu
        rw [← hu] at hup
        exact hne hup.symm
      apply hp' j u _ hup
      rw [List.getElem?_set_ne (fun e : i = j => hji e.symm)]
      exact hu

end PoolInvariant

section PoolRun

theorem poolStep_stepsLeft_le (K : Nat) (st : PoolState) (i : Nat) :
    (poolStep K st i).stepsLeft ≤ st.stepsLeft := by
  rcases poolStep_cases K st i with ⟨e, _⟩ | ⟨_, _, _, _, he, _⟩ | ⟨_, _, _, he, _⟩
  · rw [e]
  · have := poolStep_stepsLeft K st i he; omega
  · have := poolStep_stepsLeft K st i he; omega

/-- What every step of the sort phase preserves. -/
theorem poolStep_good (K : Nat) (fs0 : FS) (names : List Path) (hnd : names.Nodup)
    (st : PoolState) (i : Nat)
    (h : st.tasks.map (fun t => t.scratchfile) = names ∧ PoolInv fs0 st ∧ st.inFlight ≤ K) :
    (poolStep K st i).tasks.map (fun t => t.scratchfile) = names ∧
      PoolInv fs0 (poolStep K st i) ∧ (poolStep K st i).inFlight ≤ K := by
  obtain ⟨h1, h2, h3⟩ := h
  refine ⟨by rw [poolStep_scratch, h1], poolStep_inv K fs0 st i (by rw [h1]; exact hnd) h2,
    poolStep_inFlight K st i h3⟩

theorem foldl_poolStep_good (K : Nat) (fs0 : FS) (names : List Path) (hnd : names.Nodup) :
    ∀ (sched : List Nat) (st : PoolState),
    (st.tasks.map (fun t => t.scratchfile) = names ∧ PoolInv fs0 st ∧ st.inFlight ≤ K) →
    ((sched.foldl (poolStep K) st).tasks.map (fun t => t.scratchfile) = names ∧
      PoolInv fs0 (sched.foldl (poolStep K) st) ∧ (sched.foldl (poolStep K) st).inFlight ≤ K) ∧
      (sched.foldl (poolStep K) st).stepsLeft ≤ st.stepsLeft := by
  intro sched
  induction sched with
  | nil => intro st h; exact ⟨h, le_refl _⟩
  | cons i t ih =>
    intro st h
    simp only [List.foldl_cons]
    obtain ⟨g1, g2⟩ := ih (poolStep K st i) (poolStep_good K fs0 names hnd st i h)
    exact ⟨g1, le_trans g2 (poolStep_stepsLeft_le K st i)⟩

theorem drain_good (K : Nat) (fs0 : FS) (names : List Path) (hnd : names.Nodup) :
    ∀ (fuel : Nat) (st : PoolState),
    (st.tasks.map (fun t => t.scratchfile) = names ∧ PoolInv fs0 st ∧ st.inFlight ≤ K) →
    ((drain K fuel st).tasks.map (fun t => t.scratchfile) = names ∧
      PoolInv fs0 (drain K fuel st) ∧ (drain K fuel st).inFlight ≤ K) := by
  intro fuel
  induction fuel with
  | zero => intro st h; exact h
  | succ f ih =>
    intro st h
    rw [drain]
    split
    · exact ih _ (poolStep_good K fs0 names hnd st _ h)
    · exact h

theorem stepsLeft_zero : ∀ (tasks : List Task) (fs : FS),
    PoolState.stepsLeft ⟨tasks, fs⟩ = 0 → PoolState.allFinished ⟨tasks, fs⟩ = true := by
  intro tasks fs
  induction tasks with
  | nil => intro _; rfl
  | cons t ts ih =>
    intro h
    simp only [PoolState.stepsLeft, List.map_cons, List.sum_cons] at h
    have h1 : PoolState.stepsLeft ⟨ts, fs⟩ = 0 := by
      simp only [PoolState.stepsLeft]; omega
    have h2 := ih h1
    simp only [PoolState.allFinished, List.all_cons, Bool.and_eq_true, decide_eq_true_eq] at h2 ⊢
    refine ⟨?_, h2⟩
    cases hp : t.phase with
    | waiting => rw [hp] at h; simp at h
    | holding => rw [hp] at h; simp at h
    | finished => rfl

/-- With a semaphore of capacity at least one, a state in which no goroutine
can step is one in which all have finished: there is no deadlock. -/
theorem no_enabled_allFinished (K : Nat) (hK : 1 ≤ K) (st : PoolState)
    (h : ∀ i, i < st.tasks.length → st.enabled K i = false) :
    st.allFinished = true := by
  have hnohold : ∀ t ∈ st.tasks, t.phase ≠ .holding := by
    intro t ht hp
    obtain ⟨i, hi, rfl⟩ := List.getElem_of_mem ht
    have := h i hi
    simp [PoolState.enabled, List.getElem?_eq_getElem hi, hp] at this
  have hfl : st.inFlight = 0 := by
    simp only [PoolState.inFlight, List.countP_eq_zero, decide_eq_true_eq]
    exact hnohold
  simp only [PoolState.allFinished, List.all_eq_true, decide_eq_true_eq]
  intro t ht
  obtain ⟨i, hi, rfl⟩ := List.getElem_of_mem ht
  have := h i hi
  cases hp : (st.tasks[i]).phase with
  | waiting =>
    simp [PoolState.enabled, List.getElem?_eq_getElem hi, hp, hfl] at this
    omega
  | holding => exact absurd hp (hnohold _ ht)
  | finished => rfl

/-- Draining with at least as much fuel as there are steps left ends with
every task finished. -/
theorem drain_allFinished (K : Nat) (hK : 1 ≤ K) : ∀ (fuel : Nat) (st : PoolState),
    st.stepsLeft ≤ fuel → (drain K fuel st).allFinished = true := by
  intro fuel
  induction fuel with
  | zero =>
    intro st h
    have h0 : st.stepsLeft = 0 := by omega
    exact stepsLeft_zero st.tasks st.fs h0
  | succ f ih =>
    intro st h
    rw [drain]
    cases hf : (List.range st.tasks.length).find? (fun i => st.enabled K i) with
    | some i =>
      simp only
      apply ih
      have := poolStep_stepsLeft K st i (List.find?_some hf)
      omega
    | none =>
      simp only
      apply no_enabled_allFinished K hK
      intro i hi
      have := List.find?_eq_none.mp hf i (List.mem_range.mpr hi)
      simpa using this

theorem stepsLeft_init (names : List Path) (fs : FS) :
    PoolState.stepsLeft ⟨names.map (fun p => ⟨p, .waiting⟩), fs⟩ = 2 * names.length := by
  induction names with
  | nil => rfl
  | cons p t ih =>
    simp only [PoolState.stepsLeft, List.map_cons, List.sum_cons, List.length_cons] at ih ⊢
    omega

theorem inFlight_init (names : List Path) (fs : FS) :
    PoolState.inFlight ⟨names.map (fun p => ⟨p, .waiting⟩), fs⟩ = 0 := by
  simp [PoolState.inFlight, List.countP_eq_zero]

theorem poolInv_init (names : List Path) (fs : FS) :
    PoolInv fs ⟨names.map (fun p => ⟨p, .waiting⟩), fs⟩ := by
  constructor
  · intro i t ht hfin
    simp only [List.getElem?_map, Option.map_eq_some'] at ht
    obtain ⟨p, _, rfl⟩ := ht
    simp at hfin
  · intro p _
    rfl

/-- The sort phase with a semaphore of capacity at least one: whatever the
schedule, `wg.Wait()` returns, every scratch file then holds the sorted lines
of what it held, and no other file has changed. -/
theorem runPool_spec (K : Nat) (hK : 1 ≤ K) (sched : List Nat) (names : List Path)
    (hnd : names.Nodup) (fs : FS) :
    (runPool K sched ⟨names.map (fun p => ⟨p, .waiting⟩), fs⟩).allFinished = true ∧
    (∀ p ∈ names, (runPool K sched ⟨names.map (fun p => ⟨p, .waiting⟩), fs⟩).fs p =
      some (sortOneContent ((fs p).getD []))) ∧
    (∀ p, p ∉ names → (runPool K sched ⟨names.map (fun p => ⟨p, .waiting⟩), fs⟩).fs p = fs p) := by
  have h0 : (List.map (fun t : Task => t.scratchfile)
      (PoolState.mk (names.map (fun p => ⟨p, .waiting⟩)) fs).tasks = names ∧
      PoolInv fs ⟨names.map (fun p => ⟨p, .waiting⟩), fs⟩ ∧
      PoolState.inFlight ⟨names.map (fun p => ⟨p, .waiting⟩), fs⟩ ≤ K) := by
    refine ⟨?_, poolInv_init names fs, by rw [inFlight_init]; omega⟩
    simp [List.map_map, Function.comp_def]
  obtain ⟨g1, g2⟩ := foldl_poolStep_good K fs names hnd sched _ h0
  rw [stepsLeft_init] at g2
  have hlen : (PoolState.mk (names.map (fun p => ⟨p, TaskPhase.waiting⟩)) fs).tasks.length
      = names.length := by simp
  obtain ⟨d1, ⟨da, db⟩, _⟩ := drain_good K fs names hnd (2 * names.length) _ g1
  have hfin := drain_allFinished K hK (2 * names.length) _ g2
  have hrun : runPool K sched ⟨names.map (fun p => ⟨p, .waiting⟩), fs⟩ =
      drain K (2 * names.length)
        (sched.foldl (poolStep K) ⟨names.map (fun p => ⟨p, .waiting⟩), fs⟩) := by
    rw [runPool, hlen]
  rw [hrun]
  refine ⟨hfin, ?_, ?_⟩
  · intro p hp
    rw [← d1] at hp
    obtain ⟨t, ht, rfl⟩ := List.mem_map.mp hp
    obtain ⟨i, hi⟩ := List.mem_iff_getElem?.mp ht
    apply da i t hi
    have := (List.all_eq_true.mp hfin) t ht
    simpa using this
  · intro p hp
    apply db p
    intro i t hi htp
    exfalso
    apply hp
    rw [← d1, ← htp]
    exact List.mem_map.mpr ⟨t, List.mem_iff_getElem?.mpr ⟨i, hi⟩, rfl⟩

end PoolRun

/-! ## `make` -/

section Make

theorem makeSlice_ok (env : Env) (size N : Nat) (h : size * N ≤ env.maxAlloc) :
    env.makeSlice size (N : Int) = true := by
  simp [Env.makeSlice, h]

theorem makeChan_ok (env : Env) (size K : Nat) (h : size * K + hchanSize ≤ env.maxAlloc) :
    env.makeChan size (K : Int) = true := by
  simp [Env.makeChan, h]

theorem makeSlice_iff (env : Env) (size : Nat) (n : Int) :
    env.makeSlice size n = true ↔ 0 ≤ n ∧ size * n.toNat ≤ env.maxAlloc := by
  simp [Env.makeSlice]

theorem makeChan_iff (env : Env) (size : Nat) (n : Int) :
    env.makeChan size n = true ↔ 0 ≤ n ∧ size * n.toNat + hchanSize ≤ env.maxAlloc := by
  simp [Env.makeChan]

end Make

/-! ## Scratch files and the partition -/

section Temps

theorem TempFile_spec (fs : FS) : ∀ (cands : List Path) (p : Path) (rest : List Path) (fs1 : FS),
    TempFile fs cands = some (p, rest, fs1) →
    fs p = none ∧ p ∈ cands ∧ fs1 = fs.write p [] ∧ (∀ q ∈ rest, q ∈ cands) := by
  intro cands
  induction cands with
  | nil => intro p rest fs1 h; simp [TempFile] at h
  | cons c t ih =>
    intro p rest fs1 h
    rw [TempFile] at h
    split_ifs at h with hc
    · obtain ⟨h1, h2, h3, h4⟩ := ih p rest fs1 h
      exact ⟨h1, List.mem_cons_of_mem _ h2, h3, fun q hq => List.mem_cons_of_mem _ (h4 q hq)⟩
    · simp only [Option.some.injEq, Prod.mk.injEq] at h
      obtain ⟨rfl, rfl, rfl⟩ := h
      refine ⟨?_, List.mem_cons_self _ _, rfl, fun q hq => List.mem_cons_of_mem _ hq⟩
      cases hfs : fs c with
      | none => rfl
      | some d => simp [hfs] at hc

/-- Creating the scratch files touches no file that exists and no path
outside the candidate names, whether or not all of them get created. -/
theorem createTemps_frame : ∀ (n : Nat) (cands : List Path) (fs : FS) (acc : List Path)
    (q : Path), (q ∉ cands ∨ (fs q).isSome) → (createTemps n cands fs acc).2 q = fs q := by
  intro n
  induction n with
  | zero => intro cands fs acc q _; rfl
  | succ n ih =>
    intro cands fs acc q hq
    rw [createTemps]
    cases ht : TempFile fs cands with
    | none => rfl
    | some r =>
      obtain ⟨p, rest, fs1⟩ := r
      obtain ⟨h1, h2, h3, h4⟩ := TempFile_spec fs cands p rest fs1 ht
      simp only
      have hne : q ≠ p := by
        rintro rfl
        rcases hq with hq | hq
        · exact hq h2
        · rw [h1] at hq; cases hq
      rw [ih rest fs1 (acc ++ [p]) q]
      · rw [h3, FS.write_other _ _ hne]
      · rcases hq with hq | hq
        · exact Or.inl (fun hr => hq (h4 q hr))
        · right; rw [h3, FS.write_other _ _ hne]; exact hq

/-- When all the scratch files get created they are `n` distinct fresh names,
each created empty, and nothing else has changed. -/
theorem createTemps_spec : ∀ (n : Nat) (cands : List Path) (fs : FS) (acc names : List Path)
    (fs1 : FS), createTemps n cands fs acc = (some names, fs1) →
    ∃ new, names = acc ++ new ∧ new.length = n ∧ new.Nodup ∧
      (∀ p ∈ new, fs p = none ∧ p ∈ cands ∧ fs1 p = some []) ∧
      (∀ q, q ∉ new → fs1 q = fs q) := by
  intro n
  induction n with
  | zero =>
    intro cands fs acc names fs1 h
    simp only [createTemps, Prod.mk.injEq, Option.some.injEq] at h
    obtain ⟨rfl, rfl⟩ := h
    refine ⟨[], by simp, rfl, List.nodup_nil, ?_, fun q _ => rfl⟩
    intro p hp
    cases hp
  | succ n ih =>
    intro cands fs acc names fs1 h
    rw [createTemps] at h
    cases ht : TempFile fs cands with
    | none => rw [ht] at h; simp at h
    | some r =>
      obtain ⟨p, rest, fs'⟩ := r
      rw [ht] at h
      simp only at h
      obtain ⟨h1, h2, h3, h4⟩ := TempFile_spec fs cands p rest fs' ht
      obtain ⟨new, g1, g2, g3, g4, g5⟩ := ih rest fs' (acc ++ [p]) names fs1 h
      have hp_new : p ∉ new := by
        intro hp
        have := (g4 p hp).1
        rw [h3, FS.write_same] at this
        cases this
      refine ⟨p :: new, by rw [g1]; simp, by simp [g2], List.nodup_cons.mpr ⟨hp_new, g3⟩, ?_, ?_⟩
      · intro q hq
        rcases List.mem_cons.mp hq with rfl | hq
        · refine ⟨h1, h2, ?_⟩
          rw [g5 q hp_new, h3, FS.write_same]
        · obtain ⟨a, b, c⟩ := g4 q hq
          have hne : q ≠ p := fun e => hp_new (e ▸ hq)
          rw [h3, FS.write_other _ _ hne] at a
          exact ⟨a, h4 q b, c⟩
      · intro q hq
        have hq1 : q ≠ p := fun e => hq (by simp [e])
        have hq2 : q ∉ new := fun e => hq (by simp [e])
        rw [g5 q hq2, h3, FS.write_other _ _ hq1]

/-- After the flush every scratch file holds what its writer was given. -/
theorem flushAll_spec : ∀ (names : List Path) (ws : List (List Byte)) (fs : FS),
    names.Nodup → names.length = ws.length →
    (∀ (j : Nat) (p : Path), names[j]? = some p → flushAll fs names ws p = ws[j]?) ∧
    (∀ q, q ∉ names → flushAll fs names ws q = fs q) := by
  intro names
  induction names with
  | nil =>
    intro ws fs _ _
    exact ⟨fun j p h => by simp at h, fun q _ => by cases ws <;> rfl⟩
  | cons a t ih =>
    intro ws fs hnd hlen
    cases ws with
    | nil => simp at hlen
    | cons w ws =>
      obtain ⟨ha, ht⟩ := List.nodup_cons.mp hnd
      obtain ⟨i1, i2⟩ := ih ws (fs.write a w) ht (by simpa using hlen)
      constructor
      · intro j p hj
        cases j with
        | zero =>
          simp only [List.getElem?_cons_zero, Option.some.injEq] at hj ⊢
          subst hj
          rw [flushAll, i2 a ha, FS.write_same]
        | succ j =>
          simp only [List.getElem?_cons_succ] at hj ⊢
          rw [flushAll]
          exact i1 j p hj
      · intro q hq
        have hq1 : q ≠ a := fun e => hq (by simp [e])
        have hq2 : q ∉ t := fun e => hq (by simp [e])
        rw [flushAll, i2 q hq2, FS.write_other _ _ hq1]

end Temps

section Partition

theorem modify_map_writeLines : ∀ (shards : List (List Line)) (k : Nat) (l : Line),
    (shards.map writeLines).modify (fun w => w ++ (l ++ [10])) k =
      (shards.modify (fun s => s ++ [l]) k).map writeLines := by
  intro shards
  induction shards with
  | nil => intro k l; cases k <;> rfl
  | cons s t ih =>
    intro k l
    cases k with
    | zero =>
      simp [List.modify, writeLines_append, writeLines_singleton]
    | succ k =>
      have := ih k l
      simp only [List.map_cons, List.modify_succ_cons, this]

theorem flatten_modify : ∀ (shards : List (List Line)) (k : Nat) (l : Line), k < shards.length →
    ((shards.modify (fun s => s ++ [l]) k).flatten).Perm (shards.flatten ++ [l]) := by
  intro shards
  induction shards with
  | nil => intro k l hk; simp at hk
  | cons s t ih =>
    intro k l hk
    cases k with
    | zero =>
      simp only [List.modify_zero_cons, List.flatten_cons, List.append_assoc]
      exact List.Perm.append_left _ List.perm_append_comm
    | succ k =>
      have := ih k l (by simpa using hk)
      simp only [List.modify_succ_cons, List.flatten_cons, List.append_assoc]
      exact List.Perm.append_left _ this

/-- The partition loop hands every line to exactly one writer, as
`line + "\n"`: the writers hold line lists that together are the lines read,
and no line other than those. -/
theorem partitionLoop_spec (N : Nat) (hN : 0 < N) : ∀ (ls : List Line) (i : Nat)
    (shards : List (List Line)), shards.length = N →
    ∃ shards' : List (List Line),
      partitionLoop N ls i (shards.map writeLines) = shards'.map writeLines ∧
      shards'.length = N ∧ shards'.flatten.Perm (shards.flatten ++ ls) := by
  intro ls
  induction ls with
  | nil =>
    intro i shards h
    exact ⟨shards, rfl, h, by simp⟩
  | cons l t ih =>
    intro i shards h
    have hk : i % N < shards.length := by rw [h]; exact Nat.mod_lt _ hN
    obtain ⟨shards', g1, g2, g3⟩ := ih (i + 1) (shards.modify (fun s => s ++ [l]) (i % N))
      (by rw [List.length_modify]; exact h)
    refine ⟨shards', ?_, g2, ?_⟩
    · rw [partitionLoop, modify_map_writeLines]; exact g1
    · refine g3.trans ?_
      refine (List.Perm.append_right t (flatten_modify shards (i % N) l hk)).trans ?_
      rw [List.append_assoc]
      exact List.Perm.refl _

/-- A writer whose index the line counter never reaches is given nothing. -/
theorem partitionLoop_untouched (N : Nat) : ∀ (ls : List Line) (i : Nat)
    (ws : List (List Byte)) (j : Nat), i + ls.length ≤ j → j < N →
    (partitionLoop N ls i ws)[j]? = ws[j]? := by
  intro ls
  induction ls with
  | nil => intro i ws j _ _; rfl
  | cons l t ih =>
    intro i ws j hj hjN
    simp only [List.length_cons] at hj
    rw [partitionLoop, ih (i + 1) _ j (by omega) hjN, List.getElem?_modify]
    have : i % N ≠ j := by
      rw [Nat.mod_eq_of_lt (by omega)]
      omega
    cases ws[j]? <;> simp [this]

theorem length_partitionLoop (N : Nat) : ∀ (ls : List Line) (i : Nat)
    (ws : List (List Byte)), (partitionLoop N ls i ws).length = ws.length := by
  intro ls
  induction ls with
  | nil => intro i ws; rfl
  | cons l t ih =>
    intro i ws
    rw [partitionLoop, ih, List.length_modify]

end Partition

/-! ## `SortPar` end to end -/

section EndToEnd

theorem sortStrings_perm (ls : List Line) : (sortStrings ls).Perm ls :=
  List.perm_insertionSort _ ls

theorem sortStrings_sorted (ls : List Line) : (sortStrings ls).Sorted (fun a b => a ≤ b) :=
  List.sorted_insertionSort _ ls

theorem valid_dropCR {l : Line} (h : (10 : Byte) ∉ l ∧ l.length < MaxScanTokenSize) :
    (10 : Byte) ∉ dropCR l ∧ (dropCR l).length < MaxScanTokenSize :=
  ⟨not_mem_dropCR h.1, lt_of_le_of_lt (length_dropCR_le l) h.2⟩

/-- What `merge` reads from a shard that `sortOne` has rewritten: the lines
the partition wrote, each scanned twice more, in the order `sortOne` gave
them. -/
theorem scanAll_sortOneContent (sh : List Line)
    (hv : ∀ l ∈ sh, (10 : Byte) ∉ l ∧ l.length < MaxScanTokenSize) :
    scanAll (sortOneContent (writeLines sh)) = (sortStrings (sh.map dropCR)).map dropCR := by
  unfold sortOneContent
  rw [scanAll_writeLines sh hv]
  apply scanAll_writeLines
  intro l hl
  have := (sortStrings_perm _).mem_iff.mp hl
  obtain ⟨x, hx, rfl⟩ := List.mem_map.mp this
  exact valid_dropCR (hv x hx)

/-- The first loop of `merge` depends on the file system only through what
the shards hold. -/
theorem mergeOpen_congr (fs fs' : FS) : ∀ (ps qs : List Path) (i : Nat) (st : MergeState),
    (∀ p ∈ ps, (fs p).isSome) → ps.map fs = qs.map fs' →
    mergeOpen fs ps i st = mergeOpen fs' qs i st := by
  intro ps
  induction ps with
  | nil =>
    intro qs i st _ h
    cases qs with
    | nil => rfl
    | cons q qs => simp at h
  | cons p ps ih =>
    intro qs i st hex h
    cases qs with
    | nil => simp at h
    | cons q qs =>
      simp only [List.map_cons, List.cons.injEq] at h
      obtain ⟨h1, h2⟩ := h
      obtain ⟨d, hd⟩ := Option.isSome_iff_exists.mp (hex p (by simp))
      have hex' : ∀ x ∈ ps, (fs x).isSome := fun x hx => hex x (by simp [hx])
      rw [mergeOpen, mergeOpen, ← h1, hd]
      simp only
      cases Scan d with
      | none => exact ih qs _ _ hex' h2
      | some tr => exact ih qs _ _ hex' h2

theorem map_shardFS_range (contents : List (List Byte)) :
    (List.range contents.length).map (shardFS contents) = contents.map some := by
  apply List.ext_getElem?
  intro j
  simp only [List.getElem?_map, List.getElem?_range, shardFS]
  by_cases hj : j < contents.length
  · simp [List.getElem?_range hj, List.getElem?_eq_getElem hj, shardFS]
  · have h1 : (List.range contents.length)[j]? = none := by
      rw [List.getElem?_eq_none_iff]; simpa using hj
    have h2 : contents[j]? = none := by
      rw [List.getElem?_eq_none_iff]; omega
    rw [h1, h2]; rfl

/-- The bytes `merge` writes are `mergeBytes` of what the shards hold. -/
theorem merge_bytes (env : Env) (fs : FS) (filenames : List Path) (out : Path)
    (hex : ∀ p ∈ filenames, (fs p).isSome) (hc : env.canCreate out = true) :
    merge env fs filenames out =
      (none, fs.write out (mergeBytes (filenames.map (fun p => (fs p).getD [])))) := by
  have hmap : filenames.map fs =
      (List.range (filenames.map (fun p => (fs p).getD [])).length).map
        (shardFS (filenames.map (fun p => (fs p).getD []))) := by
    rw [map_shardFS_range, List.map_map]
    apply List.map_congr_left
    intro p hp
    obtain ⟨d, hd⟩ := Option.isSome_iff_exists.mp (hex p hp)
    simp [hd]
  have hopen := mergeOpen_congr fs _ filenames _ 0 ⟨[], [], []⟩ hex hmap
  obtain ⟨st0, h1, _⟩ := mergeOpen_spec fs filenames 0 ⟨[], [], []⟩ rfl hex
  unfold merge mergeBytes
  rw [← hopen, h1]
  simp only [hc, if_true, FS.write_write]

theorem flatten_reread_perm : ∀ (shards : List (List Line)),
    ((shards.map (fun sh => (sortStrings (sh.map dropCR)).map dropCR)).flatten).Perm
      (shards.flatten.map (fun l => dropCR (dropCR l))) := by
  intro shards
  induction shards with
  | nil => simp
  | cons sh t ih =>
    simp only [List.map_cons, List.flatten_cons, List.map_append]
    refine List.Perm.append ?_ ih
    have := ((sortStrings_perm (sh.map dropCR)).map dropCR)
    simpa [List.map_map, Function.comp_def] using this

/-- The main statement about a call that goes through. For every schedule of
the sort goroutines `SortPar` returns `nil`; the scratch files are fresh names
that still exist afterwards, and apart from them only `output` has changed;
`output` holds `sortParBytes N data`, which is `line + "\n"` for each line of
`outLines`; these are the tokens of the input scanned twice more, and they are
in order when rescanning no longer changes a token that was scanned twice. -/
theorem SortPar_spec (env : Env) (sched : List Nat) (fs : FS) (input output : Path)
    (N K : Nat) (data : List Byte) (hN : 1 ≤ N) (hK : 1 ≤ K)
    (hKa : 16 * K + hchanSize ≤ env.maxAlloc)
    (h : Runs env fs input output N data) :
    ∃ (outLines : List Line) (fs3 : FS) (names : List Path),
      SortPar env sched fs input output N K =
        .returned none (fs3.write output (sortParBytes N data)) ∧
      sortParBytes N data = writeLines outLines ∧
      (createTemps N env.tempNames fs []).1 = some names ∧
      names.length = N ∧
      (∀ p ∈ names, fs p = none ∧ (fs3 p).isSome ∧ p ≠ output) ∧
      (∀ q, q ∉ names → fs3 q = fs q) ∧
      outLines.Perm ((scanAll data).map (fun l => dropCR (dropCR l))) ∧
      ((∀ l ∈ scanAll data, dropCR (dropCR l) = dropCR l) →
        outLines.Sorted (fun a b => a ≤ b)) ∧
      (∀ l ∈ outLines, (10 : Byte) ∉ l) := by
  obtain ⟨hin, htemps, hcreate, hout, hNa⟩ := h
  -- the scratch files
  cases hct : createTemps N env.tempNames fs [] with
  | mk r fs1 =>
  rw [hct] at htemps
  obtain ⟨names, rfl⟩ := Option.isSome_iff_exists.mp htemps
  obtain ⟨new, g1, g2, g3, g4, g5⟩ := createTemps_spec N env.tempNames fs [] names fs1 hct
  simp only [List.nil_append] at g1
  subst g1
  have hinput_not : input ∉ names := by
    intro hmem
    have := (g4 input hmem).1
    rw [hin] at this
    cases this
  have hfs1in : fs1 input = some data := by rw [g5 input hinput_not, hin]
  -- the partition
  have hrep : List.replicate N ([] : List Byte) =
      (List.replicate N ([] : List Line)).map writeLines := by
    simp [writeLines]
  obtain ⟨shards, p1, p2, p3⟩ := partitionLoop_spec N (by omega) (scanAll data) 0
    (List.replicate N []) (by simp)
  rw [← hrep] at p1
  have p3' : shards.flatten.Perm (scanAll data) := by
    refine p3.trans ?_
    simp
  have hvalid : ∀ sh ∈ shards, ∀ l ∈ sh, (10 : Byte) ∉ l ∧ l.length < MaxScanTokenSize := by
    intro sh hsh l hl
    apply scanAll_token data.length data (le_refl _)
    apply p3'.mem_iff.mp
    exact List.mem_flatten.mpr ⟨sh, hsh, hl⟩
  -- the flush and the sort phase
  obtain ⟨f1, f2⟩ := flushAll_spec names (shards.map writeLines) fs1 g3 (by simp [g2, p2])
  obtain ⟨r1, r2, r3⟩ := runPool_spec K hK sched names g3
    (flushAll fs1 names (shards.map writeLines))
  generalize hpool : runPool K sched
    ⟨names.map (fun p => ⟨p, .waiting⟩), flushAll fs1 names (shards.map writeLines)⟩ = pool
    at r1 r2 r3
  -- the merge
  have hex : ∀ p ∈ names, (pool.fs p).isSome := by
    intro p hp
    rw [r2 p hp]; rfl
  obtain ⟨outLines, m1, m2, m3⟩ := merge_spec env pool.fs names output hex hcreate
  have hread : names.map (fun p => scanAll ((pool.fs p).getD [])) =
      shards.map (fun sh => (sortStrings (sh.map dropCR)).map dropCR) := by
    apply List.ext_getElem?
    intro j
    rw [List.getElem?_map, List.getElem?_map]
    cases hj : names[j]? with
    | none =>
      have : shards[j]? = none := by
        rw [List.getElem?_eq_none_iff] at hj ⊢
        omega
      rw [this]; rfl
    | some p =>
      have hp : p ∈ names := List.mem_iff_getElem?.mpr ⟨j, hj⟩
      have hjlt : j < shards.length := by
        obtain ⟨hlt, _⟩ := List.getElem?_eq_some.mp hj
        omega
      have e1 := f1 j p hj
      rw [List.getElem?_map, List.getElem?_eq_getElem hjlt] at e1
      simp only [Option.map_some'] at e1 ⊢
      rw [List.getElem?_eq_getElem hjlt, r2 p hp, e1]
      simp only [Option.getD_some, Option.map_some']
      rw [scanAll_sortOneContent _ (hvalid _ (List.getElem_mem hjlt))]
  rw [hread] at m2
  have hcontents : names.map (fun p => (pool.fs p).getD []) =
      (shards.map writeLines).map sortOneContent := by
    apply List.ext_getElem?
    intro j
    rw [List.getElem?_map, List.getElem?_map]
    cases hj : names[j]? with
    | none =>
      have : (shards.map writeLines)[j]? = none := by
        rw [List.getElem?_eq_none_iff] at hj ⊢
        simp only [List.length_map]
        omega
      rw [this]; rfl
    | some p =>
      have hp : p ∈ names := List.mem_iff_getElem?.mpr ⟨j, hj⟩
      have hjlt : j < (shards.map writeLines).length := by
        obtain ⟨hlt, _⟩ := List.getElem?_eq_some.mp hj
        simp only [List.length_map]
        omega
      have e1 := f1 j p hj
      rw [List.getElem?_eq_getElem hjlt] at e1 ⊢
      simp only [Option.map_some', r2 p hp, e1, Option.getD_some]
  have mb := merge_bytes env pool.fs names output hex hcreate
  rw [hcontents, ← p1] at mb
  have hbytes : sortParBytes N data = writeLines outLines := by
    have e := m1.symm.trans mb
    have e2 := congrArg (fun r : Option PathError × FS => r.2 output) e
    simp only [FS.write_same, Option.some.injEq] at e2
    exact e2.symm
  refine ⟨outLines, pool.fs, names, ?_, hbytes, rfl, g2, ?_, ?_, ?_, ?_, ?_⟩
  · rw [hbytes]
    unfold SortPar
    have hN0 := makeSlice_ok env 16 N hNa
    have hK0 := makeChan_ok env 16 K hKa
    have hNz : ¬ (N = 0 ∧ scanAll data ≠ []) := by omega
    simp only [hN0, Bool.not_true, Bool.false_eq_true, if_false, Int.toNat_ofNat, hct, hfs1in,
      hNz, hK0, p1, hpool, r1, if_true, m1]
  · intro p hp
    refine ⟨(g4 p hp).1, hex p hp, ?_⟩
    rintro rfl
    exact hout (g4 p hp).2.1
  · intro q hq
    rw [r3 q hq, f2 q hq, g5 q hq]
  · exact m2.trans ((flatten_reread_perm shards).trans (p3'.map _))
  · intro hcr
    apply m3
    intro p hp
    have : scanAll ((pool.fs p).getD []) ∈
        names.map (fun p => scanAll ((pool.fs p).getD [])) :=
      List.mem_map.mpr ⟨p, hp, rfl⟩
    rw [hread] at this
    obtain ⟨sh, hsh, he⟩ := List.mem_map.mp this
    rw [← he]
    have hid : (sortStrings (sh.map dropCR)).map dropCR = sortStrings (sh.map dropCR) := by
      conv_rhs => rw [← List.map_id (sortStrings (sh.map dropCR))]
      apply List.map_congr_left
      intro x hx
      have := (sortStrings_perm _).mem_iff.mp hx
      obtain ⟨l, hl, rfl⟩ := List.mem_map.mp this
      apply hcr
      apply p3'.mem_iff.mp
      exact List.mem_flatten.mpr ⟨sh, hsh, hl⟩
    rw [hid]
    exact sortStrings_sorted _
  · intro l hl
    have := (m2.trans ((flatten_reread_perm shards).trans (p3'.map _))).mem_iff.mp hl
    obtain ⟨x, hx, rfl⟩ := List.mem_map.mp this
    have hv := scanAll_token data.length data (le_refl _) x hx
    exact (valid_dropCR (valid_dropCR hv)).1

end EndToEnd

/-! ## Carriage returns and trailing newlines -/

section Format

theorem dropCR_append_cr (y : List Byte) : dropCR (y ++ [13]) = y := by
  simp [dropCR]

theorem dropCR_eq_self {l : List Byte} (h : l.getLast? ≠ some 13) : dropCR l = l := by
  simp [dropCR, h]

theorem dropCR_ne_self {l : List Byte} (h : dropCR l ≠ l) : l = dropCR l ++ [13] := by
  unfold dropCR at h ⊢
  split_ifs at h ⊢ with c
  · exact (List.dropLast_append_getLast? 13 (by simp [c])).symm
  · exact absurd rfl h

/-- Scanning a third time changes nothing unless the line ended in three
`\r`. -/
theorem dropCR_stable {l : List Byte} (h : ¬ ([13, 13, 13] <:+ l)) :
    dropCR (dropCR (dropCR l)) = dropCR (dropCR l) := by
  by_contra h3
  have e3 := dropCR_ne_self h3
  have h2 : dropCR (dropCR l) ≠ dropCR l := by
    intro e
    rw [e] at h3
    exact h3 e
  have e2 := dropCR_ne_self h2
  have h1 : dropCR l ≠ l := by
    intro e
    rw [e] at h2
    exact h2 e
  have e1 := dropCR_ne_self h1
  apply h
  refine ⟨dropCR (dropCR (dropCR l)), ?_⟩
  conv_rhs => rw [e1, e2, e3]
  simp

theorem scanAll_mem_splitLines {d : List Byte} {t : Line} (h : t ∈ scanAll d) :
    ∃ l ∈ splitLines d, t = dropCR l := by
  rw [scanAll_eq_splitLines d.length d (le_refl _)] at h
  obtain ⟨l, hl, rfl⟩ := List.mem_map.mp h
  exact ⟨l, (List.takeWhile_sublist _).subset hl, rfl⟩

theorem scanAll_stable {d : List Byte} (h : NoTripleCR d) :
    ∀ t ∈ scanAll d, dropCR (dropCR t) = dropCR t := by
  intro t ht
  obtain ⟨l, hl, rfl⟩ := scanAll_mem_splitLines ht
  exact dropCR_stable (h l hl)

theorem clean_noTripleCR {d : List Byte} (h : CleanInput d) : NoTripleCR d := by
  intro l hl hs
  apply (h l hl).2
  obtain ⟨y, rfl⟩ := hs
  simp

theorem scanAll_twice_clean {d : List Byte} (h : CleanInput d) :
    (scanAll d).map (fun l => dropCR (dropCR l)) = splitLines d := by
  rw [scanAll_clean d h]
  conv_rhs => rw [← List.map_id (splitLines d)]
  apply List.map_congr_left
  intro l hl
  simp only [dropCR_eq_self (h l hl).2, id]

theorem getLast?_writeLines (ls : List Line) (h : writeLines ls ≠ []) :
    (writeLines ls).getLast? = some 10 := by
  induction ls with
  | nil => exact absurd rfl h
  | cons l t ih =>
    have e : writeLines (l :: t) = (l ++ [10]) ++ writeLines t := by
      simp [writeLines]
    rw [e]
    by_cases ht : writeLines t = []
    · rw [ht]; simp
    · rw [List.getLast?_append_of_ne_nil _ ht]
      exact ih ht

/-- A file that ends with `\n`, or is empty, is `line + "\n"` for each of its
lines. -/
theorem writeLines_splitLines : ∀ (n : Nat) (d : List Byte), d.length ≤ n →
    NewlineTerminated d → writeLines (splitLines d) = d := by
  intro n
  induction n with
  | zero =>
    intro d hd _
    have : d = [] := List.length_eq_zero.mp (by omega)
    subst this
    rfl
  | succ n ih =>
    intro d hd hnl
    have hraw := takeWhile_no_newline d
    rcases raw_line_cases d with ⟨h1, _⟩ | ⟨rest, h1, _⟩
    · rcases hnl with rfl | hnl
      · rfl
      · exfalso
        rw [← h1] at hraw
        exact hraw (List.mem_of_getLast?_eq_some hnl)
    · generalize hr : d.takeWhile (fun b => b != 10) = raw at h1 hraw
      have hlen : rest.length ≤ n := by
        have := congrArg List.length h1
        simp at this
        omega
      have hrest : NewlineTerminated rest := by
        by_cases hre : rest = []
        · exact Or.inl hre
        · right
          rcases hnl with hnl | hnl
          · rw [hnl] at h1; simp at h1
          · rw [h1] at hnl
            have e : raw ++ 10 :: rest = (raw ++ [10]) ++ rest := by simp
            rw [e, List.getLast?_append_of_ne_nil _ hre] at hnl
            exact hnl
      rw [h1, splitLines_line raw rest hraw]
      have e : writeLines (raw :: splitLines rest) = raw ++ 10 :: writeLines (splitLines rest) := by
        simp [writeLines]
      rw [e, ih rest hlen hrest]

/-- Adding the missing `\n` at the end of a file does not change its lines. -/
theorem splitLines_add_newline : ∀ (n : Nat) (d : List Byte), d.length ≤ n →
    d ≠ [] → d.getLast? ≠ some 10 → splitLines (d ++ [10]) = splitLines d := by
  intro n
  induction n with
  | zero =>
    intro d hd hne _
    exact absurd (List.length_eq_zero.mp (by omega)) hne
  | succ n ih =>
    intro d hd hne hlast
    have hraw := takeWhile_no_newline d
    rcases raw_line_cases d with ⟨h1, _⟩ | ⟨rest, h1, _⟩
    · rw [← h1] at hraw
      rw [splitLines_line d [] hraw, splitLines_last d hraw hne]
      rfl
    · generalize hr : d.takeWhile (fun b => b != 10) = raw at h1 hraw
      have hlen : rest.length ≤ n := by
        have := congrArg List.length h1
        simp at this
        omega
      have hre : rest ≠ [] := by
        intro hre
        apply hlast
        rw [h1, hre]
        simp
      have hrl : rest.getLast? ≠ some 10 := by
        intro hrl
        apply hlast
        rw [h1]
        have e : raw ++ 10 :: rest = (raw ++ [10]) ++ rest := by simp
        rw [e, List.getLast?_append_of_ne_nil _ hre]
        exact hrl
      have e : d ++ [10] = raw ++ 10 :: (rest ++ [10]) := by
        conv_lhs => rw [h1]
        simp
      rw [e, splitLines_line raw _ hraw, ih rest hlen hre hrl]
      conv_rhs => rw [h1, splitLines_line raw rest hraw]

theorem scanAll_add_newline (d : List Byte) (hne : d ≠ []) (hlast : d.getLast? ≠ some 10) :
    scanAll (d ++ [10]) = scanAll d := by
  rw [scanAll_eq_splitLines _ _ (le_refl _), scanAll_eq_splitLines d.length d (le_refl _),
    splitLines_add_newline d.length d (le_refl _) hne hlast]

/-- The sorted list with given elements is unique. -/
theorem eq_sortStrings {a b : List Line} (hp : a.Perm b)
    (hs : a.Sorted (fun x y => x ≤ y)) : a = sortStrings b :=
  List.eq_of_perm_of_sorted (hp.trans (sortStrings_perm b).symm) hs (sortStrings_sorted b)

end Format

/-! ## The fuel of the loops is enough

Each loop of the program is embedded with a bound on its iterations. The
bounds used are never reached: with any larger bound the result is the same.
-/

section Fuel

open stringPosPairHeap

theorem up_fuel : ∀ (f g : Nat) (h : stringPosPairHeap) (j : Nat), j < f → j < g →
    heap.up f h j = heap.up g h j := by
  intro f
  induction f with
  | zero => intro g h j hf; omega
  | succ f ih =>
    intro g h j hf hg
    cases g with
    | zero => omega
    | succ g =>
      rw [heap.up, heap.up]
      split_ifs with c
      · rfl
      · have hij : ¬ (j - 1) / 2 = j := fun e => c (Or.inl e)
        exact ih g _ _ (by omega) (by omega)

theorem down_fuel : ∀ (f g : Nat) (h : stringPosPairHeap) (i n : Nat), n ≤ i + f → n ≤ i + g →
    heap.down f h i n = heap.down g h i n := by
  intro f
  induction f with
  | zero =>
    intro g h i n hf _
    cases g with
    | zero => rfl
    | succ g =>
      rw [heap.down, heap.down]
      rw [if_pos (by omega)]
  | succ f ih =>
    intro g h i n hf hg
    cases g with
    | zero =>
      rw [heap.down, heap.down]
      rw [if_pos (by omega)]
    | succ g =>
      rw [heap.down, heap.down]
      by_cases c1 : n ≤ 2 * i + 1
      · rw [if_pos c1, if_pos c1]
      · rw [if_neg c1, if_neg c1]
        by_cases c2 : 2 * i + 1 + 1 < n ∧ Less h (2 * i + 1 + 1) (2 * i + 1) = true
        · simp only [c2, and_self, if_true]
          by_cases c3 : (!(Less h (2 * i + 1 + 1) i)) = true
          · rw [if_pos c3, if_pos c3]
          · rw [if_neg c3, if_neg c3]
            exact ih g _ _ _ (by omega) (by omega)
        · simp only [c2, if_false]
          by_cases c3 : (!(Less h (2 * i + 1) i)) = true
          · rw [if_pos c3, if_pos c3]
          · rw [if_neg c3, if_neg c3]
            exact ih g _ _ _ (by omega) (by omega)

theorem mergeLoop_fuel : ∀ (f g : Nat) (st : MergeState), mergeFuel st ≤ f → mergeFuel st ≤ g →
    mergeLoop f st = mergeLoop g st := by
  have stop : ∀ (g : Nat) (st : MergeState), st.mergeheap = [] → mergeLoop g st = st := by
    intro g st hh
    cases g with
    | zero => rfl
    | succ g => simp [mergeLoop, Len, hh]
  intro f
  induction f with
  | zero =>
    intro g st hf _
    have hh : st.mergeheap = [] := by
      apply List.length_eq_zero.mp
      unfold mergeFuel at hf
      omega
    rw [stop g st hh]
    rfl
  | succ f ih =>
    intro g st hf hg
    by_cases hh : st.mergeheap = []
    · rw [stop g st hh, stop (f + 1) st hh]
    · have hstep := mergeFuel_step st hh
      have hlen : ¬ Len st.mergeheap = 0 := by simpa [Len] using hh
      cases g with
      | zero => omega
      | succ g =>
        rw [mergeLoop, mergeLoop, if_neg hlen, if_neg hlen]
        exact ih g _ (by omega) (by omega)

theorem drain_fuel (K : Nat) : ∀ (f g : Nat) (st : PoolState), st.stepsLeft ≤ f →
    st.stepsLeft ≤ g → drain K f st = drain K g st := by
  have stop : ∀ (g : Nat) (st : PoolState),
      (List.range st.tasks.length).find? (fun i => st.enabled K i) = none →
      drain K g st = st := by
    intro g st hn
    cases g with
    | zero => rfl
    | succ g => rw [drain, hn]
  intro f
  induction f with
  | zero =>
    intro g st hf _
    cases hfind : (List.range st.tasks.length).find? (fun i => st.enabled K i) with
    | none => rw [stop g st hfind]; rfl
    | some i =>
      have := poolStep_stepsLeft K st i (List.find?_some hfind)
      omega
  | succ f ih =>
    intro g st hf hg
    cases hfind : (List.range st.tasks.length).find? (fun i => st.enabled K i) with
    | none => rw [stop g st hfind, stop (f + 1) st hfind]
    | some i =>
      have hdec := poolStep_stepsLeft K st i (List.find?_some hfind)
      cases g with
      | zero => omega
      | succ g =>
        rw [drain, drain, hfind]
        exact ih g _ (by omega) (by omega)

end Fuel

/-! ## The claims about `SortPar` -/

section Claims

/-- C1 (amended). For every input whose lines are each shorter than
`MaxScanTokenSize` (65536) bytes and do not end in `\r`, every
`nTempFiles ≥ 1` and every `nParSorts ≥ 1` that `make` can allocate (a slice
of `nTempFiles` strings, a channel of capacity `nParSorts`), and every
schedule of the sort goroutines, a call that goes through returns `nil` and
the multiset of lines of the output equals the multiset of lines of the
input. -/
theorem SortPar_permutation (env : Env) (sched : List Nat) (fs : FS) (input output : Path)
    (N K : Nat) (data : List Byte) (hN : 1 ≤ N) (hK : 1 ≤ K)
    (hKa : 16 * K + hchanSize ≤ env.maxAlloc)
    (hrun : Runs env fs input output N data) (hclean : CleanInput data) :
    ∃ fs' out, SortPar env sched fs input output N K = .returned none fs' ∧
      fs' output = some out ∧
      (↑(splitLines out) : Multiset Line) = ↑(splitLines data) := by
  obtain ⟨outLines, fs3, names, h1, h2, _, _, _, _, h6, _, h8⟩ :=
    SortPar_spec env sched fs input output N K data hN hK hKa hrun
  refine ⟨_, sortParBytes N data, h1, FS.write_same _ _ _, ?_⟩
  rw [h2, splitLines_writeLines outLines h8, Multiset.coe_eq_coe]
  rw [scanAll_twice_clean hclean] at h6
  exact h6

/-- C1, witness: the lines banana, apple, cherry, apple with two shards. -/
theorem SortPar_permutation_witness :
    (1 ≤ 2 ∧ 16 * 2 + hchanSize ≤ demoEnv.maxAlloc ∧
      Runs demoEnv (fsWith 0 fruitInput) 0 1 2 fruitInput ∧ CleanInput fruitInput) ∧
    ∃ fs' out, SortPar demoEnv [1, 0, 0] (fsWith 0 fruitInput) 0 1 (2 : Nat) (2 : Nat) =
        .returned none fs' ∧ fs' 1 = some out ∧
      (↑(splitLines out) : Multiset Line) = ↑(splitLines fruitInput) :=
  ⟨⟨by decide, by decide, ⟨by decide, by decide, by decide, by decide, by decide⟩, by unfold CleanInput; decide⟩,
    SortPar_permutation demoEnv [1, 0, 0] (fsWith 0 fruitInput) 0 1 2 2 fruitInput
      (by decide) (by decide) (by decide) ⟨by decide, by decide, by decide, by decide, by decide⟩
      (by unfold CleanInput; decide)⟩

theorem sortParBytes_scan (N : Nat) (d e : List Byte) (h : scanAll d = scanAll e) :
    sortParBytes N d = sortParBytes N e := by
  unfold sortParBytes
  rw [h]

theorem scanAll_longInput : scanAll longInput = [] := by
  apply scanAll_none
  unfold longInput
  apply Scan_too_long_line
  · intro h
    have := List.eq_of_mem_replicate h
    exact absurd this (by decide)
  · simp

/-- C1 as stated fails. The input `a\r\n` gives the output `a\n`: the line
`a\r` has lost its carriage return. An input whose first line has 65536 bytes
gives an empty output: all its lines are lost, and `SortPar` returns `nil`.
With `nParSorts = 2^62`, where `make` can allocate `2^48` bytes, the call
panics and writes nothing. -/
theorem SortPar_permutation_counterexample :
    (Runs demoEnv (fsWith 0 [97, 13, 10]) 0 1 1 [97, 13, 10] ∧
      (SortPar demoEnv [] (fsWith 0 [97, 13, 10]) 0 1 1 1).fileAfter 1 = some [97, 10] ∧
      splitLines [97, 13, 10] = [[97, 13]] ∧ splitLines [97, 10] = [[97]] ∧
      (↑(splitLines [97, 10]) : Multiset Line) ≠ ↑(splitLines [97, 13, 10])) ∧
    (Runs demoEnv (fsWith 0 longInput) 0 1 1 longInput ∧
      (SortPar demoEnv [] (fsWith 0 longInput) 0 1 (1 : Nat) (1 : Nat)).fileAfter 1 = some [] ∧
      splitLines longInput = List.replicate MaxScanTokenSize 97 :: [[98]]) ∧
    (Runs demoEnv (fsWith 0 [97, 10]) 0 1 1 [97, 10] ∧
      (SortPar demoEnv [] (fsWith 0 [97, 10]) 0 1 1 4611686018427387904).verdict = .panic) := by
  have hrun : Runs demoEnv (fsWith 0 longInput) 0 1 1 longInput :=
    ⟨by simp [fsWith], by decide, by decide, by decide, by decide⟩
  refine ⟨⟨⟨by decide, by decide, by decide, by decide, by decide⟩, by decide, by decide,
      by decide, ?_⟩,
    ⟨hrun, ?_, ?_⟩, ⟨by decide, by decide, by decide, by decide, by decide⟩, by decide⟩
  · rw [Ne, Multiset.coe_eq_coe]; decide
  · obtain ⟨outLines, fs3, names, h1, _⟩ :=
      SortPar_spec demoEnv [] (fsWith 0 longInput) 0 1 1 1 longInput (by decide) (by decide)
        (by decide) hrun
    rw [h1]
    simp only [Outcome.fileAfter, FS.write_same]
    rw [sortParBytes_scan 1 longInput [] (by rw [scanAll_longInput, scanAll_nil])]
    decide
  · unfold longInput
    rw [splitLines_line _ _ (by
      intro h
      have := List.eq_of_mem_replicate h
      exact absurd this (by decide))]
    rfl

/-- Order, away from the defect. For every input no line of which ends in
three consecutive `\r`, every `nTempFiles ≥ 1` and `nParSorts ≥ 1` that `make`
can allocate, and every schedule, a call that goes through returns `nil` and
the lines of the output
are in non-decreasing byte-wise lexicographic order: `a ≤ b` for every two
adjacent lines, and for every earlier and later line. -/
theorem SortPar_sorted_of_noTripleCR (env : Env) (sched : List Nat) (fs : FS)
    (input output : Path) (N K : Nat) (data : List Byte) (hN : 1 ≤ N) (hK : 1 ≤ K)
    (hKa : 16 * K + hchanSize ≤ env.maxAlloc)
    (hrun : Runs env fs input output N data) (hcr : NoTripleCR data) :
    ∃ fs' out, SortPar env sched fs input output N K = .returned none fs' ∧
      fs' output = some out ∧
      (splitLines out).Chain' (fun a b => a ≤ b) ∧
      (splitLines out).Sorted (fun a b => a ≤ b) := by
  obtain ⟨outLines, fs3, names, h1, h2, _, _, _, _, _, h7, h8⟩ :=
    SortPar_spec env sched fs input output N K data hN hK hKa hrun
  have hs := h7 (scanAll_stable hcr)
  refine ⟨_, sortParBytes N data, h1, FS.write_same _ _ _, ?_, ?_⟩
  · rw [h2, splitLines_writeLines outLines h8]
    exact List.Pairwise.chain' hs
  · rw [h2, splitLines_writeLines outLines h8]
    exact hs

/-- C2 (the code does not do this for every input). The lines banana, apple,
cherry, apple with `nTempFiles = 2`, `nParSorts = 2` give apple, apple,
banana, cherry, as the claim says. But the input lines `a\t` and `a\r\r\r`
with one shard give the output lines `a\t`, `a`, and `a\t ≤ a` does not
hold: the partition scan makes the second line `a\r\r`, the scan in `sortOne`
makes it `a\r`, which is sorted after `a\t`, and the scan in `merge` reads
it back as `a`. -/
theorem SortPar_order_broken_by_rescan :
    (SortPar demoEnv [] (fsWith 0 fruitInput) 0 1 2 2).fileAfter 1 = some fruitSorted ∧
    Runs demoEnv (fsWith 0 [97, 9, 10, 97, 13, 13, 13, 10]) 0 1 1
      [97, 9, 10, 97, 13, 13, 13, 10] ∧
    (SortPar demoEnv [] (fsWith 0 [97, 9, 10, 97, 13, 13, 13, 10]) 0 1 1 1).fileAfter 1 =
      some [97, 9, 10, 97, 10] ∧
    splitLines [97, 9, 10, 97, 10] = [[97, 9], [97]] ∧
    ¬ (([97, 9] : Line) ≤ [97]) ∧
    ¬ (splitLines [97, 9, 10, 97, 10]).Chain' (fun a b => a ≤ b) := by
  refine ⟨by decide, ⟨by decide, by decide, by decide, by decide, by decide⟩, by decide, by decide,
    by decide, ?_⟩
  rw [show splitLines [97, 9, 10, 97, 10] = [[97, 9], [97]] from by decide, List.chain'_pair]
  decide

/-- Parameter independence, away from the defect. For every input no line of
which ends in three consecutive `\r`, the output is a function of the input
alone: two calls that go through, on inputs with the same content, with any
`nTempFiles ≥ 1` and `nParSorts ≥ 1` that `make` can allocate, any schedules of
the sort goroutines and any environments, both return `nil` and write
`sortedOutput data`. -/
theorem SortPar_output_of_noTripleCR (env1 env2 : Env) (sched1 sched2 : List Nat)
    (fs1 fs2 : FS) (input1 input2 output1 output2 : Path) (N1 N2 K1 K2 : Nat)
    (data : List Byte) (hN1 : 1 ≤ N1) (hN2 : 1 ≤ N2) (hK1 : 1 ≤ K1) (hK2 : 1 ≤ K2)
    (hKa1 : 16 * K1 + hchanSize ≤ env1.maxAlloc) (hKa2 : 16 * K2 + hchanSize ≤ env2.maxAlloc)
    (hrun1 : Runs env1 fs1 input1 output1 N1 data)
    (hrun2 : Runs env2 fs2 input2 output2 N2 data) (hcr : NoTripleCR data) :
    ∃ fsa fsb, SortPar env1 sched1 fs1 input1 output1 N1 K1 = .returned none fsa ∧
      SortPar env2 sched2 fs2 input2 output2 N2 K2 = .returned none fsb ∧
      fsa output1 = some (sortedOutput data) ∧ fsb output2 = some (sortedOutput data) := by
  obtain ⟨o1, f1, _, a1, a2, _, _, _, _, a6, a7, _⟩ :=
    SortPar_spec env1 sched1 fs1 input1 output1 N1 K1 data hN1 hK1 hKa1 hrun1
  obtain ⟨o2, f2, _, b1, b2, _, _, _, _, b6, b7, _⟩ :=
    SortPar_spec env2 sched2 fs2 input2 output2 N2 K2 data hN2 hK2 hKa2 hrun2
  have e1 := eq_sortStrings a6 (a7 (scanAll_stable hcr))
  have e2 := eq_sortStrings b6 (b7 (scanAll_stable hcr))
  refine ⟨_, _, a1, b1, ?_, ?_⟩
  · rw [FS.write_same, a2, e1]; rfl
  · rw [FS.write_same, b2, e2]; rfl

/-- C3 (the code does not do this for every input). On the input lines
`a\t` and `a\r\r\r`, `nTempFiles = 1` gives the output lines `a\t`, `a`
and `nTempFiles = 2` gives `a`, `a\t`: with one shard `sortOne` orders
`a\t` before `a\r`, which `merge` then reads back as `a`; with two shards
the lines meet only in the heap of `merge`, as `a\t` and `a`. -/
theorem SortPar_output_depends_on_shards :
    Runs demoEnv (fsWith 0 [97, 9, 10, 97, 13, 13, 13, 10]) 0 1 1
      [97, 9, 10, 97, 13, 13, 13, 10] ∧
    Runs demoEnv (fsWith 0 [97, 9, 10, 97, 13, 13, 13, 10]) 0 1 2
      [97, 9, 10, 97, 13, 13, 13, 10] ∧
    (SortPar demoEnv [] (fsWith 0 [97, 9, 10, 97, 13, 13, 13, 10]) 0 1 1 1).fileAfter 1 =
      some [97, 9, 10, 97, 10] ∧
    (SortPar demoEnv [] (fsWith 0 [97, 9, 10, 97, 13, 13, 13, 10]) 0 1 2 1).fileAfter 1 =
      some [97, 10, 97, 9, 10] := by
  refine ⟨⟨by decide, by decide, by decide, by decide, by decide⟩,
    ⟨by decide, by decide, by decide, by decide, by decide⟩, by decide, by decide⟩

/-- C4 (amended). For every input that is empty or ends with `\n`, whose lines
are each shorter than `MaxScanTokenSize` (65536) bytes, do not end in `\r` and
are already in non-decreasing order, every `nTempFiles ≥ 1` and every
`nParSorts ≥ 1` that `make` can allocate, and every schedule, a call that goes
through returns `nil` and the output file is byte-for-byte the input file. -/
theorem SortPar_idempotent (env : Env) (sched : List Nat) (fs : FS) (input output : Path)
    (N K : Nat) (data : List Byte) (hN : 1 ≤ N) (hK : 1 ≤ K)
    (hKa : 16 * K + hchanSize ≤ env.maxAlloc)
    (hrun : Runs env fs input output N data) (hclean : CleanInput data)
    (hnl : NewlineTerminated data)
    (hsorted : (splitLines data).Sorted (fun a b => a ≤ b)) :
    ∃ fs', SortPar env sched fs input output N K = .returned none fs' ∧
      fs' output = some data := by
  obtain ⟨outLines, fs3, names, h1, h2, _, _, _, _, h6, h7, _⟩ :=
    SortPar_spec env sched fs input output N K data hN hK hKa hrun
  rw [scanAll_twice_clean hclean] at h6
  have e1 := eq_sortStrings (List.Perm.refl (splitLines data)) hsorted
  have e2 : outLines = splitLines data := by
    rw [eq_sortStrings h6 (h7 (scanAll_stable (clean_noTripleCR hclean))), ← e1]
  refine ⟨_, h1, ?_⟩
  rw [FS.write_same, h2, e2, writeLines_splitLines data.length data (le_refl _) hnl]

/-- C4, witness: the sorted lines apple, apple, banana, cherry. -/
theorem SortPar_idempotent_witness :
    (1 ≤ 3 ∧ 1 ≤ 2 ∧ 16 * 2 + hchanSize ≤ demoEnv.maxAlloc ∧
      Runs demoEnv (fsWith 0 fruitSorted) 0 1 3 fruitSorted ∧ CleanInput fruitSorted ∧
      NewlineTerminated fruitSorted ∧ (splitLines fruitSorted).Sorted (fun a b => a ≤ b)) ∧
    ∃ fs', SortPar demoEnv [2, 2] (fsWith 0 fruitSorted) 0 1 (3 : Nat) (2 : Nat) =
        .returned none fs' ∧ fs' 1 = some fruitSorted :=
  ⟨⟨by decide, by decide, by decide, ⟨by decide, by decide, by decide, by decide, by decide⟩, by unfold CleanInput; decide,
      by unfold NewlineTerminated; decide, by unfold List.Sorted; decide⟩,
    SortPar_idempotent demoEnv [2, 2] (fsWith 0 fruitSorted) 0 1 3 2 fruitSorted (by decide)
      (by decide) (by decide) ⟨by decide, by decide, by decide, by decide, by decide⟩ (by unfold CleanInput; decide)
      (by unfold NewlineTerminated; decide) (by unfold List.Sorted; decide)⟩

/-- C4 as stated fails. The input `a` without a trailing newline is sorted,
and the output is `a\n`, one byte longer. With `nTempFiles = 2^62`, where
`make` can allocate `2^48` bytes, the call panics on the sorted input `a\n`
and writes no output; with `nParSorts = 0` it never returns. -/
theorem SortPar_idempotent_counterexample :
    (Runs demoEnv (fsWith 0 [97]) 0 1 1 [97] ∧
      (splitLines [97]).Sorted (fun a b => a ≤ b) ∧
      (SortPar demoEnv [] (fsWith 0 [97]) 0 1 1 1).fileAfter 1 = some [97, 10] ∧
      ([97, 10] : List Byte) ≠ [97]) ∧
    ((splitLines [97, 10]).Sorted (fun a b => a ≤ b) ∧
      (SortPar demoEnv [] (fsWith 0 [97, 10]) 0 1 4611686018427387904 1).verdict = .panic ∧
      (SortPar demoEnv [] (fsWith 0 [97, 10]) 0 1 1 0).verdict = .deadlock) := by
  refine ⟨⟨⟨by decide, by decide, by decide, by decide, by decide⟩, ?_, by decide, by decide⟩,
    ?_, by decide, by decide⟩
  · unfold List.Sorted
    decide
  · unfold List.Sorted
    decide

end Claims

/-! ## Every call that returns `nil` -/

section Returned

theorem mergeOpen_ok_exists (fs : FS) : ∀ (ps : List Path) (i : Nat) (st st' : MergeState),
    mergeOpen fs ps i st = .ok st' → ∀ p ∈ ps, (fs p).isSome := by
  intro ps
  induction ps with
  | nil => intro i st st' _ p hp; cases hp
  | cons q ps ih =>
    intro i st st' ho p hp
    rw [mergeOpen] at ho
    cases hd : fs q with
    | none => simp [hd] at ho
    | some data =>
      simp only [hd] at ho
      have hrest : ∀ p ∈ ps, (fs p).isSome := by
        cases hs : Scan data with
        | none =>
          simp only [hs] at ho
          exact ih (i + 1) { st with tempScanners := st.tempScanners ++ [data] } st' ho
        | some tr =>
          obtain ⟨tok, rest⟩ := tr
          simp only [hs] at ho
          exact ih (i + 1) _ st' ho
      rcases List.mem_cons.mp hp with h | h
      · rw [h, hd]; rfl
      · exact hrest p h

/-- When `merge` returns `nil` every shard could be opened and the output
created. -/
theorem merge_nil (env : Env) (fs : FS) (filenames : List Path) (out : Path)
    (h : (merge env fs filenames out).1 = none) :
    (∀ p ∈ filenames, (fs p).isSome) ∧ env.canCreate out = true := by
  unfold merge at h
  cases ho : mergeOpen fs filenames 0 ⟨[], [], []⟩ with
  | error e => simp [ho] at h
  | ok st0 =>
    refine ⟨mergeOpen_ok_exists fs filenames 0 _ st0 ho, ?_⟩
    cases hc : env.canCreate out with
    | true => rfl
    | false => simp [ho, hc] at h

/-- A call of `SortPar` that returns `nil` has run `merge` to a `nil`
return, and leaves the file system `merge` leaves. -/
theorem SortPar_returned_nil (env : Env) (sched : List Nat) (fs fs' : FS)
    (input output : Path) (nTempFiles nParSorts : Int)
    (h : SortPar env sched fs input output nTempFiles nParSorts = .returned none fs') :
    ∃ fsm names, (merge env fsm names output).1 = none ∧
      (merge env fsm names output).2 = fs' := by
  unfold SortPar at h
  cases hmk : env.makeSlice 16 nTempFiles with
  | false => simp [hmk] at h
  | true =>
    simp only [hmk, Bool.not_true, Bool.false_eq_true, if_false] at h
    cases hct : createTemps nTempFiles.toNat env.tempNames fs [] with
    | mk r fs1 =>
    cases r with
    | none => simp [hct] at h
    | some names =>
      simp only [hct] at h
      cases hin : fs1 input with
      | none => simp [hin] at h
      | some data =>
        simp only [hin] at h
        by_cases hz : nTempFiles.toNat = 0 ∧ scanAll data ≠ []
        · rw [if_pos hz] at h
          cases h
        · rw [if_neg hz] at h
          cases hmc : env.makeChan 16 nParSorts with
          | false => simp [hmc] at h
          | true =>
            simp only [hmc, Bool.not_true, Bool.false_eq_true, if_false] at h
            split at h
            · simp only [Outcome.returned.injEq] at h
              exact ⟨_, _, h.1, h.2⟩
            · cases h

/-- The output of every call of `SortPar` that returns `nil`, whatever the
parameters: each line `merge` read from the shards, once, followed by one
`\n`. -/
theorem SortPar_output_lines (env : Env) (sched : List Nat) (fs fs' : FS)
    (input output : Path) (nTempFiles nParSorts : Int)
    (h : SortPar env sched fs input output nTempFiles nParSorts = .returned none fs') :
    ∃ (fsm : FS) (names : List Path) (outLines : List Line),
      fs' = fsm.write output (writeLines outLines) ∧
      outLines.Perm ((names.map (fun p => scanAll ((fsm p).getD []))).flatten) ∧
      splitLines (writeLines outLines) = outLines := by
  obtain ⟨fsm, names, h1, h2⟩ :=
    SortPar_returned_nil env sched fs fs' input output nTempFiles nParSorts h
  obtain ⟨hex, hc⟩ := merge_nil env fsm names output h1
  obtain ⟨outLines, m1, m2, _⟩ := merge_spec env fsm names output hex hc
  refine ⟨fsm, names, outLines, ?_, m2, ?_⟩
  · rw [← h2, m1]
  · apply splitLines_writeLines
    intro l hl
    obtain ⟨ls, hls, hl'⟩ := List.mem_flatten.mp (m2.mem_iff.mp hl)
    obtain ⟨p, _, rfl⟩ := List.mem_map.mp hls
    exact (scanAll_token _ _ (le_refl _) l hl').1

end Returned

section Claims2

theorem flatten_skip_empty (fs : FS) : ∀ (ps : List Path),
    (ps.map (fun p => scanAll ((fs p).getD []))).flatten =
      ((ps.filter (fun p => decide (fs p ≠ some []))).map
        (fun p => scanAll ((fs p).getD []))).flatten := by
  intro ps
  induction ps with
  | nil => rfl
  | cons p t ih =>
    by_cases hp : fs p = some []
    · simp [List.filter_cons, hp, scanAll_nil, ih]
    · simp [List.filter_cons, hp, ih]

theorem scanAll_length_le (d : List Byte) : (scanAll d).length ≤ (splitLines d).length := by
  rw [scanAll_eq_splitLines d.length d (le_refl _), List.length_map]
  exact (List.takeWhile_sublist _).length_le

/-- C5 (amended). For every `nTempFiles ≥ 1` and every `nParSorts ≥ 1` that
`make` can allocate, a call on an empty input that goes through returns `nil`
and writes an empty output. When the input has fewer lines than
`nTempFiles`, every shard from the number of lines on is given nothing by the
partition loop and is still empty after `sortOne`; `merge` pushes no heap
entry when it opens an empty shard, its output lines are the lines of the
non-empty shards, and the call returns `nil` with every token of the input in
the output. -/
theorem SortPar_empty_and_short (env : Env) (sched : List Nat) (fs : FS)
    (input output : Path) (N K : Nat) (data : List Byte) (hN : 1 ≤ N) (hK : 1 ≤ K)
    (hKa : 16 * K + hchanSize ≤ env.maxAlloc)
    (hrun : Runs env fs input output N data) :
    (data = [] → ∃ fs', SortPar env sched fs input output N K = .returned none fs' ∧
      fs' output = some []) ∧
    ((splitLines data).length < N →
      (∀ j, (splitLines data).length ≤ j → j < N →
        (partitionLoop N (scanAll data) 0 (List.replicate N []))[j]? = some []) ∧
      ∃ fs' outLines, SortPar env sched fs input output N K = .returned none fs' ∧
        fs' output = some (writeLines outLines) ∧
        outLines.Perm ((scanAll data).map (fun l => dropCR (dropCR l)))) ∧
    sortOneContent [] = [] ∧
    (∀ (fs' : FS) (p : Path) (ps : List Path) (i : Nat) (st : MergeState), fs' p = some [] →
      mergeOpen fs' (p :: ps) i st =
        mergeOpen fs' ps (i + 1) { st with tempScanners := st.tempScanners ++ [[]] }) ∧
    (∀ (fs' : FS) (filenames : List Path) (out : Path),
      (∀ p ∈ filenames, (fs' p).isSome) → env.canCreate out = true →
      ∃ outLines, merge env fs' filenames out = (none, fs'.write out (writeLines outLines)) ∧
        outLines.Perm (((filenames.filter (fun p => decide (fs' p ≠ some []))).map
          (fun p => scanAll ((fs' p).getD []))).flatten)) := by
  obtain ⟨outLines, fs3, names, h1, h2, _, _, _, _, h6, _, _⟩ :=
    SortPar_spec env sched fs input output N K data hN hK hKa hrun
  refine ⟨?_, ?_, by decide, ?_, ?_⟩
  · intro hd
    subst hd
    rw [scanAll_nil] at h6
    have : outLines = [] := List.Perm.eq_nil (by simpa using h6)
    refine ⟨_, h1, ?_⟩
    rw [FS.write_same, h2, this]
    rfl
  · intro _
    constructor
    · intro j hj hjN
      have hlen := scanAll_length_le data
      rw [partitionLoop_untouched N (scanAll data) 0 _ j (by omega) hjN]
      simp [List.getElem?_replicate, hjN]
    · exact ⟨_, outLines, h1, by rw [FS.write_same, h2], h6⟩
  · intro fs' p ps i st hp
    rw [mergeOpen]
    simp only [hp, Scan_nil]
  · intro fs' filenames out hex hc
    obtain ⟨ol, m1, m2, _⟩ := merge_spec env fs' filenames out hex hc
    exact ⟨ol, m1, by rw [← flatten_skip_empty]; exact m2⟩

/-- C5, witness: the empty input with three shards. -/
theorem SortPar_empty_and_short_witness :
    (1 ≤ 3 ∧ 1 ≤ 2 ∧ 16 * 2 + hchanSize ≤ demoEnv.maxAlloc ∧
      Runs demoEnv (fsWith 0 []) 0 1 3 []) ∧
    ∃ fs', SortPar demoEnv [1, 1] (fsWith 0 []) 0 1 (3 : Nat) (2 : Nat) = .returned none fs' ∧
      fs' 1 = some [] :=
  ⟨⟨by decide, by decide, by decide, ⟨by decide, by decide, by decide, by decide, by decide⟩⟩,
    (SortPar_empty_and_short demoEnv [1, 1] (fsWith 0 []) 0 1 3 2 [] (by decide) (by decide)
      (by decide) ⟨by decide, by decide, by decide, by decide, by decide⟩).1 rfl⟩

/-- C5 as stated fails. The claim does not restrict `nParSorts`: on the empty
input with `nTempFiles = 1`, `nParSorts = 0` gives a call that never returns
(the one `sortOne` blocks on the semaphore and `wg.Wait()` waits for ever),
and `nParSorts = -1` and `nParSorts = 2^62` (where `make` can allocate `2^48`
bytes) give a panic; no output is written. -/
theorem SortPar_empty_and_short_counterexample :
    Runs demoEnv (fsWith 0 []) 0 1 1 [] ∧
    (SortPar demoEnv [] (fsWith 0 []) 0 1 1 0).verdict = .deadlock ∧
    (SortPar demoEnv [0, 0] (fsWith 0 []) 0 1 1 0).verdict = .deadlock ∧
    (SortPar demoEnv [] (fsWith 0 []) 0 1 1 (-1)).verdict = .panic ∧
    (SortPar demoEnv [] (fsWith 0 []) 0 1 1 4611686018427387904).verdict = .panic := by
  refine ⟨⟨by decide, by decide, by decide, by decide, by decide⟩, by decide, by decide, by decide, by decide⟩

/-- C6. For every input, every `nTempFiles ≥ 1` and every `nParSorts ≥ 1`
that `make` can allocate, and every schedule, a call that goes through returns
`nil` and its output is exactly each of its lines followed by one `\n`, these
lines being the lines read from the input (each once, as the two further scans
leave it), so a non-empty output ends with `\n`; and when the input is not
empty and does not end with `\n`, a call on the same input with `\n` added,
with the same `nTempFiles`, writes the same output. Whatever the parameters,
the output of a call that returns `nil` is each line `merge` read from the
scratch files, once, followed by one `\n`. -/
theorem SortPar_output_format (env : Env) (sched : List Nat) (fs : FS)
    (input output : Path) (N K : Nat) (data : List Byte) (hN : 1 ≤ N) (hK : 1 ≤ K)
    (hKa : 16 * K + hchanSize ≤ env.maxAlloc)
    (hrun : Runs env fs input output N data) :
    ∃ fs' out, SortPar env sched fs input output N K = .returned none fs' ∧
      fs' output = some out ∧
      out = writeLines (splitLines out) ∧
      (splitLines out).Perm ((scanAll data).map (fun l => dropCR (dropCR l))) ∧
      (out ≠ [] → out.getLast? = some 10) ∧
      (data ≠ [] → data.getLast? ≠ some 10 →
        ∀ (env2 : Env) (sched2 : List Nat) (fs2 : FS) (input2 output2 : Path) (K2 : Nat),
          1 ≤ K2 → 16 * K2 + hchanSize ≤ env2.maxAlloc →
          Runs env2 fs2 input2 output2 N (data ++ [10]) →
          ∃ fs2', SortPar env2 sched2 fs2 input2 output2 N K2 = .returned none fs2' ∧
            fs2' output2 = some out) ∧
      (∀ (env2 : Env) (sched2 : List Nat) (fs2 fs2' : FS) (input2 output2 : Path)
          (nTempFiles nParSorts : Int),
          SortPar env2 sched2 fs2 input2 output2 nTempFiles nParSorts = .returned none fs2' →
          ∃ (fsm : FS) (names : List Path) (outLines : List Line),
            fs2' = fsm.write output2 (writeLines outLines) ∧
            outLines.Perm ((names.map (fun p => scanAll ((fsm p).getD []))).flatten) ∧
            splitLines (writeLines outLines) = outLines) := by
  obtain ⟨outLines, fs3, names, h1, h2, _, _, _, _, h6, _, h8⟩ :=
    SortPar_spec env sched fs input output N K data hN hK hKa hrun
  refine ⟨_, sortParBytes N data, h1, FS.write_same _ _ _, ?_, ?_, ?_, ?_,
    fun env2 sched2 fs2 fs2' input2 output2 n k h =>
      SortPar_output_lines env2 sched2 fs2 fs2' input2 output2 n k h⟩
  · rw [h2, splitLines_writeLines outLines h8]
  · rw [h2, splitLines_writeLines outLines h8]
    exact h6
  · intro hne
    rw [h2] at hne ⊢
    exact getLast?_writeLines outLines hne
  · intro hne hlast env2 sched2 fs2 input2 output2 K2 hK2 hKa2 hrun2
    obtain ⟨_, _, _, g1, _⟩ :=
      SortPar_spec env2 sched2 fs2 input2 output2 N K2 (data ++ [10]) hN hK2 hKa2 hrun2
    refine ⟨_, g1, ?_⟩
    rw [FS.write_same, sortParBytes_scan N (data ++ [10]) data (scanAll_add_newline data hne hlast)]

/-- C6, witness: the lines `b`, `a` with and without the last `\n`. -/
theorem SortPar_output_format_witness :
    (1 ≤ 2 ∧ 16 * 2 + hchanSize ≤ demoEnv.maxAlloc ∧
      Runs demoEnv (fsWith 0 [98, 10, 97]) 0 1 2 [98, 10, 97] ∧
      Runs demoEnv (fsWith 0 [98, 10, 97, 10]) 0 1 2 ([98, 10, 97] ++ [10])) ∧
    ∃ fs' out, SortPar demoEnv [] (fsWith 0 [98, 10, 97]) 0 1 (2 : Nat) (2 : Nat) =
        .returned none fs' ∧
      fs' 1 = some out ∧ out = writeLines (splitLines out) ∧
      (splitLines out).Perm
        ((scanAll [98, 10, 97]).map (fun l => dropCR (dropCR l))) ∧
      (out ≠ [] → out.getLast? = some 10) ∧
      ∃ fs2', SortPar demoEnv [1] (fsWith 0 [98, 10, 97, 10]) 0 1 (2 : Nat) (1 : Nat) =
          .returned none fs2' ∧ fs2' 1 = some out := by
  refine ⟨⟨by decide, by decide, ⟨by decide, by decide, by decide, by decide, by decide⟩,
    ⟨by decide, by decide, by decide, by decide, by decide⟩⟩, ?_⟩
  obtain ⟨fs', out, h1, h2, h3, h4, h5, h6, _⟩ :=
    SortPar_output_format demoEnv [] (fsWith 0 [98, 10, 97]) 0 1 2 2 [98, 10, 97]
      (by decide) (by decide) (by decide)
      ⟨by decide, by decide, by decide, by decide, by decide⟩
  exact ⟨fs', out, h1, h2, h3, h4, h5,
    h6 (by decide) (by decide) demoEnv [1] (fsWith 0 [98, 10, 97, 10]) 0 1 1 (by decide)
      (by decide) ⟨by decide, by decide, by decide, by decide, by decide⟩⟩

end Claims2

section Claims3

/-- C7 (the code does not do this). After a call that returned `nil` the
scratch files are still there: `SortPar` never removes them. On the lines `b`,
`a` with two shards, the paths 100 and 101 do not exist before the call and
hold the sorted shards `b\n` and `a\n` after it. -/
theorem SortPar_scratch_files_remain :
    fsWith 0 [98, 10, 97, 10] 100 = none ∧ fsWith 0 [98, 10, 97, 10] 101 = none ∧
    (SortPar demoEnv [] (fsWith 0 [98, 10, 97, 10]) 0 1 2 2).verdict = .nil ∧
    (SortPar demoEnv [] (fsWith 0 [98, 10, 97, 10]) 0 1 2 2).fileAfter 1 =
      some [97, 10, 98, 10] ∧
    (SortPar demoEnv [] (fsWith 0 [98, 10, 97, 10]) 0 1 2 2).fileAfter 100 = some [98, 10] ∧
    (SortPar demoEnv [] (fsWith 0 [98, 10, 97, 10]) 0 1 2 2).fileAfter 101 = some [97, 10] := by
  refine ⟨by decide, by decide, by decide, by decide, by decide, by decide⟩

/-- C8 (amended). For every `nTempFiles` for which `make([]string, nTempFiles)`
goes through (not negative, not too large to allocate): if one of the
`nTempFiles` scratch files cannot be created, or the input does not exist,
`SortPar` returns a non-nil error, the one it met, for every `nParSorts`, and
the output path holds what it held before the call (nothing, if it did not
exist). The output path is taken not to be one of the scratch-file names. -/
theorem SortPar_partition_failure (env : Env) (sched : List Nat) (fs : FS)
    (input output : Path) (nTempFiles nParSorts : Int)
    (hmk : env.makeSlice 16 nTempFiles = true) (hout : output ∉ env.tempNames)
    (hfail : (createTemps nTempFiles.toNat env.tempNames fs []).1 = none ∨
      (fs input = none ∧ input ∉ env.tempNames)) :
    ∃ e fs', SortPar env sched fs input output nTempFiles nParSorts = .returned (some e) fs' ∧
      fs' output = fs output ∧
      ((createTemps nTempFiles.toNat env.tempNames fs []).1 = none → e = .tempFileFailed) ∧
      ((createTemps nTempFiles.toNat env.tempNames fs []).1 ≠ none → e = .openFailed input) := by
  have hframe := createTemps_frame nTempFiles.toNat env.tempNames fs [] output (Or.inl hout)
  cases hct : createTemps nTempFiles.toNat env.tempNames fs [] with
  | mk r fs1 =>
  rw [hct] at hframe
  simp only at hframe
  cases r with
  | none =>
    refine ⟨.tempFileFailed, fs1, ?_, hframe, fun _ => rfl, fun h => absurd rfl h⟩
    unfold SortPar
    simp only [hmk, Bool.not_true, Bool.false_eq_true, if_false, hct]
  | some names =>
    rw [hct] at hfail
    rcases hfail with h | ⟨h1, h2⟩
    · cases h
    · have hin := createTemps_frame nTempFiles.toNat env.tempNames fs [] input (Or.inl h2)
      rw [hct] at hin
      simp only at hin
      rw [h1] at hin
      refine ⟨.openFailed input, fs1, ?_, hframe, ?_, fun _ => rfl⟩
      · unfold SortPar
        simp only [hmk, Bool.not_true, Bool.false_eq_true, if_false, hct, hin]
      · intro h
        cases h

/-- C8, witness: no scratch name is left for the second scratch file; and the
input 5 does not exist. -/
theorem SortPar_partition_failure_witness :
    ((Env.mk [100] (fun _ => true) 281474976710656).makeSlice 16 2 = true ∧
      (1 : Path) ∉ (Env.mk [100] (fun _ => true) 281474976710656).tempNames ∧
      (createTemps 2 (Env.mk [100] (fun _ => true) 281474976710656).tempNames
        (fsWith 0 [98, 10]) []).1 = none ∧
      demoEnv.makeSlice 16 2 = true ∧
      (1 : Path) ∉ demoEnv.tempNames ∧ fsWith 0 [98, 10] 5 = none ∧
      (5 : Path) ∉ demoEnv.tempNames) ∧
    (∃ e fs', SortPar (Env.mk [100] (fun _ => true) 281474976710656) [] (fsWith 0 [98, 10])
        0 1 2 1 = .returned (some e) fs' ∧ fs' 1 = fsWith 0 [98, 10] 1 ∧
      ((createTemps (2 : Int).toNat (Env.mk [100] (fun _ => true) 281474976710656).tempNames
        (fsWith 0 [98, 10]) []).1 = none → e = .tempFileFailed) ∧
      ((createTemps (2 : Int).toNat (Env.mk [100] (fun _ => true) 281474976710656).tempNames
        (fsWith 0 [98, 10]) []).1 ≠ none → e = .openFailed 0)) ∧
    (∃ e fs', SortPar demoEnv [] (fsWith 0 [98, 10]) 5 1 2 1 =
        .returned (some e) fs' ∧ fs' 1 = fsWith 0 [98, 10] 1 ∧
      ((createTemps (2 : Int).toNat demoEnv.tempNames (fsWith 0 [98, 10]) []).1 = none →
        e = .tempFileFailed) ∧
      ((createTemps (2 : Int).toNat demoEnv.tempNames (fsWith 0 [98, 10]) []).1 ≠ none →
        e = .openFailed 5)) :=
  ⟨⟨by decide, by decide, by decide, by decide, by decide, by decide, by decide⟩,
    SortPar_partition_failure (Env.mk [100] (fun _ => true) 281474976710656) []
      (fsWith 0 [98, 10]) 0 1 2 1 (by decide) (by decide) (Or.inl (by decide)),
    SortPar_partition_failure demoEnv [] (fsWith 0 [98, 10]) 5 1 2 1
      (by decide) (by decide) (Or.inr ⟨by decide, by decide⟩)⟩

/-- C8 as stated fails. The claim does not restrict `nTempFiles`: with an
input that does not exist, `nTempFiles = -1` and `nTempFiles = 2^62` (where
`make` can allocate `2^48` bytes) make `SortPar` panic in
`make([]string, nTempFiles)`, before it tries to open the input; no error is
returned. And when the output path is the name `ioutil.TempFile` picks for a
scratch file, the call that fails to open the input has created the output
file, empty. -/
theorem SortPar_partition_failure_counterexample :
    fsWith 0 [98, 10] 5 = none ∧
    (SortPar demoEnv [] (fsWith 0 [98, 10]) 5 1 (-1) 1).verdict = .panic ∧
    (SortPar demoEnv [] (fsWith 0 [98, 10]) 5 1 4611686018427387904 1).verdict = .panic ∧
    fsWith 0 [98, 10] 100 = none ∧
    (SortPar demoEnv [] (fsWith 0 [98, 10]) 5 100 1 1).verdict = .error (.openFailed 5) ∧
    (match SortPar demoEnv [] (fsWith 0 [98, 10]) 5 100 1 1 with
      | .returned _ fs' => fs' 100
      | _ => none) = some [] := by
  refine ⟨by decide, by decide, by decide, by decide, by decide, by decide⟩

/-- A call that gets past the partition: what is left is the sort phase and
the merge. -/
theorem SortPar_unfold (env : Env) (sched : List Nat) (fs : FS) (input output : Path)
    (N K : Nat) (data : List Byte) (hN : 1 ≤ N) (hKa : 16 * K + hchanSize ≤ env.maxAlloc)
    (hrun : Runs env fs input output N data)
    (names : List Path) (fs1 : FS) (hct : createTemps N env.tempNames fs [] = (some names, fs1)) :
    SortPar env sched fs input output N K =
      if (runPool K sched ⟨names.map (fun p => ⟨p, .waiting⟩),
          flushAll fs1 names (partitionLoop N (scanAll data) 0 (List.replicate N []))⟩).allFinished
      then .returned
        (merge env (runPool K sched ⟨names.map (fun p => ⟨p, .waiting⟩),
          flushAll fs1 names (partitionLoop N (scanAll data) 0 (List.replicate N []))⟩).fs
          names output).1
        (merge env (runPool K sched ⟨names.map (fun p => ⟨p, .waiting⟩),
          flushAll fs1 names (partitionLoop N (scanAll data) 0 (List.replicate N []))⟩).fs
          names output).2
      else .deadlocked := by
  have hin := createTemps_frame N env.tempNames fs [] input
    (Or.inr (by rw [hrun.input_exists]; rfl))
  rw [hct] at hin
  simp only at hin
  rw [hrun.input_exists] at hin
  have hN0 := makeSlice_ok env 16 N hrun.slices_made
  have hK0 := makeChan_ok env 16 K hKa
  have hNz : ¬ (N = 0 ∧ scanAll data ≠ []) := by omega
  unfold SortPar
  simp only [hN0, Bool.not_true, Bool.false_eq_true, if_false, Int.toNat_ofNat, hct, hin, hNz,
    hK0]

theorem names_of_runs (env : Env) (fs : FS) (input output : Path) (N : Nat)
    (data : List Byte) (hrun : Runs env fs input output N data) :
    ∃ names fs1, createTemps N env.tempNames fs [] = (some names, fs1) ∧ names.Nodup ∧
      names.length = N := by
  cases hct : createTemps N env.tempNames fs [] with
  | mk r fs1 =>
  have ht := hrun.temps_created
  rw [hct] at ht
  obtain ⟨names, rfl⟩ := Option.isSome_iff_exists.mp ht
  obtain ⟨new, g1, g2, g3, _, _⟩ := createTemps_spec N env.tempNames fs [] names fs1 hct
  simp only [List.nil_append] at g1
  subst g1
  exact ⟨names, fs1, rfl, g3, g2⟩

/-- With a semaphore of capacity at least one that `make` can allocate,
neither its capacity nor the schedule changes how the call ends. -/
theorem SortPar_sched_irrelevant (env : Env) (sched sched' : List Nat) (fs : FS)
    (input output : Path) (N K K' : Nat) (data : List Byte) (hN : 1 ≤ N) (hK : 1 ≤ K)
    (hK' : 1 ≤ K') (hKa : 16 * K + hchanSize ≤ env.maxAlloc)
    (hKa' : 16 * K' + hchanSize ≤ env.maxAlloc) (hrun : Runs env fs input output N data) :
    SortPar env sched fs input output N K = SortPar env sched' fs input output N K' := by
  obtain ⟨names, fs1, hct, hnd, _⟩ := names_of_runs env fs input output N data hrun
  rw [SortPar_unfold env sched fs input output N K data hN hKa hrun names fs1 hct,
    SortPar_unfold env sched' fs input output N K' data hN hKa' hrun names fs1 hct]
  obtain ⟨a1, a2, a3⟩ := runPool_spec K hK sched names hnd
    (flushAll fs1 names (partitionLoop N (scanAll data) 0 (List.replicate N [])))
  obtain ⟨b1, b2, b3⟩ := runPool_spec K' hK' sched' names hnd
    (flushAll fs1 names (partitionLoop N (scanAll data) 0 (List.replicate N [])))
  have hfs : (runPool K sched ⟨names.map (fun p => ⟨p, .waiting⟩),
      flushAll fs1 names (partitionLoop N (scanAll data) 0 (List.replicate N []))⟩).fs =
      (runPool K' sched' ⟨names.map (fun p => ⟨p, .waiting⟩),
      flushAll fs1 names (partitionLoop N (scanAll data) 0 (List.replicate N []))⟩).fs := by
    funext q
    by_cases hq : q ∈ names
    · rw [a2 q hq, b2 q hq]
    · rw [a3 q hq, b3 q hq]
  rw [a1, b1, hfs]

theorem enabled_zero (st : PoolState) (h : ∀ t ∈ st.tasks, t.phase = .waiting) (i : Nat) :
    st.enabled 0 i = false := by
  unfold PoolState.enabled
  simp only [List.get?_eq_getElem?]
  cases ht : st.tasks[i]? with
  | none => rfl
  | some t =>
    have := h t (List.mem_iff_getElem?.mpr ⟨i, ht⟩)
    simp [this]

/-- With a semaphore of capacity zero no goroutine ever gets past
`semaphore <- true`: the sort phase stays where it started. -/
theorem runPool_zero (sched : List Nat) (st : PoolState)
    (h : ∀ t ∈ st.tasks, t.phase = .waiting) : runPool 0 sched st = st := by
  have hstep : ∀ i, poolStep 0 st i = st := by
    intro i
    rcases poolStep_cases 0 st i with ⟨e, _⟩ | ⟨_, _, _, hk, _, _⟩ | ⟨_, _, _, he, _⟩
    · exact e
    · omega
    · rw [enabled_zero st h i] at he; cases he
  have hfold : ∀ s : List Nat, s.foldl (poolStep 0) st = st := by
    intro s
    induction s with
    | nil => rfl
    | cons i t ih => rw [List.foldl_cons, hstep i, ih]
  have hdrain : ∀ fuel, drain 0 fuel st = st := by
    intro fuel
    cases fuel with
    | zero => rfl
    | succ f =>
      rw [drain]
      have : (List.range st.tasks.length).find? (fun i => st.enabled 0 i) = none := by
        rw [List.find?_eq_none]
        intro i _
        simp [enabled_zero st h i]
      rw [this]
  rw [runPool, hfold, hdrain]

/-- C9 (amended). On a call that gets past the partition, with
`nTempFiles ≥ 1`, where `make` can allocate a channel of capacity zero: for
every `nParSorts > nTempFiles` that `make` can allocate the call ends exactly
as with `nParSorts = nTempFiles`, returning `nil` (the value acts as if
clamped); with `nParSorts = 0` the call never returns, because every `sortOne`
blocks on the semaphore for ever; with an `nParSorts` that is negative or too
large for `make` it panics. No value of `nParSorts` makes `SortPar` return an
error. -/
theorem SortPar_concurrency_limit (env : Env) (sched : List Nat) (fs : FS)
    (input output : Path) (N : Nat) (data : List Byte) (hN : 1 ≤ N)
    (h0 : hchanSize ≤ env.maxAlloc)
    (hrun : Runs env fs input output N data) :
    (∀ K : Nat, N < K → 16 * K + hchanSize ≤ env.maxAlloc →
      SortPar env sched fs input output N K = SortPar env sched fs input output N N ∧
      (SortPar env sched fs input output N K).verdict = .nil) ∧
    SortPar env sched fs input output N (0 : Nat) = .deadlocked ∧
    (∀ K : Int, env.makeChan 16 K = false →
      SortPar env sched fs input output N K = .panicked) ∧
    (∀ K : Int, K < 0 → env.makeChan 16 K = false) ∧
    (∀ K : Nat, env.maxAlloc < 16 * K + hchanSize → env.makeChan 16 K = false) := by
  obtain ⟨names, fs1, hct, hnd, hlen⟩ := names_of_runs env fs input output N data hrun
  refine ⟨?_, ?_, ?_, ?_, ?_⟩
  · intro K hK hKa
    refine ⟨SortPar_sched_irrelevant env sched sched fs input output N K N data hN
      (by omega) hN hKa (by omega) hrun, ?_⟩
    obtain ⟨_, _, _, h1, _⟩ :=
      SortPar_spec env sched fs input output N K data hN (by omega) hKa hrun
    rw [h1]
    rfl
  · rw [SortPar_unfold env sched fs input output N 0 data hN (by omega) hrun names fs1 hct]
    rw [runPool_zero]
    · have hne : names ≠ [] := by
        intro e
        rw [e] at hlen
        simp at hlen
        omega
      obtain ⟨p, t, rfl⟩ := List.exists_cons_of_ne_nil hne
      simp [PoolState.allFinished]
    · intro t ht
      simp only [List.mem_map] at ht
      obtain ⟨p, _, rfl⟩ := ht
      rfl
  · intro K hK
    have hin := createTemps_frame N env.tempNames fs [] input
      (Or.inr (by rw [hrun.input_exists]; rfl))
    rw [hct] at hin
    simp only at hin
    rw [hrun.input_exists] at hin
    have hN0 := makeSlice_ok env 16 N hrun.slices_made
    have hNz : ¬ (N = 0 ∧ scanAll data ≠ []) := by omega
    unfold SortPar
    simp only [hN0, Bool.not_true, Bool.false_eq_true, if_false, Int.toNat_ofNat, hct, hin,
      hNz, hK, Bool.not_false, if_true]
  · intro K hK
    cases h : env.makeChan 16 K with
    | false => rfl
    | true =>
      have := (makeChan_iff env 16 K).mp h
      omega
  · intro K hK
    cases h : env.makeChan 16 (K : Int) with
    | false => rfl
    | true =>
      have := (makeChan_iff env 16 (K : Int)).mp h
      simp only [Int.toNat_ofNat] at this
      omega

/-- C9, witness: two shards with a semaphore of 5, of 0 and of -1. -/
theorem SortPar_concurrency_limit_witness :
    (1 ≤ 2 ∧ hchanSize ≤ demoEnv.maxAlloc ∧
      Runs demoEnv (fsWith 0 fruitInput) 0 1 2 fruitInput ∧
      2 < 5 ∧ 16 * 5 + hchanSize ≤ demoEnv.maxAlloc ∧ demoEnv.makeChan 16 (-1) = false) ∧
    (SortPar demoEnv [1] (fsWith 0 fruitInput) 0 1 (2 : Nat) (5 : Nat) =
        SortPar demoEnv [1] (fsWith 0 fruitInput) 0 1 (2 : Nat) (2 : Nat) ∧
      (SortPar demoEnv [1] (fsWith 0 fruitInput) 0 1 (2 : Nat) (5 : Nat)).verdict = .nil) ∧
    SortPar demoEnv [1] (fsWith 0 fruitInput) 0 1 (2 : Nat) (0 : Nat) = .deadlocked ∧
    SortPar demoEnv [1] (fsWith 0 fruitInput) 0 1 (2 : Nat) (-1) = .panicked :=
  ⟨⟨by decide, by decide, ⟨by decide, by decide, by decide, by decide, by decide⟩,
      by decide, by decide, by decide⟩,
    (SortPar_concurrency_limit demoEnv [1] (fsWith 0 fruitInput) 0 1 2 fruitInput (by decide)
      (by decide) ⟨by decide, by decide, by decide, by decide, by decide⟩).1 5 (by decide)
      (by decide),
    (SortPar_concurrency_limit demoEnv [1] (fsWith 0 fruitInput) 0 1 2 fruitInput (by decide)
      (by decide) ⟨by decide, by decide, by decide, by decide, by decide⟩).2.1,
    (SortPar_concurrency_limit demoEnv [1] (fsWith 0 fruitInput) 0 1 2 fruitInput (by decide)
      (by decide) ⟨by decide, by decide, by decide, by decide, by decide⟩).2.2.1 (-1)
      (by decide)⟩

/-- C9 as stated fails. With two shards, `nParSorts = 0` makes the call block
for ever, and `nParSorts = -1` and `nParSorts = 2^62` (where `make` can
allocate `2^48` bytes) make it panic: it neither completes the sort nor
returns an error. -/
theorem SortPar_concurrency_limit_counterexample :
    Runs demoEnv (fsWith 0 fruitInput) 0 1 2 fruitInput ∧
    (SortPar demoEnv [] (fsWith 0 fruitInput) 0 1 2 0).verdict = .deadlock ∧
    (SortPar demoEnv [] (fsWith 0 fruitInput) 0 1 2 (-1)).verdict = .panic ∧
    (SortPar demoEnv [] (fsWith 0 fruitInput) 0 1 2 4611686018427387904).verdict = .panic := by
  refine ⟨⟨by decide, by decide, by decide, by decide, by decide⟩, by decide, by decide,
    by decide⟩

/-- C10. During the sort phase with `nParSorts = K ≥ 1`, after any sequence of
steps of the goroutines, and at every point of the run up to `wg.Wait()`, at
most `K` tasks are between `semaphore <- true` and `<-semaphore`, whatever
`nTempFiles` is; and a call that gets past the partition, with a `K` that
`make` can allocate, runs `merge` on the file system of a state in which every
task has finished. -/
theorem SortPar_concurrency_bound (env : Env) (sched : List Nat) (fs : FS)
    (input output : Path) (N K : Nat) (data : List Byte) (hN : 1 ≤ N) (hK : 1 ≤ K)
    (hKa : 16 * K + hchanSize ≤ env.maxAlloc)
    (hrun : Runs env fs input output N data) (names : List Path) (fs1 : FS)
    (hct : createTemps N env.tempNames fs [] = (some names, fs1)) (init : PoolState)
    (hinit : init = ⟨names.map (fun p => ⟨p, .waiting⟩),
      flushAll fs1 names (partitionLoop N (scanAll data) 0 (List.replicate N []))⟩) :
    (∀ s : List Nat, (s.foldl (poolStep K) init).inFlight ≤ K) ∧
    (∀ (s : List Nat) (fuel : Nat), (drain K fuel (s.foldl (poolStep K) init)).inFlight ≤ K) ∧
    (runPool K sched init).allFinished = true ∧
    SortPar env sched fs input output N K =
      .returned (merge env (runPool K sched init).fs names output).1
        (merge env (runPool K sched init).fs names output).2 := by
  obtain ⟨names', fs1', hct', hnd, _⟩ := names_of_runs env fs input output N data hrun
  rw [hct] at hct'
  simp only [Prod.mk.injEq, Option.some.injEq] at hct'
  obtain ⟨rfl, rfl⟩ := hct'
  have h0 : (List.map (fun t : Task => t.scratchfile) init.tasks = names ∧
      PoolInv init.fs init ∧ init.inFlight ≤ K) := by
    subst hinit
    refine ⟨?_, poolInv_init names _, by rw [inFlight_init]; omega⟩
    simp [List.map_map, Function.comp_def]
  have hfold : ∀ s : List Nat, (s.foldl (poolStep K) init).tasks.map (fun t => t.scratchfile)
      = names ∧ PoolInv init.fs (s.foldl (poolStep K) init) ∧
      (s.foldl (poolStep K) init).inFlight ≤ K :=
    fun s => (foldl_poolStep_good K init.fs names hnd s init h0).1
  obtain ⟨r1, _, _⟩ := runPool_spec K hK sched names hnd
    (flushAll fs1 names (partitionLoop N (scanAll data) 0 (List.replicate N [])))
  rw [← hinit] at r1
  refine ⟨fun s => (hfold s).2.2, ?_, r1, ?_⟩
  · intro s fuel
    exact (drain_good K init.fs names hnd fuel _ (hfold s)).2.2
  · rw [SortPar_unfold env sched fs input output N K data hN hKa hrun names fs1 hct, ← hinit,
      r1]
    simp

/-- C10, witness: two shards with a semaphore of one. -/
theorem SortPar_concurrency_bound_witness :
    (1 ≤ 2 ∧ 1 ≤ 1 ∧ 16 * 1 + hchanSize ≤ demoEnv.maxAlloc ∧
      Runs demoEnv (fsWith 0 fruitInput) 0 1 2 fruitInput ∧
      createTemps 2 demoEnv.tempNames (fsWith 0 fruitInput) [] =
        (some [100, 101], (createTemps 2 demoEnv.tempNames (fsWith 0 fruitInput) []).2)) ∧
    ((∀ s : List Nat, (s.foldl (poolStep 1)
        (PoolState.mk ([100, 101].map (fun p => ⟨p, .waiting⟩))
          (flushAll (createTemps 2 demoEnv.tempNames (fsWith 0 fruitInput) []).2 [100, 101]
            (partitionLoop 2 (scanAll fruitInput) 0 (List.replicate 2 []))))).inFlight ≤ 1) ∧
      (runPool 1 [0, 1]
        (PoolState.mk ([100, 101].map (fun p => ⟨p, .waiting⟩))
          (flushAll (createTemps 2 demoEnv.tempNames (fsWith 0 fruitInput) []).2 [100, 101]
            (partitionLoop 2 (scanAll fruitInput) 0 (List.replicate 2 []))))).allFinished
        = true) := by
  have hct : createTemps 2 demoEnv.tempNames (fsWith 0 fruitInput) [] =
      (some [100, 101], (createTemps 2 demoEnv.tempNames (fsWith 0 fruitInput) []).2) :=
    Prod.ext (by decide) rfl
  have hrun : Runs demoEnv (fsWith 0 fruitInput) 0 1 2 fruitInput :=
    ⟨by decide, by decide, by decide, by decide, by decide⟩
  obtain ⟨h1, _, h3, _⟩ :=
    SortPar_concurrency_bound demoEnv [0, 1] (fsWith 0 fruitInput) 0 1 2 1 fruitInput
      (by decide) (by decide) (by decide) hrun [100, 101]
      (createTemps 2 demoEnv.tempNames (fsWith 0 fruitInput) []).2 hct _ rfl
  exact ⟨⟨by decide, by decide, by decide, hrun, hct⟩, h1, h3⟩

end Claims3

/-! ## The round-robin partition -/

section RoundRobin

theorem Scan_longInput : Scan longInput = none := by
  unfold longInput
  apply Scan_too_long_line
  · intro h
    have := List.eq_of_mem_replicate h
    exact absurd this (by decide)
  · simp

theorem splitLines_longInput :
    splitLines longInput = [List.replicate MaxScanTokenSize 97, [98]] := by
  unfold longInput
  rw [splitLines_line _ _ (by
    intro h
    have := List.eq_of_mem_replicate h
    exact absurd this (by decide))]
  rfl

theorem partitionLoop_getD (N : Nat) : ∀ (ls : List Line) (i : Nat) (ws : List (List Byte))
    (j : Nat), j < ws.length →
    (partitionLoop N ls i ws).getD j [] =
      ws.getD j [] ++
        writeLines (((ls.enumFrom i).filter (fun p => decide (p.1 % N = j))).map Prod.snd) := by
  intro ls
  induction ls with
  | nil => intro i ws j _; simp [partitionLoop, writeLines]
  | cons l t ih =>
    intro i ws j hj
    rw [partitionLoop, ih (i + 1) _ j (by rw [List.length_modify]; exact hj)]
    rw [List.enumFrom_cons, List.filter_cons]
    simp only [List.getD_eq_getElem?_getD, List.getElem?_modify, List.getElem?_eq_getElem hj,
      Option.map_eq_map, Option.map_some', Option.getD_some]
    by_cases h : i % N = j
    · simp [h, writeLines, List.append_assoc]
    · simp [h]

theorem roundRobin_append (N j : Nat) (ls : List Line) (x : Line) :
    roundRobin N j (ls ++ [x]) =
      roundRobin N j ls ++ (if ls.length % N = j then [x] else []) := by
  unfold roundRobin
  rw [List.enum_append, List.filter_append, List.map_append]
  congr 1
  by_cases h : ls.length % N = j <;> simp [List.enumFrom, h]

theorem dvd_shift_iff (N j L : Nat) (hj : j < N) :
    N ∣ L + (N - 1 - j) + 1 ↔ L % N = j := by
  have hL := Nat.div_add_mod L N
  have hr : L % N < N := Nat.mod_lt _ (by omega)
  have e : L + (N - 1 - j) + 1 = (L % N + (N - j)) + N * (L / N) := by omega
  rw [e, Nat.dvd_iff_mod_eq_zero, Nat.add_mul_mod_self_left]
  constructor
  · intro h
    by_cases hlt : L % N + (N - j) < N
    · rw [Nat.mod_eq_of_lt hlt] at h; omega
    · rw [Nat.mod_eq_sub_mod (by omega), Nat.mod_eq_of_lt (by omega)] at h
      omega
  · intro h
    have : L % N + (N - j) = N := by omega
    rw [this, Nat.mod_self]

/-- Shard `j` of `N` gets `⌈(L - j) / N⌉` of `L` lines. -/
theorem length_roundRobin (N j : Nat) (hj : j < N) (ls : List Line) :
    (roundRobin N j ls).length = (ls.length + (N - 1 - j)) / N := by
  induction ls using List.reverseRecOn with
  | nil =>
    simp only [roundRobin, List.enum_nil, List.filter_nil, List.map_nil, List.length_nil,
      Nat.zero_add]
    rw [Nat.div_eq_of_lt (by omega)]
  | append_singleton ls x ih =>
    rw [roundRobin_append, List.length_append, ih, List.length_append, List.length_singleton]
    have e : ls.length + 1 + (N - 1 - j) = ls.length + (N - 1 - j) + 1 := by omega
    rw [e, Nat.succ_div]
    by_cases h : ls.length % N = j
    · rw [if_pos h, if_pos ((dvd_shift_iff N j ls.length hj).mpr h)]; rfl
    · rw [if_neg h, if_neg (fun hd => h ((dvd_shift_iff N j ls.length hj).mp hd))]; rfl

/-- Two shards of a round-robin partition differ by at most one line. -/
theorem roundRobin_balanced (N j k : Nat) (hj : j < N) (hk : k < N) (ls : List Line) :
    (roundRobin N j ls).length ≤ (roundRobin N k ls).length + 1 := by
  rw [length_roundRobin N j hj, length_roundRobin N k hk]
  have h1 : (ls.length + (N - 1 - j)) / N ≤ (ls.length + (N - 1 - k) + N) / N :=
    Nat.div_le_div_right (by omega)
  rw [Nat.add_div_right _ (by omega)] at h1
  exact h1

theorem partitionLoopChecked_eq (N : Nat) (hN : 1 ≤ N) : ∀ (ls : List Line) (i : Nat)
    (ws : List (List Byte)), ws.length = N →
    partitionLoopChecked N ls i ws = some (partitionLoop N ls i ws) := by
  intro ls
  induction ls with
  | nil => intro i ws _; rfl
  | cons l t ih =>
    intro i ws hws
    rw [partitionLoopChecked, if_neg (by omega),
      if_pos (by rw [hws]; exact Nat.mod_lt _ (by omega)), partitionLoop]
    exact ih _ _ (by rw [List.length_modify]; exact hws)

end RoundRobin

/-! ## Claims C13 and C19: the partition loop -/

section PartitionClaims

/-- C13 (amended): for every input whose lines are shorter than 65536 bytes
and do not end in a carriage return, and every `nTempFiles = N` (there is no
shard when `N = 0`), after the partition loop and the flush scratch file `j`
(`0 ≤ j < N`) holds exactly the input lines
with zero-based index `i` such that `i mod N = j`, each followed by a newline,
in their input order; and two shards differ by at most one line. -/
theorem SortPar_round_robin (env : Env) (fs : FS) (N : Nat) (data : List Byte)
    (hclean : CleanInput data) (names : List Path)
    (hct : (createTemps N env.tempNames fs []).1 = some names) :
    (∀ (j : Nat) (p : Path), names[j]? = some p →
      flushAll (createTemps N env.tempNames fs []).2 names
          (partitionLoop N (scanAll data) 0 (List.replicate N [])) p =
        some (writeLines (roundRobin N j (splitLines data)))) ∧
    (∀ j k, j < N → k < N →
      (roundRobin N j (splitLines data)).length ≤
        (roundRobin N k (splitLines data)).length + 1) := by
  refine ⟨?_, fun j k hj hk => roundRobin_balanced N j k hj hk _⟩
  intro j p hjp
  obtain ⟨new, g1, g2, g3, -, -⟩ := createTemps_spec N env.tempNames fs [] names
    (createTemps N env.tempNames fs []).2 (by rw [← hct])
  rw [List.nil_append] at g1
  subst g1
  have hlen : (partitionLoop N (scanAll data) 0 (List.replicate N [])).length = N := by
    rw [length_partitionLoop, List.length_replicate]
  have hj : j < N := by
    rw [← g2]
    exact (List.getElem?_eq_some_iff.mp hjp).1
  rw [(flushAll_spec names _ _ g3 (by rw [g2, hlen])).1 j p hjp,
    List.getElem?_eq_getElem (by rw [hlen]; exact hj)]
  have h := partitionLoop_getD N (scanAll data) 0 (List.replicate N []) j
    (by rw [List.length_replicate]; exact hj)
  rw [List.getD_eq_getElem?_getD, List.getElem?_eq_getElem (by rw [hlen]; exact hj),
    Option.getD_some] at h
  rw [h, scanAll_clean data hclean]
  simp [roundRobin, List.enum, List.getD_eq_getElem?_getD, hj]

/-- C13, witness: the lines banana, apple, cherry, apple in two shards. -/
theorem SortPar_round_robin_witness :
    (CleanInput fruitInput ∧
      (createTemps 2 demoEnv.tempNames (fsWith 0 fruitInput) []).1 = some [100, 101]) ∧
    ((∀ (j : Nat) (p : Path), [100, 101][j]? = some p →
      flushAll (createTemps 2 demoEnv.tempNames (fsWith 0 fruitInput) []).2 [100, 101]
          (partitionLoop 2 (scanAll fruitInput) 0 (List.replicate 2 [])) p =
        some (writeLines (roundRobin 2 j (splitLines fruitInput)))) ∧
    (∀ j k, j < 2 → k < 2 →
      (roundRobin 2 j (splitLines fruitInput)).length ≤
        (roundRobin 2 k (splitLines fruitInput)).length + 1)) :=
  ⟨⟨by unfold CleanInput; decide, by decide⟩,
    SortPar_round_robin demoEnv (fsWith 0 fruitInput) 2 fruitInput
      (by unfold CleanInput; decide) [100, 101] (by decide)⟩

/-- C13 as stated fails. The input line `a\r` goes to shard 0 as `a`: the
scanner has dropped the carriage return. Of an input whose first line has
65536 bytes, followed by the line `b`, nothing goes to shard 0: the scanner
stops at the long line. -/
theorem SortPar_round_robin_counterexample :
    ((createTemps 1 demoEnv.tempNames (fsWith 0 [97, 13, 10]) []).1 = some [100] ∧
      flushAll (createTemps 1 demoEnv.tempNames (fsWith 0 [97, 13, 10]) []).2 [100]
          (partitionLoop 1 (scanAll [97, 13, 10]) 0 (List.replicate 1 [])) 100 =
        some [97, 10] ∧
      writeLines (roundRobin 1 0 (splitLines [97, 13, 10])) = [97, 13, 10] ∧
      ([97, 10] : List Byte) ≠ [97, 13, 10]) ∧
    (partitionLoop 1 (scanAll longInput) 0 (List.replicate 1 []) = [[]] ∧
      roundRobin 1 0 (splitLines longInput) = [List.replicate MaxScanTokenSize 97, [98]]) := by
  refine ⟨⟨by decide, by decide, by decide, by decide⟩, ?_, ?_⟩
  · rw [scanAll_longInput]
    rfl
  · rw [splitLines_longInput]
    rfl

theorem scanAll_ne_nil_of_first_short (data : List Byte) (hd : data ≠ [])
    (hfirst : (data.takeWhile (fun b => b != 10)).length < MaxScanTokenSize) :
    scanAll data ≠ [] := by
  have hs : ∃ t r, Scan data = some (t, r) := by
    unfold Scan
    simp only
    rw [if_neg (by omega)]
    cases hdw : data.dropWhile (fun b => b != 10) with
    | cons a rest => exact ⟨_, _, rfl⟩
    | nil =>
      have hne : data.takeWhile (fun b => b != 10) ≠ [] := by
        intro e
        have := List.takeWhile_append_dropWhile (fun b => b != 10) data
        rw [e, hdw] at this
        exact hd this.symm
      simp only [List.isEmpty_iff, hne, if_false]
      exact ⟨_, _, rfl⟩
  obtain ⟨t, r, h⟩ := hs
  rw [scanAll_some h]
  exact List.cons_ne_nil _ _

theorem runPool_no_tasks (K : Nat) (fs : FS) : ∀ (sched : List Nat),
    runPool K sched ⟨[], fs⟩ = ⟨[], fs⟩ := by
  have hstep : ∀ i, poolStep K ⟨[], fs⟩ i = ⟨[], fs⟩ := by
    intro i
    simp [poolStep]
  intro sched
  have hfold : sched.foldl (poolStep K) ⟨[], fs⟩ = ⟨[], fs⟩ := by
    induction sched with
    | nil => rfl
    | cons i t ih => rw [List.foldl_cons, hstep i, ih]
  rw [runPool, hfold]
  rfl

/-- With no scratch file and an input from which no line is read, `SortPar`
takes no modulus and returns `nil`. -/
theorem SortPar_no_shards_nil (env : Env) (sched : List Nat) (fs : FS) (input output : Path)
    (K : Int) (data : List Byte) (hin : fs input = some data) (hs : scanAll data = [])
    (hK : env.makeChan 16 K = true) (hc : env.canCreate output = true) :
    (SortPar env sched fs input output 0 K).verdict = .nil := by
  have hN : env.makeSlice 16 0 = true := by simp [Env.makeSlice]
  unfold SortPar
  simp only [hN, Bool.not_true, Bool.false_eq_true, if_false, Int.toNat_zero, createTemps, hin,
    hs, ne_eq, not_true_eq_false, and_false, hK, partitionLoop, List.replicate, flushAll,
    List.map_nil, runPool_no_tasks, PoolState.allFinished, List.all_nil, if_true, merge,
    mergeOpen, hc]
  rfl

/-- C19 (amended): for every `nTempFiles = N ≥ 1` and every line counter `i`,
the index `i % N` is below the number of writers, and the partition loop with
its run-time checks never panics: it ends with the writers `partitionLoop`
gives. With `nTempFiles = 0` and a non-empty input whose first line is shorter
than 65536 bytes, so that at least one line is read, the loop panics on its
first iteration (integer division by zero), and `SortPar` ends in a panic, not
in a returned error. -/
theorem SortPar_partition_index_safe (N : Nat) (hN : 1 ≤ N) (ls : List Line) (i : Nat)
    (ws : List (List Byte)) (hws : ws.length = N)
    (env : Env) (sched : List Nat) (fs : FS) (input output : Path) (nParSorts : Int)
    (data : List Byte) (hin : fs input = some data) (hd : data ≠ [])
    (hfirst : (data.takeWhile (fun b => b != 10)).length < MaxScanTokenSize) :
    (i % N < ws.length ∧
      partitionLoopChecked N ls i ws = some (partitionLoop N ls i ws)) ∧
    (partitionLoopChecked 0 (scanAll data) 0 (List.replicate 0 []) = none ∧
      SortPar env sched fs input output 0 nParSorts = .panicked) := by
  have hne := scanAll_ne_nil_of_first_short data hd hfirst
  refine ⟨⟨by rw [hws]; exact Nat.mod_lt _ (by omega), partitionLoopChecked_eq N hN ls i ws hws⟩,
    ?_, ?_⟩
  · cases h : scanAll data with
    | nil => exact absurd h hne
    | cons l t => rfl
  · simp [SortPar, Env.makeSlice, createTemps, hin, hne]

/-- C19, witness: three lines into two writers, and the input `a` with no
writer. -/
theorem SortPar_partition_index_safe_witness :
    (1 ≤ 2 ∧ ([[], []] : List (List Byte)).length = 2 ∧
      fsWith 0 [97, 10] 0 = some [97, 10] ∧ ([97, 10] : List Byte) ≠ [] ∧
      (([97, 10] : List Byte).takeWhile (fun b => b != 10)).length < MaxScanTokenSize) ∧
    ((5 % 2 < ([[], []] : List (List Byte)).length ∧
      partitionLoopChecked 2 [[98], [97], [99]] 5 [[], []] =
        some (partitionLoop 2 [[98], [97], [99]] 5 [[], []])) ∧
    (partitionLoopChecked 0 (scanAll [97, 10]) 0 (List.replicate 0 []) = none ∧
      SortPar demoEnv [] (fsWith 0 [97, 10]) 0 1 0 1 = .panicked)) :=
  ⟨⟨by decide, by decide, by decide, by decide, by decide⟩,
    SortPar_partition_index_safe 2 (by decide) [[98], [97], [99]] 5 [[], []] (by decide)
      demoEnv [] (fsWith 0 [97, 10]) 0 1 1 [97, 10] (by decide) (by decide) (by decide)⟩

/-- C19 as stated fails in its last part. With `nTempFiles = 0` and the
non-empty input whose first line has 65536 bytes, followed by the line `b`, no
line is read, no modulus is taken, and `SortPar` returns `nil`. -/
theorem SortPar_partition_index_safe_counterexample :
    longInput ≠ [] ∧ fsWith 0 longInput 0 = some longInput ∧
    (SortPar demoEnv [] (fsWith 0 longInput) 0 1 0 1).verdict = .nil := by
  have hin : fsWith 0 longInput 0 = some longInput := by simp [fsWith]
  refine ⟨?_, hin, ?_⟩
  · unfold longInput
    simp
  · exact SortPar_no_shards_nil demoEnv [] (fsWith 0 longInput) 0 1 1 longInput hin
      scanAll_longInput (by decide) (by decide)

end PartitionClaims

/-! ## Claim C15: `sortOne` -/

section SortOneClaims

theorem splitLines_no_newline_of_clean {d : List Byte} (h : CleanInput d) :
    ∀ l ∈ splitLines d, (10 : Byte) ∉ l ∧ l.length < MaxScanTokenSize := by
  intro l hl
  rw [← scanAll_clean d h] at hl
  exact scanAll_token d.length d (le_refl _) l hl

/-- C15 (amended): for every shard file whose lines are shorter than 65536
bytes and do not end in a carriage return, after `sortOne` the shard file
holds exactly the same multiset of lines as before, each followed by a
newline, in non-decreasing byte-wise lexicographic order; no other file is
touched. -/
theorem sortOne_sorts_shard (fs : FS) (scratchfile : Path) (data : List Byte)
    (hfs : fs scratchfile = some data) (hclean : CleanInput data) :
    ∃ out, sortOne fs scratchfile scratchfile = some out ∧
      (↑(splitLines out) : Multiset Line) = ↑(splitLines data) ∧
      out = writeLines (splitLines out) ∧
      (splitLines out).Sorted (fun a b => a ≤ b) ∧
      ∀ q, q ≠ scratchfile → sortOne fs scratchfile q = fs q := by
  have hsplit : splitLines (sortOneContent data) = sortStrings (splitLines data) := by
    unfold sortOneContent
    rw [scanAll_clean data hclean]
    apply splitLines_writeLines
    intro l hl
    exact (splitLines_no_newline_of_clean hclean l
      ((sortStrings_perm _).mem_iff.mp hl)).1
  refine ⟨sortOneContent data, ?_, ?_, ?_, ?_, ?_⟩
  · simp [sortOne, hfs, FS.write_same]
  · rw [hsplit, Multiset.coe_eq_coe]
    exact sortStrings_perm _
  · rw [hsplit]
    unfold sortOneContent
    rw [scanAll_clean data hclean]
  · rw [hsplit]
    exact sortStrings_sorted _
  · intro q hq
    exact FS.write_other _ _ hq

/-- C15, witness: the shard banana, apple, cherry, apple. -/
theorem sortOne_sorts_shard_witness :
    (fsWith 0 fruitInput 0 = some fruitInput ∧ CleanInput fruitInput) ∧
    ∃ out, sortOne (fsWith 0 fruitInput) 0 0 = some out ∧
      (↑(splitLines out) : Multiset Line) = ↑(splitLines fruitInput) ∧
      out = writeLines (splitLines out) ∧
      (splitLines out).Sorted (fun a b => a ≤ b) ∧
      ∀ q, q ≠ 0 → sortOne (fsWith 0 fruitInput) 0 q = fsWith 0 fruitInput q :=
  ⟨⟨by decide, by unfold CleanInput; decide⟩,
    sortOne_sorts_shard (fsWith 0 fruitInput) 0 fruitInput (by decide)
      (by unfold CleanInput; decide)⟩

/-- C15 as stated fails. A shard holding the line `a\r` holds the line `a`
after `sortOne`: the scanner has dropped the carriage return. A shard whose
first line has 65536 bytes is empty after `sortOne`: its lines are lost. -/
theorem sortOne_sorts_shard_counterexample :
    (sortOne (fsWith 0 [97, 13, 10]) 0 0 = some [97, 10] ∧
      splitLines [97, 13, 10] = [[97, 13]] ∧ splitLines [97, 10] = [[97]] ∧
      (↑(splitLines [97, 10]) : Multiset Line) ≠ ↑(splitLines [97, 13, 10])) ∧
    (sortOne (fsWith 0 longInput) 0 0 = some [] ∧
      splitLines longInput = List.replicate MaxScanTokenSize 97 :: [[98]]) := by
  refine ⟨⟨by decide, by decide, by decide, ?_⟩, ?_, ?_⟩
  · rw [Ne, Multiset.coe_eq_coe]; decide
  · have h : fsWith 0 longInput 0 = some longInput := by simp [fsWith]
    simp only [sortOne, h, Option.getD_some, FS.write_same, sortOneContent, scanAll_longInput]
    rfl
  · unfold longInput
    rw [splitLines_line _ _ (by
      intro h
      have := List.eq_of_mem_replicate h
      exact absurd this (by decide))]
    rfl

end SortOneClaims

/-! ## The merge loop, iteration by iteration -/

section MergeTrace

theorem mergeLoop_written : ∀ (k : Nat) (st : MergeState),
    (mergeLoop k st).written =
      st.written ++ writeLines ((mergeTrace k st).map (fun e => e.str)) := by
  intro k
  induction k with
  | zero => intro st; simp [mergeLoop, mergeTrace, writeLines]
  | succ k ih =>
    intro st
    rw [mergeLoop, mergeTrace]
    by_cases h : st.mergeheap.Len = 0
    · simp [h, writeLines]
    · rw [if_neg h, if_neg h, ih, mergeStep_written]
      simp [writeLines, List.append_assoc]

theorem fromShard_append (i : Nat) (a b : List stringPosPair) :
    fromShard i (a ++ b) = fromShard i a ++ fromShard i b := by
  simp [fromShard]

theorem fromShard_singleton_self (e : stringPosPair) : fromShard e.pos [e] = [e.str] := by
  simp [fromShard]

theorem fromShard_singleton_ne (i : Nat) (e : stringPosPair) (h : e.pos ≠ i) :
    fromShard i [e] = [] := by
  simp [fromShard, h]

theorem heapPop_nodup (h : stringPosPairHeap) (hne : h ≠ [])
    (hnd : (h.map (fun e => e.pos)).Nodup) :
    ((heap.Pop h).2.map (fun e => e.pos)).Nodup ∧
      ∀ e ∈ (heap.Pop h).2, e.pos ≠ (heap.Pop h).1.pos := by
  have hp := (heapPop_perm h hne).map (fun e => e.pos)
  have hnd2 := hp.nodup_iff.mpr hnd
  rw [List.map_cons, List.nodup_cons] at hnd2
  refine ⟨hnd2.2, fun e he heq => hnd2.1 ?_⟩
  rw [← heq]
  exact List.mem_map_of_mem _ he

theorem heapPush_nodup (h : stringPosPairHeap) (x : stringPosPair)
    (hnd : (h.map (fun e => e.pos)).Nodup) (hx : ∀ e ∈ h, e.pos ≠ x.pos) :
    ((heap.Push h x).map (fun e => e.pos)).Nodup := by
  have hp := (heapPush_perm h x).map (fun e => e.pos)
  rw [hp.nodup_iff, List.map_cons, List.nodup_cons]
  refine ⟨?_, hnd⟩
  intro hmem
  obtain ⟨e, he, heq⟩ := List.mem_map.mp hmem
  exact hx e he heq

/-- One iteration of the merge loop keeps the merge-heap invariant, with the
popped entry added to the emitted ones. -/
theorem mergeStep_inv (L : List (List Line)) (st : MergeState) (em : List stringPosPair)
    (hne : st.mergeheap ≠ []) (h : MergeInv L st em) :
    MergeInv L (mergeStep st) (em ++ [(heap.Pop st.mergeheap).1]) := by
  obtain ⟨hlen, hnd, hem, hentry, hnone⟩ := h
  have hx : (heap.Pop st.mergeheap).1 ∈ st.mergeheap := (mem_heapPop _ hne _).2 (Or.inl rfl)
  obtain ⟨hnd1, hne1⟩ := heapPop_nodup st.mergeheap hne hnd
  obtain ⟨hxlt, hxeq⟩ := hentry _ hx
  have hem' : ∀ e ∈ em ++ [(heap.Pop st.mergeheap).1], e.pos < L.length := by
    intro e he
    rcases List.mem_append.mp he with he | he
    · exact hem e he
    · rw [List.mem_singleton] at he; rw [he]; exact hxlt
  have hother : ∀ i, i ≠ (heap.Pop st.mergeheap).1.pos →
      fromShard i (em ++ [(heap.Pop st.mergeheap).1]) = fromShard i em := by
    intro i hi
    rw [fromShard_append, fromShard_singleton_ne i _ (fun e => hi e.symm), List.append_nil]
  have hself : fromShard (heap.Pop st.mergeheap).1.pos (em ++ [(heap.Pop st.mergeheap).1]) =
      fromShard (heap.Pop st.mergeheap).1.pos em ++ [(heap.Pop st.mergeheap).1.str] := by
    rw [fromShard_append, fromShard_singleton_self]
  rcases mergeStep_cases st with ⟨hs, e⟩ | ⟨tok, rest, hs, e⟩
  · rw [e]
    refine ⟨hlen, hnd1, hem', ?_, ?_⟩
    · intro e1 he1
      have hmem : e1 ∈ st.mergeheap := (mem_heapPop _ hne _).2 (Or.inr he1)
      obtain ⟨g1, g2⟩ := hentry e1 hmem
      refine ⟨g1, ?_⟩
      rw [hother _ (hne1 e1 he1)]
      exact g2
    · intro i hi hno
      by_cases hip : i = (heap.Pop st.mergeheap).1.pos
      · subst hip
        rw [hself, hxeq, scanAll_none hs]
        exact ⟨rfl, hs⟩
      · rw [hother i hip]
        apply hnone i hi
        intro e1 he1
        rcases (mem_heapPop _ hne _).1 he1 with h1 | h1
        · rw [h1]; exact fun e => hip e.symm
        · exact hno e1 h1
  · rw [e]
    have hp := Scan_some_lt hs
    refine ⟨by simp [hlen], ?_, hem', ?_, ?_⟩
    · exact heapPush_nodup _ _ hnd1 hne1
    · intro e1 he1
      rcases (mem_heapPush _ _ _).1 he1 with h1 | h1
      · subst h1
        refine ⟨hxlt, ?_⟩
        simp only
        rw [hself, hxeq, scanAll_some hs, getD_set_self _ _ hp]
        simp
      · have hmem : e1 ∈ st.mergeheap := (mem_heapPop _ hne _).2 (Or.inr h1)
        obtain ⟨g1, g2⟩ := hentry e1 hmem
        refine ⟨g1, ?_⟩
        simp only
        rw [hother _ (hne1 e1 h1), getD_set_ne _ _ (hne1 e1 h1)]
        exact g2
    · intro i hi hno
      have hip : i ≠ (heap.Pop st.mergeheap).1.pos := by
        intro hip
        exact hno ⟨tok, (heap.Pop st.mergeheap).1.pos⟩ ((mem_heapPush _ _ _).2 (Or.inl rfl))
          hip.symm
      simp only
      rw [hother i hip, getD_set_ne _ _ hip]
      apply hnone i hi
      intro e1 he1
      rcases (mem_heapPop _ hne _).1 he1 with h1 | h1
      · rw [h1]; exact fun e => hip e.symm
      · exact hno e1 ((mem_heapPush _ _ _).2 (Or.inr h1))

theorem mergeTrace_succ (k : Nat) (st : MergeState) (hne : st.mergeheap ≠ []) :
    mergeTrace (k + 1) st = (heap.Pop st.mergeheap).1 :: mergeTrace k (mergeStep st) := by
  rw [mergeTrace, if_neg]
  simpa [stringPosPairHeap.Len] using hne

theorem mergeLoop_succ (k : Nat) (st : MergeState) (hne : st.mergeheap ≠ []) :
    mergeLoop (k + 1) st = mergeLoop k (mergeStep st) := by
  rw [mergeLoop, if_neg]
  simpa [stringPosPairHeap.Len] using hne

theorem mergeLoop_done (k : Nat) (st : MergeState) (he : st.mergeheap = []) :
    mergeLoop k st = st ∧ mergeTrace k st = [] := by
  cases k with
  | zero => exact ⟨rfl, rfl⟩
  | succ k => simp [mergeLoop, mergeTrace, stringPosPairHeap.Len, he]

/-- The merge-heap invariant holds at the head of every iteration. -/
theorem mergeLoop_inv (L : List (List Line)) : ∀ (k : Nat) (st : MergeState)
    (em : List stringPosPair), MergeInv L st em →
    MergeInv L (mergeLoop k st) (em ++ mergeTrace k st) := by
  intro k
  induction k with
  | zero => intro st em h; simpa [mergeLoop, mergeTrace] using h
  | succ k ih =>
    intro st em h
    by_cases hne : st.mergeheap = []
    · rw [(mergeLoop_done _ st hne).1, (mergeLoop_done _ st hne).2, List.append_nil]
      exact h
    · rw [mergeLoop_succ k st hne, mergeTrace_succ k st hne]
      have := ih (mergeStep st) _ (mergeStep_inv L st em hne h)
      simpa [List.append_assoc] using this

theorem mergeLoop_heapOK : ∀ (k : Nat) (st : MergeState), HeapOK st.mergeheap →
    HeapOK (mergeLoop k st).mergeheap := by
  intro k
  induction k with
  | zero => intro st h; exact h
  | succ k ih =>
    intro st h
    by_cases hne : st.mergeheap = []
    · rw [(mergeLoop_done _ st hne).1]; exact h
    · rw [mergeLoop_succ k st hne]
      apply ih
      rcases mergeStep_cases st with ⟨_, e⟩ | ⟨tok, rest, _, e⟩
      · rw [e]; exact heapPop_ok _ h
      · rw [e]; exact heapPush_ok _ _ (heapPop_ok _ h)

end MergeTrace

/-! ## The merge-heap invariant after the shards are opened -/

section MergeOpenInv

theorem getD_snoc_lt {α : Type} (l : List (List α)) (x : List α) {k : Nat}
    (hk : k < l.length) : (l ++ [x]).getD k [] = l.getD k [] := by
  simp [List.getD_eq_getElem?_getD, List.getElem?_append_left hk]

theorem getD_snoc_self {α : Type} (l : List (List α)) (x : List α) :
    (l ++ [x]).getD l.length [] = x := by
  simp [List.getD_eq_getElem?_getD]

theorem mergeInv_snoc_none (L : List (List Line)) (st : MergeState) (data : List Byte)
    (h : MergeInv L st []) (hs : Scan data = none) :
    MergeInv (L ++ [scanAll data])
      { st with tempScanners := st.tempScanners ++ [data] } [] := by
  obtain ⟨hlen, hnd, _, hentry, hnone⟩ := h
  refine ⟨by simp [hlen], hnd, ?_, ?_, ?_⟩
  · intro e he
    cases he
  · intro e he
    obtain ⟨g1, g2⟩ := hentry e he
    refine ⟨by rw [List.length_append]; omega, ?_⟩
    simp only
    rw [getD_snoc_lt L _ g1, getD_append_lt _ _ (by rw [hlen]; exact g1)]
    exact g2
  · intro i hi hno
    simp only [List.length_append, List.length_singleton] at hi
    simp only at hno ⊢
    by_cases hlt : i < L.length
    · rw [getD_snoc_lt L _ hlt, getD_append_lt _ _ (by rw [hlen]; exact hlt)]
      exact hnone i hlt hno
    · have hi' : i = L.length := by omega
      subst hi'
      rw [getD_snoc_self, ← hlen, getD_append_self, scanAll_none hs]
      exact ⟨rfl, hs⟩

theorem mergeInv_snoc_some (L : List (List Line)) (st : MergeState) (data : List Byte)
    (tok : Line) (rest : List Byte) (h : MergeInv L st []) (hs : Scan data = some (tok, rest)) :
    MergeInv (L ++ [scanAll data])
      { st with mergeheap := heap.Push st.mergeheap ⟨tok, L.length⟩,
                tempScanners := st.tempScanners ++ [rest] } [] := by
  obtain ⟨hlen, hnd, _, hentry, hnone⟩ := h
  have hfresh : ∀ e ∈ st.mergeheap, e.pos ≠ L.length := by
    intro e he
    have := (hentry e he).1
    omega
  refine ⟨by simp [hlen], heapPush_nodup _ _ hnd hfresh, ?_, ?_, ?_⟩
  · intro e he
    cases he
  · intro e he
    simp only at he ⊢
    rcases (mem_heapPush _ _ _).1 he with h1 | h1
    · subst h1
      refine ⟨by rw [List.length_append]; simp, ?_⟩
      simp only
      rw [getD_snoc_self, ← hlen, getD_append_self, scanAll_some hs]
      rfl
    · obtain ⟨g1, g2⟩ := hentry e h1
      refine ⟨by rw [List.length_append]; omega, ?_⟩
      rw [getD_snoc_lt L _ g1, getD_append_lt _ _ (by rw [hlen]; exact g1)]
      exact g2
  · intro i hi hno
    simp only [List.length_append, List.length_singleton] at hi
    simp only at hno ⊢
    have hne : i ≠ L.length := by
      intro e
      exact hno ⟨tok, L.length⟩ ((mem_heapPush _ _ _).2 (Or.inl rfl)) e.symm
    have hlt : i < L.length := by omega
    rw [getD_snoc_lt L _ hlt, getD_append_lt _ _ (by rw [hlen]; exact hlt)]
    exact hnone i hlt (fun e he => hno e ((mem_heapPush _ _ _).2 (Or.inr he)))

/-- Opening the shards establishes the merge-heap invariant, for the lines
the scanners find in the shards. -/
theorem mergeOpen_inv (fs : FS) : ∀ (ps : List Path) (i : Nat) (st st' : MergeState)
    (L : List (List Line)), L.length = i → MergeInv L st [] →
    mergeOpen fs ps i st = .ok st' →
    MergeInv (L ++ ps.map (fun p => scanAll ((fs p).getD []))) st' [] := by
  intro ps
  induction ps with
  | nil =>
    intro i st st' L _ h ho
    simp only [mergeOpen, Except.ok.injEq] at ho
    subst ho
    simpa using h
  | cons p ps ih =>
    intro i st st' L hi h ho
    rw [mergeOpen] at ho
    cases hd : fs p with
    | none => simp [hd] at ho
    | some data =>
      simp only [hd] at ho
      cases hs : Scan data with
      | none =>
        simp only [hs] at ho
        have := ih (i + 1) _ st' (L ++ [scanAll data]) (by simp [hi])
          (mergeInv_snoc_none L st data h hs) ho
        simpa [hd, List.append_assoc] using this
      | some tr =>
        obtain ⟨tok, rest⟩ := tr
        simp only [hs] at ho
        subst hi
        have := ih (L.length + 1) _ st' (L ++ [scanAll data]) (by simp)
          (mergeInv_snoc_some L st data tok rest h hs) ho
        simpa [hd, List.append_assoc] using this

theorem mergeOpen_heapOK (fs : FS) : ∀ (ps : List Path) (i : Nat) (st st' : MergeState),
    HeapOK st.mergeheap → mergeOpen fs ps i st = .ok st' → HeapOK st'.mergeheap := by
  intro ps
  induction ps with
  | nil =>
    intro i st st' h ho
    simp only [mergeOpen, Except.ok.injEq] at ho
    subst ho
    exact h
  | cons p ps ih =>
    intro i st st' h ho
    rw [mergeOpen] at ho
    cases hd : fs p with
    | none => simp [hd] at ho
    | some data =>
      simp only [hd] at ho
      cases hs : Scan data with
      | none =>
        simp only [hs] at ho
        exact ih (i + 1) { st with tempScanners := st.tempScanners ++ [data] } st' h ho
      | some tr =>
        obtain ⟨tok, rest⟩ := tr
        simp only [hs] at ho
        exact ih (i + 1) _ st' (heapPush_ok _ _ h) ho

theorem mergeInv_init : MergeInv [] ⟨[], [], []⟩ [] := by
  refine ⟨rfl, List.nodup_nil, ?_, ?_, ?_⟩
  · intro e he
    cases he
  · intro e he
    cases he
  · intro i hi
    simp at hi

theorem heapOK_nil : HeapOK [] := by
  intro k _ hk
  simp at hk

theorem noOrphan_of_inv {L : List (List Line)} {st : MergeState} {em : List stringPosPair}
    (h : MergeInv L st em) : NoOrphan st := by
  intro i hi
  by_cases hlt : i < L.length
  · exact (h.2.2.2.2 i hlt hi).2
  · rw [getD_nil_of_le _ _ (by rw [h.1]; omega)]
    exact Scan_nil

/-- At most one heap entry per shard: the heap is not larger than the number
of shards. -/
theorem mergeInv_size {L : List (List Line)} {st : MergeState} {em : List stringPosPair}
    (h : MergeInv L st em) : st.mergeheap.length ≤ L.length := by
  have hsub : (st.mergeheap.map (fun e => e.pos)) ⊆ List.range L.length := by
    intro x hx
    obtain ⟨e, he, rfl⟩ := List.mem_map.mp hx
    exact List.mem_range.mpr (h.2.2.2.1 e he).1
  have := (List.subperm_of_subset h.2.1 hsub).length_le
  simpa using this

end MergeOpenInv

/-! ## Counting the iterations of the merge loop -/

section MergeCount

theorem linesLeft_step (st : MergeState) (hne : st.mergeheap ≠ []) :
    (heapLines (mergeStep st).mergeheap).length +
        (pendingLines (mergeStep st).tempScanners).length + 1 =
      (heapLines st.mergeheap).length + (pendingLines st.tempScanners).length := by
  have := (mergeStep_perm st hne []).length_eq
  simp only [List.nil_append, List.length_append, List.length_singleton] at this
  omega

theorem pending_nil_of_heap_nil (st : MergeState) (hno : NoOrphan st)
    (he : st.mergeheap = []) : pendingLines st.tempScanners = [] := by
  apply pendingLines_exhausted
  intro i
  apply hno i
  rw [he]
  intro e h
  cases h

/-- While lines are left the heap is not empty, and every iteration pops
one entry. -/
theorem mergeLoop_running : ∀ (k : Nat) (st : MergeState), NoOrphan st →
    k < (heapLines st.mergeheap).length + (pendingLines st.tempScanners).length →
    (mergeLoop k st).mergeheap ≠ [] ∧ (mergeTrace k st).length = k := by
  intro k
  induction k with
  | zero =>
    intro st hno hk
    refine ⟨?_, rfl⟩
    intro he
    change st.mergeheap = [] at he
    rw [pending_nil_of_heap_nil st hno he, he] at hk
    simp [heapLines] at hk
  | succ k ih =>
    intro st hno hk
    have hne : st.mergeheap ≠ [] := by
      intro he
      rw [pending_nil_of_heap_nil st hno he, he] at hk
      simp [heapLines] at hk
    rw [mergeLoop_succ k st hne, mergeTrace_succ k st hne]
    have hstep := linesLeft_step st hne
    obtain ⟨g1, g2⟩ := ih (mergeStep st) (mergeStep_noOrphan st hne hno) (by omega)
    exact ⟨g1, by simp [g2]⟩

/-- After as many iterations as there are lines left the heap is empty, and
exactly that many entries have been popped. -/
theorem mergeLoop_finished : ∀ (k : Nat) (st : MergeState), NoOrphan st →
    (heapLines st.mergeheap).length + (pendingLines st.tempScanners).length ≤ k →
    (mergeLoop k st).mergeheap = [] ∧
      (mergeTrace k st).length =
        (heapLines st.mergeheap).length + (pendingLines st.tempScanners).length := by
  intro k
  induction k with
  | zero =>
    intro st hno hk
    have h0 : (heapLines st.mergeheap).length = 0 := by omega
    have hp : (pendingLines st.tempScanners).length = 0 := by omega
    refine ⟨?_, ?_⟩
    · change st.mergeheap = []
      simpa [heapLines] using h0
    · rw [h0, hp]; rfl
  | succ k ih =>
    intro st hno hk
    by_cases he : st.mergeheap = []
    · rw [(mergeLoop_done _ st he).1, (mergeLoop_done _ st he).2,
        pending_nil_of_heap_nil st hno he, he]
      exact ⟨rfl, rfl⟩
    · rw [mergeLoop_succ k st he, mergeTrace_succ k st he]
      have hstep := linesLeft_step st he
      obtain ⟨g1, g2⟩ := ih (mergeStep st) (mergeStep_noOrphan st he hno) (by omega)
      refine ⟨g1, ?_⟩
      rw [List.length_cons, g2]
      omega

/-- Once the heap is empty further iterations do nothing. -/
theorem mergeLoop_stable : ∀ (k : Nat) (st : MergeState) (j : Nat),
    (mergeLoop k st).mergeheap = [] → k ≤ j →
    mergeLoop j st = mergeLoop k st ∧ mergeTrace j st = mergeTrace k st := by
  intro k
  induction k with
  | zero =>
    intro st j he _
    change st.mergeheap = [] at he
    exact ⟨(mergeLoop_done j st he).1, (mergeLoop_done j st he).2⟩
  | succ k ih =>
    intro st j he hj
    by_cases hne : st.mergeheap = []
    · rw [(mergeLoop_done j st hne).1, (mergeLoop_done j st hne).2,
        (mergeLoop_done _ st hne).1, (mergeLoop_done _ st hne).2]
      exact ⟨rfl, rfl⟩
    · rw [mergeLoop_succ k st hne] at he
      obtain ⟨j', rfl⟩ : ∃ j', j = j' + 1 := ⟨j - 1, by omega⟩
      rw [mergeLoop_succ j' st hne, mergeLoop_succ k st hne, mergeTrace_succ j' st hne,
        mergeTrace_succ k st hne]
      obtain ⟨g1, g2⟩ := ih (mergeStep st) j' he (by omega)
      exact ⟨g1, by rw [g2]⟩

theorem shortLines_nil : ShortLines [] := by
  intro l hl
  cases hl

/-- A successful `Scan` of a file with short lines leaves a file with short
lines. -/
theorem shortLines_rest {d : List Byte} {t : Line} {r : List Byte} (hd : ShortLines d)
    (h : Scan d = some (t, r)) : ShortLines r := by
  rcases raw_line_cases d with ⟨_, h2⟩ | ⟨rest, h1, h2⟩
  · unfold Scan at h
    simp only [h2] at h
    split_ifs at h with c1 c2
    simp only [Option.some.injEq, Prod.mk.injEq] at h
    rw [← h.2]
    exact shortLines_nil
  · unfold Scan at h
    simp only [h2] at h
    split_ifs at h with c1
    simp only [Option.some.injEq, Prod.mk.injEq] at h
    rw [← h.2]
    intro l hl
    apply hd l
    rw [h1, splitLines_line _ _ (takeWhile_no_newline d)]
    exact List.mem_cons_of_mem _ hl

/-- On a file with short lines `Scan` fails only at the end of the file. -/
theorem scan_none_short {d : List Byte} (hd : ShortLines d) (h : Scan d = none) : d = [] := by
  by_contra hne
  rcases raw_line_cases d with ⟨h1, _⟩ | ⟨rest, h1, _⟩
  · have hnl : (10 : Byte) ∉ d := by
      rw [h1]; exact takeWhile_no_newline d
    have hs := hd d (by rw [splitLines_last d hnl hne]; simp)
    rw [Scan_last d hnl hne hs] at h
    cases h
  · have hnl := takeWhile_no_newline d
    have hs := hd (d.takeWhile (fun b => b != 10)) (by
      rw [h1, splitLines_line _ _ (takeWhile_no_newline d)]
      rw [← h1]
      exact List.mem_cons_self _ _)
    rw [h1, Scan_line _ _ hnl hs] at h
    cases h

/-- The scanner finds as many lines as a file of short lines has. -/
theorem length_scanAll_short {d : List Byte} (hd : ShortLines d) :
    (scanAll d).length = (splitLines d).length := by
  rw [scanAll_eq_splitLines d.length d (le_refl _)]
  have : (splitLines d).takeWhile shortLine = splitLines d := by
    rw [List.takeWhile_eq_self_iff]
    intro l hl
    simpa [shortLine] using hd l hl
  rw [this, List.length_map]

end MergeCount

/-! ## The merge loop on the shards of `merge` -/

section MergeShards

theorem mergeStep_short (st : MergeState) (h : ∀ d ∈ st.tempScanners, ShortLines d) :
    ∀ d ∈ (mergeStep st).tempScanners, ShortLines d := by
  rcases mergeStep_cases st with ⟨_, e⟩ | ⟨tok, rest, hs, e⟩
  · rw [e]; exact h
  · rw [e]
    intro d hd
    rcases List.mem_or_eq_of_mem_set hd with h1 | h1
    · exact h d h1
    · rw [h1]
      refine shortLines_rest (h _ ?_) hs
      have hp := Scan_some_lt hs
      rw [List.getD_eq_getElem?_getD, List.getElem?_eq_getElem hp, Option.getD_some]
      exact List.getElem_mem hp

theorem mergeLoop_short : ∀ (k : Nat) (st : MergeState),
    (∀ d ∈ st.tempScanners, ShortLines d) →
    ∀ d ∈ (mergeLoop k st).tempScanners, ShortLines d := by
  intro k
  induction k with
  | zero => intro st h; exact h
  | succ k ih =>
    intro st h
    by_cases hne : st.mergeheap = []
    · rw [(mergeLoop_done _ st hne).1]; exact h
    · rw [mergeLoop_succ k st hne]
      exact ih _ (mergeStep_short st h)

theorem mergeOpen_short (fs : FS) : ∀ (ps : List Path) (i : Nat) (st st' : MergeState),
    (∀ d ∈ st.tempScanners, ShortLines d) → (∀ p ∈ ps, ShortLines ((fs p).getD [])) →
    mergeOpen fs ps i st = .ok st' → ∀ d ∈ st'.tempScanners, ShortLines d := by
  intro ps
  induction ps with
  | nil =>
    intro i st st' h _ ho
    simp only [mergeOpen, Except.ok.injEq] at ho
    subst ho
    exact h
  | cons p ps ih =>
    intro i st st' h hps ho
    rw [mergeOpen] at ho
    have hp := hps p (List.mem_cons_self _ _)
    have hps' : ∀ q ∈ ps, ShortLines ((fs q).getD []) :=
      fun q hq => hps q (List.mem_cons_of_mem _ hq)
    cases hd : fs p with
    | none => simp [hd] at ho
    | some data =>
      simp only [hd] at ho
      rw [hd, Option.getD_some] at hp
      cases hs : Scan data with
      | none =>
        simp only [hs] at ho
        refine ih (i + 1) { st with tempScanners := st.tempScanners ++ [data] } st' ?_ hps' ho
        intro d hd'
        rcases List.mem_append.mp hd' with h1 | h1
        · exact h d h1
        · rw [List.mem_singleton] at h1; rw [h1]; exact hp
      | some tr =>
        obtain ⟨tok, rest⟩ := tr
        simp only [hs] at ho
        refine ih (i + 1) _ st' ?_ hps' ho
        intro d hd'
        rcases List.mem_append.mp hd' with h1 | h1
        · exact h d h1
        · rw [List.mem_singleton] at h1; rw [h1]; exact shortLines_rest hp hs

theorem mem_fromShard {i : Nat} {es : List stringPosPair} {l : Line}
    (h : l ∈ fromShard i es) : ∃ e ∈ es, e.pos = i ∧ e.str = l := by
  unfold fromShard at h
  obtain ⟨e, he, rfl⟩ := List.mem_map.mp h
  rw [List.mem_filter] at he
  exact ⟨e, he.1, by simpa using he.2, rfl⟩

/-- What the two loops of `merge` do on shards that can be opened, for the
lines `L` the scanners find in them: the first loop ends in a state `st0`;
the invariant holds at the head of every iteration; the output written up to
there is the popped entries, each followed by `\n`. -/
theorem merge_loops (fs : FS) (filenames : List Path)
    (hex : ∀ p ∈ filenames, (fs p).isSome) :
    ∃ st0, mergeOpen fs filenames 0 ⟨[], [], []⟩ = .ok st0 ∧ st0.written = [] ∧
      HeapOK st0.mergeheap ∧ NoOrphan st0 ∧
      (heapLines st0.mergeheap).length + (pendingLines st0.tempScanners).length =
        ((filenames.map (fun p => scanAll ((fs p).getD []))).flatten).length ∧
      ∀ k, MergeInv (filenames.map (fun p => scanAll ((fs p).getD []))) (mergeLoop k st0)
          (mergeTrace k st0) ∧
        HeapOK (mergeLoop k st0).mergeheap ∧
        (mergeLoop k st0).written = writeLines ((mergeTrace k st0).map (fun e => e.str)) := by
  obtain ⟨st0, h1, h2, _, h4, _, _⟩ := mergeOpen_spec fs filenames 0 ⟨[], [], []⟩ rfl hex
  have hinv := mergeOpen_inv fs filenames 0 ⟨[], [], []⟩ st0 [] rfl mergeInv_init h1
  rw [List.nil_append] at hinv
  have hok := mergeOpen_heapOK fs filenames 0 ⟨[], [], []⟩ st0 heapOK_nil h1
  refine ⟨st0, h1, h2, hok, noOrphan_of_inv hinv, ?_, ?_⟩
  · have := h4.length_eq
    simpa [heapLines, pendingLines] using this
  · intro k
    have := mergeLoop_inv _ k st0 [] hinv
    rw [List.nil_append] at this
    refine ⟨this, mergeLoop_heapOK k st0 hok, ?_⟩
    rw [mergeLoop_written, h2, List.nil_append]

theorem scanned_eq_shardLines (fs : FS) (filenames : List Path)
    (hclean : ∀ p ∈ filenames, CleanInput ((fs p).getD [])) :
    filenames.map (fun p => scanAll ((fs p).getD [])) = shardLines fs filenames :=
  List.map_congr_left (fun p hp => scanAll_clean _ (hclean p hp))

theorem length_scanned_short (fs : FS) : ∀ (filenames : List Path),
    (∀ p ∈ filenames, ShortLines ((fs p).getD [])) →
    ((filenames.map (fun p => scanAll ((fs p).getD []))).flatten).length =
      ((shardLines fs filenames).flatten).length := by
  intro filenames
  induction filenames with
  | nil => intro _; rfl
  | cons p ps ih =>
    intro h
    simp only [shardLines, List.map_cons, List.flatten_cons, List.length_append]
    rw [length_scanAll_short (h p (List.mem_cons_self _ _))]
    have := ih (fun q hq => h q (List.mem_cons_of_mem _ hq))
    simp only [shardLines] at this
    rw [this]

end MergeShards

/-! ## Claims C14, C16, C17 and C18: `merge` -/

section MergeClaims

/-- C16 (amended): for shards that can be opened and whose lines are shorter
than 65536 bytes and do not end in a carriage return, sorted or not, at the
head of every iteration of the merge loop (after `k` iterations, or at the end
of the loop when it has fewer): the output written so far is the popped
entries; no two heap entries have the same shard index, so the heap is not
larger than the number of shards; every heap entry is the line of its shard
that follows the lines already emitted from that shard, and the lines after it
are what the scanner of the shard has still to yield; a shard without a heap
entry has been emitted in full; and the entry popped next is not above any
heap entry. -/
theorem merge_heap_invariant (fs : FS) (filenames : List Path)
    (hex : ∀ p ∈ filenames, (fs p).isSome)
    (hclean : ∀ p ∈ filenames, CleanInput ((fs p).getD [])) (k : Nat) :
    ∃ st0, mergeOpen fs filenames 0 ⟨[], [], []⟩ = .ok st0 ∧
      (mergeLoop k st0).written = writeLines ((mergeTrace k st0).map (fun e => e.str)) ∧
      ((mergeLoop k st0).mergeheap.map (fun e => e.pos)).Nodup ∧
      (mergeLoop k st0).mergeheap.length ≤ filenames.length ∧
      (∀ e ∈ (mergeLoop k st0).mergeheap, e.pos < filenames.length ∧
        (shardLines fs filenames).getD e.pos [] =
          fromShard e.pos (mergeTrace k st0) ++
            e.str :: scanAll ((mergeLoop k st0).tempScanners.getD e.pos [])) ∧
      (∀ i, i < filenames.length → (∀ e ∈ (mergeLoop k st0).mergeheap, e.pos ≠ i) →
        (shardLines fs filenames).getD i [] = fromShard i (mergeTrace k st0)) ∧
      ((mergeLoop k st0).mergeheap ≠ [] →
        ∀ e ∈ (mergeLoop k st0).mergeheap,
          (heap.Pop (mergeLoop k st0).mergeheap).1.str ≤ e.str) := by
  obtain ⟨st0, h1, _, _, _, _, hk⟩ := merge_loops fs filenames hex
  obtain ⟨hinv, hok, hw⟩ := hk k
  rw [scanned_eq_shardLines fs filenames hclean] at hinv
  have hlen : (shardLines fs filenames).length = filenames.length := by simp [shardLines]
  have hsize := mergeInv_size hinv
  obtain ⟨_, hnd, _, hentry, hnone⟩ := hinv
  rw [hlen] at hentry hnone hsize
  exact ⟨st0, h1, hw, hnd, hsize, hentry, fun i hi hno => (hnone i hi hno).1,
    fun hne => heapPop_min _ hne hok⟩

/-- C17 (amended): for every list of shards that can be opened and whose
lines are shorter than 65536 bytes, with `n` the number of lines in all shards
together: at the head of each of the first `n` iterations the heap is not
empty, and `k` entries have been popped after `k` of them; after `n`
iterations, and from then on, the heap is empty, exactly `n` entries have been
popped, and every shard scanner has nothing left to read; the number of
iterations `merge` allows for is at least `n`. -/
theorem merge_terminates (fs : FS) (filenames : List Path)
    (hex : ∀ p ∈ filenames, (fs p).isSome)
    (hshort : ∀ p ∈ filenames, ShortLines ((fs p).getD [])) :
    ∃ st0, mergeOpen fs filenames 0 ⟨[], [], []⟩ = .ok st0 ∧
      (∀ k, k < ((shardLines fs filenames).flatten).length →
        (mergeLoop k st0).mergeheap ≠ [] ∧ (mergeTrace k st0).length = k) ∧
      (∀ k, ((shardLines fs filenames).flatten).length ≤ k →
        (mergeLoop k st0).mergeheap = [] ∧
        (mergeTrace k st0).length = ((shardLines fs filenames).flatten).length ∧
        (mergeLoop k st0).tempScanners.length = filenames.length ∧
        ∀ d ∈ (mergeLoop k st0).tempScanners, d = []) ∧
      ((shardLines fs filenames).flatten).length ≤ mergeFuel st0 := by
  obtain ⟨st0, h1, h2, _, hno, hrem, hk⟩ := merge_loops fs filenames hex
  rw [length_scanned_short fs filenames hshort] at hrem
  have hrun : ∀ k, k < ((shardLines fs filenames).flatten).length →
      (mergeLoop k st0).mergeheap ≠ [] ∧ (mergeTrace k st0).length = k := by
    intro k hlt
    exact mergeLoop_running k st0 hno (by rw [hrem]; exact hlt)
  refine ⟨st0, h1, hrun, ?_, ?_⟩
  · intro k hle
    obtain ⟨g1, g2⟩ := mergeLoop_finished k st0 hno (by rw [hrem]; exact hle)
    obtain ⟨hinv, _, _⟩ := hk k
    have hshortk := mergeLoop_short k st0
      (mergeOpen_short fs filenames 0 ⟨[], [], []⟩ st0 (fun d hd => by cases hd) hshort h1)
    have hlen : (mergeLoop k st0).tempScanners.length = filenames.length := by
      rw [hinv.1]; simp
    refine ⟨g1, by rw [g2, hrem], hlen, ?_⟩
    intro d hd
    obtain ⟨i, hi, rfl⟩ := List.getElem_of_mem hd
    have hscan := (hinv.2.2.2.2 i (by rw [← hinv.1]; exact hi)
      (fun e he => by rw [g1] at he; cases he)).2
    rw [List.getD_eq_getElem?_getD, List.getElem?_eq_getElem hi, Option.getD_some] at hscan
    exact scan_none_short (hshortk _ (List.getElem_mem hi)) hscan
  · by_contra hlt
    obtain ⟨_, _, g2, _⟩ := mergeLoop_spec (mergeFuel st0) st0 [] (le_refl _) hno
      (by rw [h2]; rfl)
    exact (hrun (mergeFuel st0) (by omega)).1 g2

end MergeClaims

/-! ## Claims C14, C16, C17 and C18 on concrete shards -/

section MergeExamples

theorem shardFS_single (d : List Byte) : shardFS [d] 0 = some d := by simp [shardFS]

theorem shardLines_single (d : List Byte) : shardLines (shardFS [d]) [0] = [splitLines d] := by
  simp [shardLines, shardFS_single]

theorem mergeOpen_single_none (d : List Byte) (h : Scan d = none) :
    mergeOpen (shardFS [d]) [0] 0 ⟨[], [], []⟩ = .ok ⟨[], [d], []⟩ := by
  simp only [mergeOpen, shardFS_single, h, List.nil_append]

theorem mergeOpen_longInput :
    mergeOpen (shardFS [longInput]) [0] 0 ⟨[], [], []⟩ = .ok ⟨[], [longInput], []⟩ :=
  mergeOpen_single_none longInput Scan_longInput

/-- C16, witness: the shards `a`, `c` and `b` after one iteration. -/
theorem merge_heap_invariant_witness :
    ((∀ p ∈ [0, 1], (shardFS demoShards p).isSome) ∧
      (∀ p ∈ [0, 1], CleanInput ((shardFS demoShards p).getD []))) ∧
    ∃ st0, mergeOpen (shardFS demoShards) [0, 1] 0 ⟨[], [], []⟩ = .ok st0 ∧
      (mergeLoop 1 st0).written = writeLines ((mergeTrace 1 st0).map (fun e => e.str)) ∧
      ((mergeLoop 1 st0).mergeheap.map (fun e => e.pos)).Nodup ∧
      (mergeLoop 1 st0).mergeheap.length ≤ [0, 1].length ∧
      (∀ e ∈ (mergeLoop 1 st0).mergeheap, e.pos < [0, 1].length ∧
        (shardLines (shardFS demoShards) [0, 1]).getD e.pos [] =
          fromShard e.pos (mergeTrace 1 st0) ++
            e.str :: scanAll ((mergeLoop 1 st0).tempScanners.getD e.pos [])) ∧
      (∀ i, i < [0, 1].length → (∀ e ∈ (mergeLoop 1 st0).mergeheap, e.pos ≠ i) →
        (shardLines (shardFS demoShards) [0, 1]).getD i [] = fromShard i (mergeTrace 1 st0)) ∧
      ((mergeLoop 1 st0).mergeheap ≠ [] →
        ∀ e ∈ (mergeLoop 1 st0).mergeheap,
          (heap.Pop (mergeLoop 1 st0).mergeheap).1.str ≤ e.str) :=
  ⟨⟨by decide, by unfold CleanInput; decide⟩,
    merge_heap_invariant (shardFS demoShards) [0, 1] (by decide)
      (by unfold CleanInput; decide) 1⟩

/-- C16 as stated fails. For the sorted shard holding the line `a\r` the heap
entry at the head of the first iteration is `a`, not the first line of the
shard. For the shard whose first line has 65536 bytes the heap is empty at
the head of the loop although no line of the shard has been emitted. -/
theorem merge_heap_invariant_counterexample :
    (mergeOpen (shardFS [[97, 13, 10]]) [0] 0 ⟨[], [], []⟩ = .ok ⟨[⟨[97], 0⟩], [[]], []⟩ ∧
      (mergeLoop 0 ⟨[⟨[97], 0⟩], [[]], []⟩).mergeheap = [⟨[97], 0⟩] ∧
      shardLines (shardFS [[97, 13, 10]]) [0] = [[[97, 13]]] ∧
      ([97] : Line) ≠ [97, 13]) ∧
    (mergeOpen (shardFS [longInput]) [0] 0 ⟨[], [], []⟩ = .ok ⟨[], [longInput], []⟩ ∧
      (mergeLoop 0 ⟨[], [longInput], []⟩).mergeheap = [] ∧
      shardLines (shardFS [longInput]) [0] = [[List.replicate MaxScanTokenSize 97, [98]]]) := by
  refine ⟨⟨rfl, rfl, by decide, by decide⟩, mergeOpen_longInput, rfl, ?_⟩
  rw [shardLines_single, splitLines_longInput]

/-- C17, witness: the shards `a`, `c` and `b`. -/
theorem merge_terminates_witness :
    ((∀ p ∈ [0, 1], (shardFS demoShards p).isSome) ∧
      (∀ p ∈ [0, 1], ShortLines ((shardFS demoShards p).getD []))) ∧
    ∃ st0, mergeOpen (shardFS demoShards) [0, 1] 0 ⟨[], [], []⟩ = .ok st0 ∧
      (∀ k, k < ((shardLines (shardFS demoShards) [0, 1]).flatten).length →
        (mergeLoop k st0).mergeheap ≠ [] ∧ (mergeTrace k st0).length = k) ∧
      (∀ k, ((shardLines (shardFS demoShards) [0, 1]).flatten).length ≤ k →
        (mergeLoop k st0).mergeheap = [] ∧
        (mergeTrace k st0).length = ((shardLines (shardFS demoShards) [0, 1]).flatten).length ∧
        (mergeLoop k st0).tempScanners.length = [0, 1].length ∧
        ∀ d ∈ (mergeLoop k st0).tempScanners, d = []) ∧
      ((shardLines (shardFS demoShards) [0, 1]).flatten).length ≤ mergeFuel st0 :=
  ⟨⟨by decide, by unfold ShortLines; decide⟩,
    merge_terminates (shardFS demoShards) [0, 1] (by decide) (by unfold ShortLines; decide)⟩

/-- C17 as stated fails. For the shard whose first line has 65536 bytes,
followed by the line `b`, the merge loop performs no iteration although the
shard has two lines, and the shard has not been read to its end. -/
theorem merge_terminates_counterexample :
    mergeOpen (shardFS [longInput]) [0] 0 ⟨[], [], []⟩ = .ok ⟨[], [longInput], []⟩ ∧
    (∀ k, mergeTrace k ⟨[], [longInput], []⟩ = [] ∧
      (mergeLoop k ⟨[], [longInput], []⟩).tempScanners = [longInput]) ∧
    ((shardLines (shardFS [longInput]) [0]).flatten).length = 2 ∧
    longInput ≠ [] := by
  refine ⟨mergeOpen_longInput, ?_, ?_, ?_⟩
  · intro k
    have h := mergeLoop_done k ⟨[], [longInput], []⟩ rfl
    rw [h.1, h.2]
    exact ⟨rfl, rfl⟩
  · have h : shardFS [longInput] 0 = some longInput := rfl
    simp only [shardLines, List.map_cons, List.map_nil, h, Option.getD_some,
      splitLines_longInput]
    rfl
  · unfold longInput
    simp

end MergeExamples

/-! ## Claim C11: `GetLineSplits` -/

section Splitter

/-- The inner loop does not depend on the fuel once the fuel covers the
chunk. -/
theorem searchChunk_fuel (file : List Byte) (limit : Nat) : ∀ (f g pos : Nat)
    (tempBuf : List Byte), limit ≤ pos + 4096 * f → limit ≤ pos + 4096 * g →
    searchChunk file limit f pos tempBuf = searchChunk file limit g pos tempBuf := by
  intro f
  induction f with
  | zero =>
    intro g pos tempBuf hf _
    cases g with
    | zero => rfl
    | succ g =>
      rw [searchChunk, searchChunk, if_neg (by omega)]
  | succ f ih =>
    intro g pos tempBuf hf hg
    by_cases hlt : pos < limit
    · cases g with
      | zero => omega
      | succ g =>
        rw [searchChunk, searchChunk, if_pos hlt, if_pos hlt]
        cases firstNewline (ReadAt file tempBuf pos) 0 with
        | some i => rfl
        | none => exact ih g (pos + 4096) _ (by omega) (by omega)
    · cases g with
      | zero => rw [searchChunk, searchChunk, if_neg hlt]
      | succ g => rw [searchChunk, searchChunk, if_neg hlt, if_neg hlt]

/-- The fuel `chunkSize` that `splitChunk` gives the inner loop covers the
chunk. -/
theorem splitChunk_fuel (file : List Byte) (chunkSize chunk g : Nat) (tempBuf : List Byte)
    (hg : chunkSize ≤ g) :
    searchChunk file ((chunk + 1) * chunkSize) chunkSize (chunk * chunkSize) tempBuf =
      searchChunk file ((chunk + 1) * chunkSize) g (chunk * chunkSize) tempBuf := by
  apply searchChunk_fuel
  · rw [Nat.add_mul]; omega
  · rw [Nat.add_mul]; omega

theorem splitChunk_length (file : List Byte) (chunkSize : Nat) (s : List Nat × List Byte)
    (chunk : Nat) : (splitChunk file chunkSize s chunk).1.length = s.1.length := by
  unfold splitChunk
  rcases searchChunk file ((chunk + 1) * chunkSize) chunkSize (chunk * chunkSize) s.2 with
    ⟨b, _ | p⟩ <;> simp

theorem splitChunk_zero (file : List Byte) (chunkSize : Nat) (s : List Nat × List Byte)
    (chunk : Nat) (hc : 1 ≤ chunk) : (splitChunk file chunkSize s chunk).1[0]? = s.1[0]? := by
  unfold splitChunk
  rcases searchChunk file ((chunk + 1) * chunkSize) chunkSize (chunk * chunkSize) s.2 with
    ⟨b, _ | p⟩
  · rfl
  · simp only
    rw [List.getElem?_set_ne (by omega)]

theorem splitLoop_spec (file : List Byte) (chunkSize : Nat) : ∀ (chunks : List Nat)
    (s : List Nat × List Byte), (∀ c ∈ chunks, 1 ≤ c) →
    (chunks.foldl (splitChunk file chunkSize) s).1.length = s.1.length ∧
      (chunks.foldl (splitChunk file chunkSize) s).1[0]? = s.1[0]? := by
  intro chunks
  induction chunks with
  | nil => intro s _; exact ⟨rfl, rfl⟩
  | cons c t ih =>
    intro s h
    obtain ⟨g1, g2⟩ := ih (splitChunk file chunkSize s c)
      (fun x hx => h x (List.mem_cons_of_mem _ hx))
    rw [List.foldl_cons, g1, g2, splitChunk_length,
      splitChunk_zero _ _ _ _ (h c (List.mem_cons_self _ _))]
    exact ⟨rfl, rfl⟩

/-- What holds of C11: for a file that exists and every `nSections ≥ 1` for
which `make([]int64, nSections)` goes through, the call returns a slice of
exactly `nSections` entries whose entry 0 is 0. -/
theorem GetLineSplits_shape (env : Env) (fs : FS) (infile : Path) (file : List Byte)
    (nSections : Nat) (hfs : fs infile = some file) (hn : 1 ≤ nSections)
    (hmk : 8 * nSections ≤ env.maxAlloc) :
    ∃ out, GetLineSplits env fs infile nSections = some out ∧ out.length = nSections ∧
      out[0]? = some 0 := by
  have h0 := makeSlice_ok env 8 nSections hmk
  have h1 : ¬ ((nSections : Int) = 0) := by omega
  obtain ⟨g1, g2⟩ := splitLoop_spec file (file.length / nSections)
    (List.range' 1 (nSections - 1)) (List.replicate nSections 0, List.replicate 4096 0)
    (fun c hc => (List.mem_range'_1.mp hc).1)
  refine ⟨_, ?_, g1.trans (by simp), g2.trans ?_⟩
  · simp only [GetLineSplits, h0, Bool.not_true, Bool.false_eq_true, if_false, hfs, if_neg h1,
      Int.toNat_ofNat]
  · simp only
    rw [List.getElem?_replicate]
    simp
    omega

/-- C11 fails on the file holding the lines `ab` and `cd`, each followed by a
newline, with `nSections = 2`: the call returns the positions 0 and 5. A
newline was found for chunk 1, and its entry 5 is not 0, yet the byte before
it is `d`, not a newline: the entry is the position of the newline itself
(byte 5), one below the start of the next line. -/
theorem GetLineSplits_not_line_aligned :
    GetLineSplits demoEnv (fsWith 0 [97, 98, 10, 99, 100, 10]) 0 2 = some [0, 5] ∧
    ([97, 98, 10, 99, 100, 10] : List Byte)[5 - 1]? = some 100 ∧
    ([97, 98, 10, 99, 100, 10] : List Byte)[5]? = some 10 ∧
    (5 : Nat) ≠ 0 ∧ (100 : Byte) ≠ 10 := by
  refine ⟨by decide, by decide, by decide, by decide, by decide⟩

end Splitter

/-! ## The shuffle phase -/

section Shuffle

end Shuffle

/-! ## The shuffle phase runs to its end -/

section ShuffleRun

end ShuffleRun

/-! ## `ShufflePar` from end to end -/

section ShuffleTop

end ShuffleTop

/-! ## Claim C12: `ShufflePar` -/

section ShuffleClaims

end ShuffleClaims

end Fileutils
